import Mathlib

/-!
Verification development for the chessie C++ chess engine core.

The definitions below are a shallow embedding of the engine sources:
  - bitboard.hpp / types.hpp : squares, colors, piece types, 64-bit bitboards
    (modelled as Nat with explicit reduction modulo 2^64 where the C++ code
    relies on unsigned wrap-around),
  - zobrist.hpp : splitmix64 key stream and the key tables,
  - board.hpp / board.cpp : the redundant board representation
    (12 piece bitboards, 2 color occupancies, all-occupancy, 64-slot mailbox),
  - position.hpp / position.cpp : Position, FEN parsing, make/unmake,
    attack queries, repetition counting,
  - movegen.cpp : pseudo-legal and legal generation, castling,
  - move.hpp : Move, UCI serialization and parsing,
  - tt.cpp / tt.hpp : the transposition table and its replacement policy,
  - search.cpp : draw detection and the iterative-deepening root loop.

Slider attacks are embedded as the ray-tracing reference functions
(bishop_attacks_slow / rook_attacks_slow in magic.cpp): the magic tables are
filled from exactly these functions at init time, and a table lookup at
occupancy `occ` returns the ray-traced attack set of `occ & mask`, which has
the same value as the ray-traced attack set of `occ` because squares outside
the relevant-occupancy mask are the final squares of their rays.

Stacks that the C++ code keeps as std::vector with push_back/pop_back are
modelled as lists with the top of the stack at the head.
-/

namespace Chessie

/-- 2^64, the modulus of the engine's 64-bit unsigned arithmetic. -/
def two64 : Nat := 18446744073709551616

/-- All 64 bits set (the value of ~0ULL). -/
def mask64 : Nat := two64 - 1

/-- Complement within 64 bits, the C++ operator ~ on uint64_t. -/
def compl64 (b : Nat) : Nat := mask64 ^^^ b

/-- Bitboards are 64-bit words; we keep them as Nat values below 2^64. -/
abbrev Bitboard := Nat

/-- Squares use little-endian rank-file layout, a1 = 0 .. h8 = 63; 64 is the
"no square" sentinel (types.hpp). -/
abbrev Square := Nat

/-- Nat sentinel kNoSquare. -/
def noSquare : Nat := 64

/-- File of a square (sq & 7 in types.hpp). -/
def fileOf (sq : Nat) : Nat := sq % 8

/-- Rank of a square (sq >> 3 in types.hpp). -/
def rankOf (sq : Nat) : Nat := sq / 8

/-- Build a square from file and rank (rank * 8 + file). -/
def mkSquare (f r : Nat) : Nat := r * 8 + f

/-- Single-bit bitboard for a square (1ULL << sq, reduced mod 2^64). -/
def squareBB (sq : Nat) : Bitboard := (1 <<< sq) % two64

/-- Set a square bit (set_bit in bitboard.hpp). -/
def setBitBB (b : Bitboard) (sq : Nat) : Bitboard := b ||| squareBB sq

/-- Clear a square bit (clear_bit in bitboard.hpp). -/
def clearBitBB (b : Bitboard) (sq : Nat) : Bitboard := b &&& compl64 (squareBB sq)

/-- Bit-scan worker, structurally recursive on a 64-step fuel so that it
reduces inside the kernel. -/
def popcountAux : Nat → Nat → Nat
  | 0, _ => 0
  | fuel + 1, b => b % 2 + popcountAux fuel (b / 2)

/-- Population count of a 64-bit word (std::popcount). -/
def popcountBB (b : Bitboard) : Nat := popcountAux 64 b

/-- Trailing-zero worker: index of the lowest set bit among the first `fuel`
bits, or `fuel` itself when they are all clear. -/
def lsbAux : Nat → Nat → Nat
  | 0, _ => 0
  | fuel + 1, b => if b % 2 = 1 then 0 else 1 + lsbAux fuel (b / 2)

/-- Least significant set bit index of a 64-bit word; 64 when the word is
zero (std::countr_zero on uint64_t). -/
def lsbBB (b : Bitboard) : Nat := lsbAux 64 b

/-- The set bits of a 64-bit word in increasing order.  This is the order in
which the C++ pop_lsb loops visit the set squares of a bitboard. -/
def squaresOf (b : Bitboard) : List Nat :=
  (List.range 64).filter (fun sq => b.testBit sq)

-- ── File and rank masks (bitboard.hpp) ──────────────────────────────────────

/-- File A mask. -/
def fileA : Bitboard := 0x0101010101010101
/-- File B mask. -/
def fileB : Bitboard := fileA <<< 1
/-- File G mask. -/
def fileG : Bitboard := fileA <<< 6
/-- File H mask. -/
def fileH : Bitboard := fileA <<< 7

/-- Rank 1 mask. -/
def rank1 : Bitboard := 0xFF
/-- Rank 3 mask. -/
def rank3 : Bitboard := rank1 <<< 16
/-- Rank 6 mask. -/
def rank6 : Bitboard := rank1 <<< 40
/-- Rank 8 mask. -/
def rank8 : Bitboard := rank1 <<< 56

-- ── Compass shifts with file-wrap masking (bitboard.hpp) ────────────────────

/-- Shift one rank north. -/
def shiftNorth (b : Bitboard) : Bitboard := (b <<< 8) % two64
/-- Shift one rank south. -/
def shiftSouth (b : Bitboard) : Bitboard := b >>> 8
/-- Shift one file east, masking wrap from file H to file A. -/
def shiftEast (b : Bitboard) : Bitboard := ((b <<< 1) % two64) &&& compl64 fileA
/-- Shift one file west, masking wrap from file A to file H. -/
def shiftWest (b : Bitboard) : Bitboard := (b >>> 1) &&& compl64 fileH
/-- Shift north-east with wrap masking. -/
def shiftNE (b : Bitboard) : Bitboard := ((b <<< 9) % two64) &&& compl64 fileA
/-- Shift north-west with wrap masking. -/
def shiftNW (b : Bitboard) : Bitboard := ((b <<< 7) % two64) &&& compl64 fileH
/-- Shift south-east with wrap masking. -/
def shiftSE (b : Bitboard) : Bitboard := (b >>> 7) &&& compl64 fileA
/-- Shift south-west with wrap masking. -/
def shiftSW (b : Bitboard) : Bitboard := (b >>> 9) &&& compl64 fileH

-- ── Colors and piece types (types.hpp) ──────────────────────────────────────

/-- Piece color. -/
inductive Color where
  | white
  | black
deriving DecidableEq, Repr

/-- Opposite color (xor 1 in types.hpp). -/
def Color.opposite : Color → Color
  | .white => .black
  | .black => .white

/-- Array index of a color (White = 0, Black = 1). -/
def colorIndex : Color → Nat
  | .white => 0
  | .black => 1

/-- Piece type, including the None sentinel (types.hpp). -/
inductive PieceType where
  | none
  | pawn
  | knight
  | bishop
  | rook
  | queen
  | king
deriving DecidableEq, Repr

/-- Piece index for array addressing: Pawn = 0 .. King = 5.  The C++
piece_index maps None to -1, which is only ever used on undefined-behavior
paths; we map it to the out-of-band value 6. -/
def pieceIdx : PieceType → Nat
  | .none => 6
  | .pawn => 0
  | .knight => 1
  | .bishop => 2
  | .rook => 3
  | .queen => 4
  | .king => 5

/-- The six real piece types in array order. -/
def realPieceTypes : List PieceType :=
  [.pawn, .knight, .bishop, .rook, .queen, .king]

/-- Both colors. -/
def bothColors : List Color := [.white, .black]

/-- A piece: color plus type (piece.hpp). -/
structure Piece where
  color : Color
  type : PieceType
deriving DecidableEq, Repr

/-- The kNoPiece sentinel: (White, None). -/
def noPiece : Piece := ⟨.white, .none⟩

-- ── Move flags, castling rights (types.hpp) ─────────────────────────────────

/-- Move flags. -/
inductive MoveFlag where
  | normal
  | doublePawn
  | enPassant
  | castleKingside
  | castleQueenside
  | promotion
deriving DecidableEq, Repr

/-- Castling rights are a 4-bit mask: WK = 1, WQ = 2, BK = 4, BQ = 8. -/
abbrev CastlingRights := Nat

/-- White kingside right. -/
def whiteKingside : CastlingRights := 1
/-- White queenside right. -/
def whiteQueenside : CastlingRights := 2
/-- Black kingside right. -/
def blackKingside : CastlingRights := 4
/-- Black queenside right. -/
def blackQueenside : CastlingRights := 8
/-- All four rights. -/
def castlingAll : CastlingRights := 15

-- ── Non-slider attack patterns (bitboard.hpp) ───────────────────────────────

/-- Knight attack pattern; the engine precomputes exactly this formula into a
table at constexpr time. -/
def knightAttacks (sq : Nat) : Bitboard :=
  let bb := squareBB sq
  (((bb <<< 17) % two64) &&& compl64 fileA) |||
  (((bb <<< 15) % two64) &&& compl64 fileH) |||
  (((bb <<< 10) % two64) &&& compl64 (fileA ||| fileB)) |||
  (((bb <<< 6) % two64) &&& compl64 (fileG ||| fileH)) |||
  ((bb >>> 6) &&& compl64 (fileA ||| fileB)) |||
  ((bb >>> 10) &&& compl64 (fileG ||| fileH)) |||
  ((bb >>> 15) &&& compl64 fileA) |||
  ((bb >>> 17) &&& compl64 fileH)

/-- King attack pattern (the eight compass shifts of the square bit). -/
def kingAttacks (sq : Nat) : Bitboard :=
  let bb := squareBB sq
  shiftNorth bb ||| shiftSouth bb ||| shiftEast bb ||| shiftWest bb |||
  shiftNE bb ||| shiftNW bb ||| shiftSE bb ||| shiftSW bb

/-- Pawn attack pattern by color: White attacks NE and NW, Black SE and SW. -/
def pawnAttacks (c : Color) (sq : Nat) : Bitboard :=
  let bb := squareBB sq
  match c with
  | .white => shiftNE bb ||| shiftNW bb
  | .black => shiftSE bb ||| shiftSW bb

-- ── Ray-traced slider attacks (magic.cpp reference generator) ───────────────

/-- One step of the ray walk of ray_attacks in magic.cpp.  The C++ while loop
runs at most 8 iterations (each step moves at least one coordinate strictly
towards the board edge), so a fuel of 8 reproduces it exactly. -/
def rayAux (occ : Bitboard) (df dr : Int) : Nat → Int → Int → Bitboard
  | 0, _, _ => 0
  | fuel + 1, f, r =>
    if 0 ≤ f ∧ f ≤ 7 ∧ 0 ≤ r ∧ r ≤ 7 then
      let s : Nat := (r * 8 + f).toNat
      if occ.testBit s then squareBB s
      else squareBB s ||| rayAux occ df dr fuel (f + df) (r + dr)
    else 0

/-- Ray attacks from a square in direction (df, dr), stopping at the first
blocker (ray_attacks in magic.cpp). -/
def rayAttacks (sq : Nat) (occ : Bitboard) (df dr : Int) : Bitboard :=
  rayAux occ df dr 8 ((fileOf sq : Int) + df) ((rankOf sq : Int) + dr)

/-- Bishop attacks by ray tracing (bishop_attacks_slow): the value the magic
table lookup returns for every occupancy. -/
def bishopAttacks (sq : Nat) (occ : Bitboard) : Bitboard :=
  rayAttacks sq occ 1 1 ||| rayAttacks sq occ 1 (-1) |||
  rayAttacks sq occ (-1) 1 ||| rayAttacks sq occ (-1) (-1)

/-- Rook attacks by ray tracing (rook_attacks_slow). -/
def rookAttacks (sq : Nat) (occ : Bitboard) : Bitboard :=
  rayAttacks sq occ 1 0 ||| rayAttacks sq occ (-1) 0 |||
  rayAttacks sq occ 0 1 ||| rayAttacks sq occ 0 (-1)

/-- Queen attacks: union of bishop and rook attacks (magic.hpp). -/
def queenAttacks (sq : Nat) (occ : Bitboard) : Bitboard :=
  bishopAttacks sq occ ||| rookAttacks sq occ

-- ── Zobrist keys (zobrist.hpp) ──────────────────────────────────────────────

namespace zobrist

/-- The fixed key-stream seed. -/
def seed : Nat := 0xA5B3C7D9E1F23412

/-- splitmix64 on 64-bit words, with the 64-bit wrap made explicit. -/
def splitmix64 (state : Nat) : Nat :=
  let z := (state + 0x9E3779B97F4A7C15) % two64
  let z := ((z ^^^ (z >>> 30)) * 0xBF58476D1CE4E5B9) % two64
  let z := ((z ^^^ (z >>> 27)) * 0x94D049BB133111EB) % two64
  z ^^^ (z >>> 31)

/-- The n-th key of the stream: splitmix64(seed + n). -/
def nthKey (index : Nat) : Nat := splitmix64 (seed + index)

/-- Piece key: index = color * 384 + piece-type-index * 64 + square. -/
def pieceKey (c : Color) (pt : PieceType) (sq : Nat) : Nat :=
  nthKey (colorIndex c * 384 + pieceIdx pt * 64 + sq)

/-- Side-to-move key: index 768. -/
def sideToMoveKey : Nat := nthKey 768

/-- Castling key for a 4-bit rights mask: indices 769..784. -/
def castlingKey (cr : CastlingRights) : Nat := nthKey (769 + (cr &&& 0xF))

/-- En-passant key for a square: indices 785..848. -/
def enPassantKey (sq : Nat) : Nat := nthKey (785 + sq)

end zobrist

-- ── Move and UCI text (move.hpp) ────────────────────────────────────────────

/-- A move: from-square, to-square, flag, optional promotion type. -/
structure Move where
  fromSq : Nat := 0
  toSq : Nat := 0
  flag : MoveFlag := .normal
  promotion : PieceType := .none
deriving DecidableEq, Repr

/-- The null-move sentinel (all fields defaulted). -/
def nullMove : Move := {}

/-- is_null in move.hpp. -/
def Move.isNull (m : Move) : Bool :=
  m.fromSq = 0 && m.toSq = 0 && m.flag = .normal && m.promotion = .none

/-- Nat name, e.g. 0 becomes "a1" (square_name in types.hpp). -/
def squareName (sq : Nat) : List Char :=
  [Char.ofNat (97 + fileOf sq), Char.ofNat (49 + rankOf sq)]

/-- Parse a two-character square name; 64 (kNoSquare) on failure
(parse_square in types.hpp). -/
def parseSquare (name : List Char) : Nat :=
  match name with
  | [c0, c1] =>
    let f : Int := (c0.toNat : Int) - 97
    let r : Int := (c1.toNat : Int) - 49
    if f < 0 ∨ 7 < f ∨ r < 0 ∨ 7 < r then noSquare
    else mkSquare f.toNat r.toNat
  | _ => noSquare

/-- The promotion suffix characters indexed by piece type, as in the
kPromoChars table of move.hpp. -/
def promoChar : PieceType → Char
  | .knight => 'n'
  | .bishop => 'b'
  | .rook => 'r'
  | .queen => 'q'
  | _ => ' '

/-- UCI long-algebraic text of a move (Move::uci). -/
def Move.uci (m : Move) : List Char :=
  squareName m.fromSq ++ squareName m.toSq ++
    (if m.promotion ≠ .none then [promoChar m.promotion] else [])

/-- Parse a UCI move string; the default (null) move on failure
(Move::from_uci). -/
def Move.fromUci (s : List Char) : Move :=
  if s.length < 4 then {}
  else
    let fromSq := parseSquare (s.take 2)
    let toSq := parseSquare ((s.drop 2).take 2)
    if fromSq = noSquare ∨ toSq = noSquare then {}
    else
      if 5 ≤ s.length then
        let promo : PieceType :=
          match s.getD 4 ' ' with
          | 'n' => .knight
          | 'b' => .bishop
          | 'r' => .rook
          | 'q' => .queen
          | _ => .none
        { fromSq := fromSq, toSq := toSq, flag := .promotion, promotion := promo }
      else
        { fromSq := fromSq, toSq := toSq, flag := .normal, promotion := .none }

-- ── Board (board.hpp) ───────────────────────────────────────────────────────

/-- The redundant board representation of board.hpp: 12 piece bitboards
(indexed by color and piece type), two color occupancies, the all-occupancy,
and the 64-slot mailbox.  The piece-bitboard slot of PieceType.none models
the out-of-bounds C++ array access pieces_[c][-1], which only happens on
undefined-behavior paths (put/remove of the sentinel piece). -/
structure Board where
  pieces : Color × PieceType → Bitboard
  occupied : Color → Bitboard
  occupiedAll : Bitboard
  mailbox : Nat → Piece

/-- The empty board (Board::clear). -/
def emptyBoard : Board :=
  ⟨fun _ => 0, fun _ => 0, 0, fun _ => noPiece⟩

/-- put_piece: set the piece bit, the color-occupancy bit, the all-occupancy
bit, and write the mailbox slot. -/
def Board.putPiece (b : Board) (sq : Nat) (p : Piece) : Board :=
  { pieces := Function.update b.pieces (p.color, p.type) (setBitBB (b.pieces (p.color, p.type)) sq),
    occupied := Function.update b.occupied p.color (setBitBB (b.occupied p.color) sq),
    occupiedAll := setBitBB b.occupiedAll sq,
    mailbox := Function.update b.mailbox sq p }

/-- remove_piece: read the mailbox, clear bits there, blank the mailbox. -/
def Board.removePiece (b : Board) (sq : Nat) : Board :=
  let p := b.mailbox sq
  { pieces := Function.update b.pieces (p.color, p.type) (clearBitBB (b.pieces (p.color, p.type)) sq),
    occupied := Function.update b.occupied p.color (clearBitBB (b.occupied p.color) sq),
    occupiedAll := clearBitBB b.occupiedAll sq,
    mailbox := Function.update b.mailbox sq noPiece }

/-- piece_at. -/
def Board.pieceAt (b : Board) (sq : Nat) : Piece := b.mailbox sq

/-- is_empty. -/
def Board.isEmpty (b : Board) (sq : Nat) : Bool := (b.mailbox sq).type = .none

/-- king_square: lsb of the king bitboard. -/
def Board.kingSquare (b : Board) (c : Color) : Nat := lsbBB (b.pieces (c, .king))

-- ── Undo info and the castling-rights mask table (position.hpp) ─────────────

/-- The per-move undo snapshot. -/
structure UndoInfo where
  castling : CastlingRights
  enPassant : Nat
  halfmoveClock : Int
  captured : Piece
  key : Nat
deriving Repr

/-- kCastleMask: rights to preserve when a move touches the given square
(A1 = 0, H1 = 7, E1 = 4, A8 = 56, H8 = 63, E8 = 60). -/
def castleMask (sq : Nat) : CastlingRights :=
  if sq = 0 then 13
  else if sq = 7 then 14
  else if sq = 4 then 12
  else if sq = 56 then 7
  else if sq = 63 then 11
  else if sq = 60 then 3
  else 15

-- ── Position (position.hpp / position.cpp) ──────────────────────────────────

/-- A complete position.  Stack tops (undo history, key history) are at the
list heads. -/
structure Position where
  board : Board
  sideToMove : Color
  castling : CastlingRights
  enPassant : Nat
  halfmoveClock : Int
  fullmoveNumber : Int
  key : Nat
  history : List UndoInfo
  keyHistory : List Nat

/-- The value Position::compute_key assigns: xor of the castling key, the
side key when Black moves, the en-passant key when set, and each present
piece's key (scanning the mailbox). -/
def computeKeyValue (b : Board) (side : Color) (castling : CastlingRights)
    (ep : Nat) : Nat :=
  let k0 := zobrist.castlingKey castling
  let k1 := if side = .black then k0 ^^^ zobrist.sideToMoveKey else k0
  let k2 := if ep ≠ noSquare then k1 ^^^ zobrist.enPassantKey ep else k1
  (List.range 64).foldl
    (fun k sq =>
      let p := b.mailbox sq
      if p ≠ noPiece then k ^^^ zobrist.pieceKey p.color p.type sq else k)
    k2

/-- The field constructor of Position, which ends with compute_key: the key
is computed from scratch and the key history is reset to that single key. -/
def Position.ofFields (b : Board) (side : Color) (castling : CastlingRights)
    (ep : Nat) (halfmove fullmove : Int) : Position :=
  let key := computeKeyValue b side castling ep
  ⟨b, side, castling, ep, halfmove, fullmove, key, [], [key]⟩

/-- set_en_passant: toggle the old and new en-passant keys, skipping the
update entirely when the square is unchanged. -/
def Position.setEnPassant (pos : Position) (ep : Nat) : Position :=
  if ep = pos.enPassant then pos
  else
    let k1 := if pos.enPassant ≠ noSquare then pos.key ^^^ zobrist.enPassantKey pos.enPassant
              else pos.key
    let k2 := if ep ≠ noSquare then k1 ^^^ zobrist.enPassantKey ep else k1
    { pos with enPassant := ep, key := k2 }

/-- set_castling: toggle the old and new castling keys, skipping the update
when the rights are unchanged. -/
def Position.setCastling (pos : Position) (cr : CastlingRights) : Position :=
  if cr = pos.castling then pos
  else { pos with castling := cr,
                  key := pos.key ^^^ zobrist.castlingKey pos.castling ^^^ zobrist.castlingKey cr }

/-- Position::make_move, translated step for step from position.cpp. -/
def Position.makeMove (pos : Position) (m : Move) : Position :=
  let piece := pos.board.pieceAt m.fromSq
  let captureSq : Nat :=
    if m.flag = .enPassant then mkSquare (fileOf m.toSq) (rankOf m.fromSq) else m.toSq
  let captured : Piece := pos.board.pieceAt captureSq
  let undo : UndoInfo := ⟨pos.castling, pos.enPassant, pos.halfmoveClock, captured, pos.key⟩
  -- remove the moving piece from the origin (hash toggle + board update)
  let key1 := pos.key ^^^ zobrist.pieceKey piece.color piece.type m.fromSq
  let b1 := pos.board.removePiece m.fromSq
  -- remove the captured piece
  let key2 := if captured ≠ noPiece then key1 ^^^ zobrist.pieceKey captured.color captured.type captureSq
              else key1
  let b2 := if captured ≠ noPiece then b1.removePiece captureSq else b1
  -- determine and place the arriving piece
  let placed : Piece :=
    if m.flag = .promotion ∧ m.promotion ≠ .none then ⟨piece.color, m.promotion⟩ else piece
  let b3 := b2.putPiece m.toSq placed
  let key3 := key2 ^^^ zobrist.pieceKey placed.color placed.type m.toSq
  -- slide the rook for castling
  let (b4, key4) :=
    if m.flag = .castleKingside then
      let r := rankOf m.fromSq
      let rookFrom := mkSquare 7 r
      let rookTo := mkSquare 5 r
      let rook := b3.pieceAt rookFrom
      let k := key3 ^^^ zobrist.pieceKey rook.color rook.type rookFrom
               ^^^ zobrist.pieceKey rook.color rook.type rookTo
      ((b3.removePiece rookFrom).putPiece rookTo rook, k)
    else if m.flag = .castleQueenside then
      let r := rankOf m.fromSq
      let rookFrom := mkSquare 0 r
      let rookTo := mkSquare 3 r
      let rook := b3.pieceAt rookFrom
      let k := key3 ^^^ zobrist.pieceKey rook.color rook.type rookFrom
               ^^^ zobrist.pieceKey rook.color rook.type rookTo
      ((b3.removePiece rookFrom).putPiece rookTo rook, k)
    else (b3, key3)
  let pos1 : Position := { pos with board := b4, key := key4, history := undo :: pos.history }
  -- en-passant target for the next move
  let pos2 :=
    if m.flag = .doublePawn then
      pos1.setEnPassant (mkSquare (fileOf m.fromSq) ((rankOf m.fromSq + rankOf m.toSq) / 2))
    else pos1.setEnPassant noSquare
  -- castling rights via the mask table
  let pos3 := pos2.setCastling (pos2.castling &&& castleMask m.fromSq &&& castleMask m.toSq)
  -- clocks
  let halfmove := if piece.type = .pawn ∨ captured ≠ noPiece then 0 else pos3.halfmoveClock + 1
  let fullmove := if pos3.sideToMove = .black then pos3.fullmoveNumber + 1 else pos3.fullmoveNumber
  -- switch side, toggle the side hash, record the key for repetition
  let key5 := pos3.key ^^^ zobrist.sideToMoveKey
  { pos3 with halfmoveClock := halfmove, fullmoveNumber := fullmove,
              sideToMove := pos3.sideToMove.opposite, key := key5,
              keyHistory := key5 :: pos3.keyHistory }

/-- Position::unmake_move, translated step for step from position.cpp. -/
def Position.unmakeMove (pos : Position) (m : Move) : Position :=
  let keyHistory := pos.keyHistory.tail
  let undo := pos.history.headD ⟨0, noSquare, 0, noPiece, 0⟩
  let history := pos.history.tail
  let side := pos.sideToMove.opposite
  let fullmove := if side = .black then pos.fullmoveNumber - 1 else pos.fullmoveNumber
  let placed := pos.board.pieceAt m.toSq
  let original : Piece := if m.flag = .promotion then ⟨placed.color, .pawn⟩ else placed
  let b1 := pos.board.removePiece m.toSq
  let b2 := b1.putPiece m.fromSq original
  let b3 :=
    if undo.captured ≠ noPiece then
      if m.flag = .enPassant then
        b2.putPiece (mkSquare (fileOf m.toSq) (rankOf m.fromSq)) undo.captured
      else b2.putPiece m.toSq undo.captured
    else b2
  let b4 :=
    if m.flag = .castleKingside then
      let r := rankOf m.fromSq
      let rookAt := mkSquare 5 r
      let rookHome := mkSquare 7 r
      let rook := b3.pieceAt rookAt
      (b3.removePiece rookAt).putPiece rookHome rook
    else if m.flag = .castleQueenside then
      let r := rankOf m.fromSq
      let rookAt := mkSquare 3 r
      let rookHome := mkSquare 0 r
      let rook := b3.pieceAt rookAt
      (b3.removePiece rookAt).putPiece rookHome rook
    else b3
  { board := b4, sideToMove := side, castling := undo.castling,
    enPassant := undo.enPassant, halfmoveClock := undo.halfmoveClock,
    fullmoveNumber := fullmove, key := undo.key,
    history := history, keyHistory := keyHistory }

-- ── Attack queries (position.cpp) ───────────────────────────────────────────

/-- is_square_attacked: reverse-attack trick over all piece kinds. -/
def Position.isSquareAttacked (pos : Position) (sq : Nat) (by_ : Color) : Bool :=
  let occ := pos.board.occupiedAll
  (pawnAttacks by_.opposite sq &&& pos.board.pieces (by_, .pawn) ≠ 0) ||
  (knightAttacks sq &&& pos.board.pieces (by_, .knight) ≠ 0) ||
  (kingAttacks sq &&& pos.board.pieces (by_, .king) ≠ 0) ||
  (bishopAttacks sq occ &&& (pos.board.pieces (by_, .bishop) ||| pos.board.pieces (by_, .queen)) ≠ 0) ||
  (rookAttacks sq occ &&& (pos.board.pieces (by_, .rook) ||| pos.board.pieces (by_, .queen)) ≠ 0)

/-- is_in_check(c). -/
def Position.isInCheck (pos : Position) (c : Color) : Bool :=
  pos.isSquareAttacked (pos.board.kingSquare c) c.opposite

/-- repetition_count: occurrences of the current key in the key history
(which includes the entry for the current position). -/
def Position.repetitionCount (pos : Position) : Nat :=
  pos.keyHistory.count pos.key

-- ── FEN parsing (position.cpp) ──────────────────────────────────────────────

/-- Parse-error cases, one per throw site of Position::from_fen and
parse_int; each carries the substring or character the C++ message embeds. -/
inductive FenErr where
  | fieldCount (fen : List Char)
  | rankWidth (fen : List Char)
  | tooManyRanks (fen : List Char)
  | boardPlacement (fen : List Char)
  | pieceChar (c : Char)
  | sideToMove (s : List Char)
  | castlingChar (c : Char)
  | epSquare (s : List Char)
  | badInt (s : List Char)
  | intRange (s : List Char)
deriving DecidableEq, Repr

/-- Piece::from_fen_char: sentinel (type None) on unknown characters. -/
def pieceFromFenChar (ch : Char) : Piece :=
  if ch = 'P' then ⟨.white, .pawn⟩
  else if ch = 'N' then ⟨.white, .knight⟩
  else if ch = 'B' then ⟨.white, .bishop⟩
  else if ch = 'R' then ⟨.white, .rook⟩
  else if ch = 'Q' then ⟨.white, .queen⟩
  else if ch = 'K' then ⟨.white, .king⟩
  else if ch = 'p' then ⟨.black, .pawn⟩
  else if ch = 'n' then ⟨.black, .knight⟩
  else if ch = 'b' then ⟨.black, .bishop⟩
  else if ch = 'r' then ⟨.black, .rook⟩
  else if ch = 'q' then ⟨.black, .queen⟩
  else if ch = 'k' then ⟨.black, .king⟩
  else noPiece

/-- Worker for split_spaces: the first argument accumulates the current
token in reverse. -/
def splitSpacesGo : List Char → List Char → List (List Char)
  | cur, [] => if cur = [] then [] else [cur.reverse]
  | cur, c :: rest =>
    if c = ' ' then
      if cur = [] then splitSpacesGo [] rest
      else cur.reverse :: splitSpacesGo [] rest
    else splitSpacesGo (c :: cur) rest

/-- split_spaces: space-separated tokens, empty runs skipped. -/
def splitSpaces (s : List Char) : List (List Char) := splitSpacesGo [] s

/-- One character of the board-placement loop of Position::from_fen.  The
state is (board, rank, file); rank is an Int because the C++ code decrements
before the negativity check. -/
def placementStep (fen : List Char) (st : Board × Int × Nat) (ch : Char) :
    Except FenErr (Board × Int × Nat) :=
  let (board, rank, file) := st
  if ch = '/' then
    if file ≠ 8 then .error (.rankWidth fen)
    else if rank - 1 < 0 then .error (.tooManyRanks fen)
    else .ok (board, rank - 1, 0)
  else if '1' ≤ ch ∧ ch ≤ '8' then
    let file := file + (ch.toNat - 48)
    if 8 < file then .error (.rankWidth fen) else .ok (board, rank, file)
  else
    if 8 ≤ file then .error (.rankWidth fen)
    else
      let p := pieceFromFenChar ch
      if p.type = .none then .error (.pieceChar ch)
      else .ok (board.putPiece (mkSquare file rank.toNat) p, rank, file + 1)

/-- The full board-placement parse: fold the placement field, then require
rank = 0 and file = 8 at the end. -/
def parsePlacement (fen placement : List Char) : Except FenErr Board := do
  let (board, rank, file) ← placement.foldlM (placementStep fen) (emptyBoard, (7 : Int), 0)
  if rank ≠ 0 ∨ file ≠ 8 then .error (.boardPlacement fen)
  else pure board

/-- std::from_chars for int over the full token: optional minus sign, at
least one digit, nothing else, value within the 32-bit int range. -/
def parseIntFC (s : List Char) : Option Int :=
  let (neg, ds) := match s with
    | '-' :: rest => (true, rest)
    | _ => (false, s)
  if ds = [] ∨ ¬ ds.all (fun c => '0' ≤ c ∧ c ≤ '9') then none
  else
    let v : Nat := ds.foldl (fun a c => a * 10 + (c.toNat - 48)) 0
    let i : Int := if neg then -(v : Int) else v
    if i < -(2 ^ 31) ∨ 2 ^ 31 - 1 < i then none else some i

/-- parse_int in position.cpp: from_chars, full consumption, minimum check. -/
def parseIntMin (s : List Char) (minVal : Int) : Except FenErr Int :=
  match parseIntFC s with
  | none => .error (.badInt s)
  | some v => if v < minVal then .error (.intRange s) else .ok v

/-- One character of the castling-rights loop of Position::from_fen. -/
def castleStep (cr : CastlingRights) (ch : Char) : Except FenErr CastlingRights :=
  if ch = 'K' then .ok (cr ||| whiteKingside)
  else if ch = 'Q' then .ok (cr ||| whiteQueenside)
  else if ch = 'k' then .ok (cr ||| blackKingside)
  else if ch = 'q' then .ok (cr ||| blackQueenside)
  else .error (.castlingChar ch)

/-- Position::from_fen. -/
def fromFen (fen : List Char) : Except FenErr Position := do
  let parts := splitSpaces fen
  if parts.length < 4 ∨ 6 < parts.length then .error (.fieldCount fen)
  else
    let board ← parsePlacement fen (parts.getD 0 [])
    let side ←
      if parts.getD 1 [] = ['w'] then pure Color.white
      else if parts.getD 1 [] = ['b'] then pure Color.black
      else .error (.sideToMove (parts.getD 1 []))
    let castling ←
      if parts.getD 2 [] = ['-'] then pure (0 : CastlingRights)
      else (parts.getD 2 []).foldlM castleStep 0
    let ep ←
      if parts.getD 3 [] = ['-'] then pure noSquare
      else
        let e := parseSquare (parts.getD 3 [])
        if e = noSquare then .error (.epSquare (parts.getD 3 [])) else pure e
    let halfmove ← if 4 < parts.length then parseIntMin (parts.getD 4 []) 0 else pure 0
    let fullmove ← if 5 < parts.length then parseIntMin (parts.getD 5 []) 1 else pure 1
    pure (Position.ofFields board side castling ep halfmove fullmove)

/-- The standard starting FEN. -/
def startFen : List Char :=
  ("rnbqkbnr/pppppppp/8/8/8/8/PPPPPPPP/RNBQKBNR w KQkq - 0 1").data

-- ── Move generation (movegen.cpp) ───────────────────────────────────────────

/-- add_promotions: queen, rook, bishop, knight, in this order. -/
def addPromotions (fromSq toSq : Nat) : List Move :=
  [⟨fromSq, toSq, .promotion, .queen⟩, ⟨fromSq, toSq, .promotion, .rook⟩,
   ⟨fromSq, toSq, .promotion, .bishop⟩, ⟨fromSq, toSq, .promotion, .knight⟩]

/-- gen_pawn_moves: pushes, double pushes, captures with promotion
expansion, en passant.  Each C++ pop_lsb loop becomes a map over the set
squares in increasing order. -/
def genPawnMoves (pos : Position) : List Move :=
  let us := pos.sideToMove
  let them := us.opposite
  let pawns := pos.board.pieces (us, .pawn)
  let empty := compl64 pos.board.occupiedAll
  let enemy := pos.board.occupied them
  let promoRank := if us = .white then rank8 else rank1
  let single := if us = .white then shiftNorth pawns &&& empty else shiftSouth pawns &&& empty
  let npMoves := (squaresOf (single &&& compl64 promoRank)).map
    (fun t => ({ fromSq := if us = .white then t - 8 else t + 8, toSq := t } : Move))
  let ppMoves := (squaresOf (single &&& promoRank)).flatMap
    (fun t => addPromotions (if us = .white then t - 8 else t + 8) t)
  let midRank := if us = .white then rank3 else rank6
  let dbl := if us = .white then shiftNorth (single &&& midRank) &&& empty
             else shiftSouth (single &&& midRank) &&& empty
  let dblMoves := (squaresOf dbl).map
    (fun t => ({ fromSq := if us = .white then t - 16 else t + 16, toSq := t,
                  flag := .doublePawn } : Move))
  let capL := (if us = .white then shiftNW pawns else shiftSW pawns) &&& enemy
  let ncLMoves := (squaresOf (capL &&& compl64 promoRank)).map
    (fun t => ({ fromSq := if us = .white then t - 7 else t + 9, toSq := t } : Move))
  let pcLMoves := (squaresOf (capL &&& promoRank)).flatMap
    (fun t => addPromotions (if us = .white then t - 7 else t + 9) t)
  let capR := (if us = .white then shiftNE pawns else shiftSE pawns) &&& enemy
  let ncRMoves := (squaresOf (capR &&& compl64 promoRank)).map
    (fun t => ({ fromSq := if us = .white then t - 9 else t + 7, toSq := t } : Move))
  let pcRMoves := (squaresOf (capR &&& promoRank)).flatMap
    (fun t => addPromotions (if us = .white then t - 9 else t + 7) t)
  let epMoves :=
    if pos.enPassant ≠ noSquare then
      (squaresOf (pawnAttacks them pos.enPassant &&& pawns)).map
        (fun fromSq => ({ fromSq := fromSq, toSq := pos.enPassant, flag := .enPassant } : Move))
    else []
  npMoves ++ ppMoves ++ dblMoves ++ ncLMoves ++ pcLMoves ++ ncRMoves ++ pcRMoves ++ epMoves

/-- The attack set used by gen_piece_moves for a piece type. -/
def pieceAttacks (pt : PieceType) (fromSq : Nat) (occ : Bitboard) : Bitboard :=
  match pt with
  | .knight => knightAttacks fromSq
  | .bishop => bishopAttacks fromSq occ
  | .rook => rookAttacks fromSq occ
  | .queen => queenAttacks fromSq occ
  | .king => kingAttacks fromSq
  | _ => 0

/-- gen_piece_moves for one non-pawn piece type. -/
def genPieceMoves (pos : Position) (pt : PieceType) : List Move :=
  let us := pos.sideToMove
  let friendly := pos.board.occupied us
  let occ := pos.board.occupiedAll
  (squaresOf (pos.board.pieces (us, pt))).flatMap
    (fun fromSq =>
      (squaresOf (pieceAttacks pt fromSq occ &&& compl64 friendly)).map
        (fun t => ({ fromSq := fromSq, toSq := t } : Move)))

/-- gen_castling, translated condition for condition from movegen.cpp. -/
def genCastling (pos : Position) : List Move :=
  let us := pos.sideToMove
  let them := us.opposite
  let kingSq := pos.board.kingSquare us
  let rank := if us = .white then 0 else 7
  if pos.isSquareAttacked kingSq them then []
  else
    let ks := if us = .white then whiteKingside else blackKingside
    let fSq := mkSquare 5 rank
    let gSq := mkSquare 6 rank
    let ksMoves :=
      if pos.castling &&& ks ≠ 0 then
        if pos.board.isEmpty fSq ∧ pos.board.isEmpty gSq ∧
           ¬ pos.isSquareAttacked fSq them ∧ ¬ pos.isSquareAttacked gSq them then
          [({ fromSq := kingSq, toSq := gSq, flag := .castleKingside } : Move)]
        else []
      else []
    let qs := if us = .white then whiteQueenside else blackQueenside
    let bSq := mkSquare 1 rank
    let cSq := mkSquare 2 rank
    let dSq := mkSquare 3 rank
    let qsMoves :=
      if pos.castling &&& qs ≠ 0 then
        if pos.board.isEmpty bSq ∧ pos.board.isEmpty cSq ∧ pos.board.isEmpty dSq ∧
           ¬ pos.isSquareAttacked cSq them ∧ ¬ pos.isSquareAttacked dSq them then
          [({ fromSq := kingSq, toSq := cSq, flag := .castleQueenside } : Move)]
        else []
      else []
    ksMoves ++ qsMoves

/-- pseudo_legal: pawns, knights, bishops, rooks, queens, kings, castling. -/
def pseudoLegal (pos : Position) : List Move :=
  genPawnMoves pos ++ genPieceMoves pos .knight ++ genPieceMoves pos .bishop ++
  genPieceMoves pos .rook ++ genPieceMoves pos .queen ++ genPieceMoves pos .king ++
  genCastling pos

/-- The legality-filter loop of movegen::legal: make each pseudo-legal move
on the evolving position, keep it when the mover is not left in check, then
unmake.  The position is threaded exactly as the C++ loop mutates it. -/
def legalAux (us : Color) : Position → List Move → List Move
  | _, [] => []
  | p, m :: ms =>
    let made := p.makeMove m
    let keep := ¬ made.isInCheck us
    let rest := legalAux us (made.unmakeMove m) ms
    if keep then m :: rest else rest

/-- movegen::legal. -/
def legalMoves (pos : Position) : List Move :=
  legalAux pos.sideToMove pos (pseudoLegal pos)

-- ── Draw detection (search.cpp) ─────────────────────────────────────────────

/-- The light-squares mask used by the bishop-color test. -/
def lightSquares : Bitboard := 0x55AA55AA55AA55AA

/-- Search::is_draw: 50-move rule, repetition (current key occurred at least
twice in the history, current occurrence included), insufficient material. -/
def isDraw (pos : Position) : Bool :=
  if pos.halfmoveClock ≥ 100 then true
  else if pos.repetitionCount ≥ 2 then true
  else
    let total := popcountBB pos.board.occupiedAll
    if total = 2 then true
    else if total = 3 ∧ bothColors.any
        (fun c => pos.board.pieces (c, .knight) ≠ 0 ∨ pos.board.pieces (c, .bishop) ≠ 0) then
      true
    else if total = 4 then
      let wb := pos.board.pieces (.white, .bishop)
      let bb := pos.board.pieces (.black, .bishop)
      if wb ≠ 0 ∧ bb ≠ 0 ∧ ((wb &&& lightSquares ≠ 0) ↔ (bb &&& lightSquares ≠ 0)) then true
      else false
    else false

-- ── Move ordering (search.cpp) ──────────────────────────────────────────────

/-- Mate and infinity scores (search.hpp). -/
def mateScore : Int := 100000
/-- kInfScore. -/
def infScore : Int := 1000000
/-- kMaxPly. -/
def maxPly : Nat := 128

/-- MVV values indexed by piece type (kMvvValues, piece_index order
Pawn..King); the None slot is never read on defined paths. -/
def mvvValue : PieceType → Int
  | .pawn => 100
  | .knight => 320
  | .bishop => 330
  | .rook => 500
  | .queen => 900
  | .king => 0
  | .none => 0

/-- Search::move_score.  The killer slots and history counters are passed in
explicitly; at the root of a fresh search both are all zero. -/
def moveScore (pos : Position) (m ttMove : Move) (ply : Nat)
    (killers : Nat → Move × Move) (hist : Color → Nat → Nat → Int) : Int :=
  if ¬ ttMove.isNull ∧ m = ttMove then 100000
  else
    let moving := pos.board.pieceAt m.fromSq
    let target := pos.board.pieceAt m.toSq
    let promoPart : Int :=
      if m.flag = .promotion ∧ m.promotion ≠ .none then 20000 + mvvValue m.promotion else 0
    let chainPart : Int :=
      if target.type ≠ .none then
        10000 + 10 * mvvValue target.type -
          (if moving.type ≠ .none then mvvValue moving.type else 0)
      else if m.flag = .enPassant then
        10000 + 10 * 100 - 100
      else
        (if ply < maxPly then
           (if (killers ply).1 = m then 9000
            else if (killers ply).2 = m then 8000 else 0)
         else 0) +
        (if moving.type ≠ .none then hist pos.sideToMove m.fromSq m.toSq else 0)
    let castlePart : Int :=
      if m.flag = .castleKingside ∨ m.flag = .castleQueenside then 120 else 0
    promoPart + chainPart + castlePart

/-- Swap two list slots (std::swap inside the selection sort). -/
def swapList (l : List Move) (i j : Nat) : List Move :=
  let vi := l.getD i nullMove
  let vj := l.getD j nullMove
  (l.set i vj).set j vi

/-- The inner scan of the selection sort: find the index of the first
strictly-best-scoring move in positions j .. length-1. -/
def scanBestAux (score : Move → Int) (l : List Move) :
    Nat → Nat → Nat → Int → Nat
  | 0, _, bi, _ => bi
  | fuel + 1, j, bi, bs =>
    if j < l.length then
      if bs < score (l.getD j nullMove) then
        scanBestAux score l fuel (j + 1) j (score (l.getD j nullMove))
      else scanBestAux score l fuel (j + 1) bi bs
    else bi

/-- The outer pass of Search::order_moves (selection sort with swaps). -/
def selSortAux (score : Move → Int) : Nat → List Move → Nat → List Move
  | 0, l, _ => l
  | fuel + 1, l, i =>
    if i < l.length then
      selSortAux score fuel
        (if scanBestAux score l l.length (i + 1) i (score (l.getD i nullMove)) ≠ i then
           swapList l i (scanBestAux score l l.length (i + 1) i (score (l.getD i nullMove)))
         else l) (i + 1)
    else l

/-- Search::order_moves. -/
def orderMoves (pos : Position) (ttMove : Move) (ply : Nat)
    (killers : Nat → Move × Move) (hist : Color → Nat → Nat → Int)
    (l : List Move) : List Move :=
  selSortAux (fun m => moveScore pos m ttMove ply killers hist) l.length l 0

/-- All-null killer slots, the state after Search::reset_heuristics. -/
def zeroKillers : Nat → Move × Move := fun _ => (nullMove, nullMove)

/-- All-zero history counters, the state after Search::reset_heuristics. -/
def zeroHist : Color → Nat → Nat → Int := fun _ _ _ => 0

-- ── Iterative-deepening root (Search::search) ───────────────────────────────

/-- The observable part of a SearchResult (the node-count statistic is not
modelled). -/
structure SearchResultM where
  bestMove : Move
  scoreCp : Int
  depth : Nat
deriving DecidableEq, Repr

/-- State of the iterative-deepening loop.  should_stop() is abstracted as a
predicate on a poll counter that advances on every call, and negamax as a
score oracle indexed by (depth, root-move index); the oracle is never
consulted on the paths the theorems below describe (cancellation before the
first iteration completes). -/
structure IdState where
  bestMove : Move
  bestScore : Int
  completedDepth : Nat
  moves : List Move
  poll : Nat

/-- The root-move loop of one iterative-deepening iteration.  Arguments
after the move list: move index, iteration score, iteration best, alpha,
poll counter. -/
def rootMovesLoop (stop : Nat → Bool) (nmD : Nat → Int) :
    List Move → Nat → Int → Move → Int → Nat → Int × Move × Nat
  | [], _, score, best, _, poll => (score, best, poll)
  | m :: rest, i, score, best, alpha, poll =>
    if stop poll then (score, best, poll + 1)
    else
      let s := nmD i
      let score2 := if score < s then s else score
      let best2 := if score < s then m else best
      let alpha2 := if alpha < s then s else alpha
      rootMovesLoop stop nmD rest (i + 1) score2 best2 alpha2 (poll + 1)

/-- Move the given move to the front of the root list, keeping the relative
order of the others (the shift loop after each completed iteration). -/
def moveToFront (l : List Move) (m : Move) : List Move :=
  if m ∈ l then m :: l.erase m else l

/-- The depth loop of Search::search; fuel counts the remaining depths. -/
def idAux (stop : Nat → Bool) (nm : Nat → Nat → Int) : Nat → Nat → IdState → IdState
  | 0, _, st => st
  | fuel + 1, depth, st =>
    if stop st.poll then { st with poll := st.poll + 1 }
    else
      let r := rootMovesLoop stop (nm depth) st.moves 0 (-infScore) nullMove (-infScore)
                 (st.poll + 1)
      let score := r.1
      let iterBest := r.2.1
      let poll := r.2.2
      if stop poll then { st with poll := poll + 1 }
      else if iterBest.isNull then { st with poll := poll }
      else
        idAux stop nm fuel (depth + 1)
          { bestMove := iterBest, bestScore := score, completedDepth := depth,
            moves := moveToFront st.moves iterBest, poll := poll }

/-- Search::search for a fresh search (heuristics just reset): generate and
order the root moves, run iterative deepening, return the best move of the
last fully completed iteration — initialized to the first ordered root move
before any iteration completes. -/
def searchModel (pos : Position) (maxDepth : Nat) (stop : Nat → Bool)
    (nm : Nat → Nat → Int) : SearchResultM :=
  let rootMoves := legalMoves pos
  if rootMoves.isEmpty then
    if pos.isInCheck pos.sideToMove then ⟨nullMove, -mateScore, 0⟩ else ⟨nullMove, 0, 0⟩
  else
    let ordered := orderMoves pos nullMove 0 zeroKillers zeroHist rootMoves
    let stF := idAux stop nm maxDepth 1
      { bestMove := ordered.getD 0 nullMove, bestScore := -infScore, completedDepth := 0,
        moves := ordered, poll := 0 }
    ⟨stF.bestMove, stF.bestScore, stF.completedDepth⟩

-- ── Transposition table (tt.hpp / tt.cpp) ───────────────────────────────────

/-- Bound classification of a stored score. -/
inductive Bound where
  | none
  | exact
  | lower
  | upper
deriving DecidableEq, Repr

/-- A table entry (the 1-byte padding field has no observable content and is
omitted). -/
structure TTEntry where
  key32 : Nat := 0
  score : Int := 0
  staticEval : Int := 0
  bestMove : Move := {}
  depth : Nat := 0
  bound : Bound := .none
  age : Nat := 0
deriving DecidableEq, Repr

instance : Inhabited TTEntry := ⟨{}⟩

/-- The table: entries, the power-of-two index mask (entry count − 1), and
the age counter (a uint8). -/
structure TT where
  table : List TTEntry
  mask : Nat
  age : Nat
deriving Repr

/-- Truncation to a signed 16-bit value (static_cast to int16_t). -/
def toInt16 (x : Int) : Int := (x + 2 ^ 15).emod (2 ^ 16) - 2 ^ 15

/-- Truncation to an unsigned 8-bit value (static_cast to uint8_t). -/
def toUInt8M (x : Int) : Nat := (x.emod 256).toNat

/-- index(key): low key bits masked. -/
def ttIndex (tt : TT) (key : Nat) : Nat := key &&& tt.mask

/-- key_upper: the verification tag (upper 32 bits). -/
def keyUpper (key : Nat) : Nat := key >>> 32

/-- The replacement condition of TranspositionTable::store: empty slot, or
stale age, or at-least-as-deep entry, or exact replacing non-exact. -/
def ttShouldReplace (slot : TTEntry) (age : Nat) (depth : Int) (bound : Bound) : Prop :=
  slot.bound = .none ∨ slot.age ≠ age ∨ (slot.depth : Int) ≤ depth ∨
  (bound = .exact ∧ slot.bound ≠ .exact)

instance (slot : TTEntry) (age : Nat) (depth : Int) (bound : Bound) :
    Decidable (ttShouldReplace slot age depth bound) := by
  unfold ttShouldReplace; infer_instance

/-- The entry TranspositionTable::store writes when it replaces, including
the best-move preservation rule for same-tag slots. -/
def ttWrittenEntry (slot : TTEntry) (age : Nat) (key32 : Nat) (depth score : Int)
    (bound : Bound) (bestMove : Move) (staticEval : Int) : TTEntry :=
  let bm := if slot.key32 = key32 ∧ bestMove.isNull ∧ ¬ slot.bestMove.isNull
            then slot.bestMove else bestMove
  { key32 := key32, score := toInt16 score, staticEval := toInt16 staticEval,
    bestMove := bm, depth := toUInt8M depth, bound := bound, age := age }

/-- TranspositionTable::store. -/
def ttStore (tt : TT) (key : Nat) (depth score : Int) (bound : Bound)
    (bestMove : Move) (staticEval : Int) : TT :=
  let idx := ttIndex tt key
  let slot := tt.table.getD idx default
  if ttShouldReplace slot tt.age depth bound then
    let entry := ttWrittenEntry slot tt.age (keyUpper key) depth score bound bestMove staticEval
    { tt with table := tt.table.set idx entry }
  else tt

-- ═══════════════════════════════════════════════════════════════════════════
-- Claim theorems
-- ═══════════════════════════════════════════════════════════════════════════

-- ── Helper lemmas on List.set / List.getD ───────────────────────────────────

/-- Reading a just-written slot. -/
theorem getD_set_self {α : Type} (l : List α) (i : Nat) (hi : i < l.length) (v d : α) :
    (l.set i v).getD i d = v := by
  simp [List.getD, List.getElem?_set_self, hi]

/-- Reading any other slot after a write. -/
theorem getD_set_ne {α : Type} (l : List α) (i j : Nat) (h : i ≠ j) (v d : α) :
    (l.set i v).getD j d = l.getD j d := by
  simp [List.getD, List.getElem?_set_ne, h]

/-- C7: a TranspositionTable::store call overwrites the slot at index(key)
exactly under the replacement rule — the slot is empty, or its age differs
from the current age, or the new depth is at least the stored depth, or the
new bound is Exact and the stored one is not — and the entry it then writes
keeps the previously stored best move whenever the slot carries the same
32-bit key tag, the incoming best move is null, and the stored one is not;
without the replacement condition the table is left untouched. -/
theorem tt_store_replacement_rule (tt : TT) (key : Nat) (depth score : Int)
    (bound : Bound) (bm : Move) (se : Int) :
    (ttShouldReplace (tt.table.getD (ttIndex tt key) default) tt.age depth bound →
      ttStore tt key depth score bound bm se =
        { tt with
            table := tt.table.set (ttIndex tt key)
                       ({ key32 := keyUpper key, score := toInt16 score,
                          staticEval := toInt16 se,
                          bestMove :=
                            if (tt.table.getD (ttIndex tt key) default).key32 = keyUpper key ∧
                               bm.isNull ∧
                               ¬ (tt.table.getD (ttIndex tt key) default).bestMove.isNull
                            then (tt.table.getD (ttIndex tt key) default).bestMove else bm,
                          depth := toUInt8M depth, bound := bound, age := tt.age } : TTEntry) }) ∧
    (¬ ttShouldReplace (tt.table.getD (ttIndex tt key) default) tt.age depth bound →
      ttStore tt key depth score bound bm se = tt) := by
  constructor
  · intro hc
    simp only [ttStore, ttWrittenEntry, hc, if_pos]
  · intro hc
    simp only [ttStore, hc, if_neg, not_false_iff]

/-- A concrete 4-entry table whose slot 1 holds a deep exact entry of the
current age with a non-null best move. -/
def ttSample : TT :=
  { table := [default,
      { key32 := 77, score := 10, staticEval := 5,
        bestMove := { fromSq := 12, toSq := 28 }, depth := 9, bound := .exact, age := 3 },
      default, default],
    mask := 3, age := 3 }

/-- Witness for C7 at a concrete store call: same tag, deeper entry, null
incoming best move — the write happens (depth 12 ≥ 9) and preserves the
stored best move e2e4. -/
theorem tt_store_replacement_rule_witness :
    ttStore ttSample (77 <<< 32 ||| 1) 12 (-4) .lower nullMove 2 =
      { ttSample with
          table := ttSample.table.set 1
                     ({ key32 := 77, score := toInt16 (-4), staticEval := toInt16 2,
                        bestMove := { fromSq := 12, toSq := 28 },
                        depth := toUInt8M 12, bound := .lower, age := 3 } : TTEntry) } := by
  have h := (tt_store_replacement_rule ttSample (77 <<< 32 ||| 1) 12 (-4) .lower
    nullMove 2).1 (by decide)
  rw [h]
  rfl

/-- C10: a store call changes at most the slot at index(key): every other
slot, the entry count, the index mask, and the age counter keep their
values, and when the replacement rule rejects the write the whole table
state is unchanged. -/
theorem tt_store_frame (tt : TT) (key : Nat) (depth score : Int)
    (bound : Bound) (bm : Move) (se : Int) :
    (∀ j, j ≠ ttIndex tt key →
      (ttStore tt key depth score bound bm se).table.getD j default =
        tt.table.getD j default) ∧
    (ttStore tt key depth score bound bm se).table.length = tt.table.length ∧
    (ttStore tt key depth score bound bm se).mask = tt.mask ∧
    (ttStore tt key depth score bound bm se).age = tt.age ∧
    (¬ ttShouldReplace (tt.table.getD (ttIndex tt key) default) tt.age depth bound →
      ttStore tt key depth score bound bm se = tt) := by
  by_cases hc : ttShouldReplace (tt.table.getD (ttIndex tt key) default) tt.age depth bound
  · have hpos : ttStore tt key depth score bound bm se =
        { tt with
            table := tt.table.set (ttIndex tt key)
                       (ttWrittenEntry (tt.table.getD (ttIndex tt key) default) tt.age
                         (keyUpper key) depth score bound bm se) } := by
      simp only [ttStore]
      rw [if_pos hc]
    refine ⟨fun j hj => ?_, ?_, ?_, ?_, fun h => absurd hc h⟩
    · rw [hpos]
      exact getD_set_ne _ _ _ (fun h => hj h.symm) _ _
    · rw [hpos]
      simp
    · rw [hpos]
    · rw [hpos]
  · have hstore : ttStore tt key depth score bound bm se = tt := by
      simp only [ttStore]
      rw [if_neg hc]
    exact ⟨fun _ _ => by rw [hstore], by rw [hstore], by rw [hstore], by rw [hstore],
      fun _ => hstore⟩

/-- Witness for C10 at a concrete rejected store (shallower same-age
non-exact entry): the table is unchanged and slot 0 reads back the same. -/
theorem tt_store_frame_witness :
    (ttStore ttSample (77 <<< 32 ||| 1) 2 0 .lower nullMove 0).table.getD 0 default =
      ttSample.table.getD 0 default ∧
    ttStore ttSample (77 <<< 32 ||| 1) 2 0 .lower nullMove 0 = ttSample := by
  have h := tt_store_frame ttSample (77 <<< 32 ||| 1) 2 0 .lower nullMove 0
  exact ⟨h.1 0 (by decide), h.2.2.2.2 (by decide)⟩

-- ── C9: Move::from_uci edge behavior ────────────────────────────────────────

/-- C9: on any input of length at least 5 whose first four characters name
two valid squares, Move::from_uci returns a Promotion-flagged move even when
the fifth character is not one of n, b, r, q — in which case the promotion
type stays None; and on any input shorter than 4 characters, or whose first
four characters do not name two valid squares, it returns the null move
instead of raising an error. -/
theorem from_uci_edge_behavior (s : List Char) :
    (5 ≤ s.length → parseSquare (s.take 2) ≠ noSquare →
      parseSquare ((s.drop 2).take 2) ≠ noSquare →
      (Move.fromUci s).flag = .promotion ∧
      (Move.fromUci s).fromSq = parseSquare (s.take 2) ∧
      (Move.fromUci s).toSq = parseSquare ((s.drop 2).take 2) ∧
      (s.getD 4 ' ' ∉ (['n', 'b', 'r', 'q'] : List Char) →
        (Move.fromUci s).promotion = .none)) ∧
    ((s.length < 4 ∨ parseSquare (s.take 2) = noSquare ∨
      parseSquare ((s.drop 2).take 2) = noSquare) →
      Move.fromUci s = nullMove) := by
  constructor
  · intro h5 hfrom hto
    have h4 : ¬ s.length < 4 := by omega
    simp only [Move.fromUci, h4, if_false, if_neg (by tauto : ¬ (parseSquare (s.take 2) =
      noSquare ∨ parseSquare ((s.drop 2).take 2) = noSquare)), if_pos h5]
    refine ⟨trivial, trivial, trivial, fun hch => ?_⟩
    simp only [List.mem_cons, List.not_mem_nil, or_false, not_or] at hch
    split
    · simp_all
    · simp_all
    · simp_all
    · simp_all
    · rfl
  · intro h
    rcases h with h | h | h
    · simp only [Move.fromUci, if_pos h]
      rfl
    · by_cases h4 : s.length < 4
      · simp only [Move.fromUci, if_pos h4]
        rfl
      · simp only [Move.fromUci, h4, if_false, if_pos (Or.inl h)]
        rfl
    · by_cases h4 : s.length < 4
      · simp only [Move.fromUci, if_pos h4]
        rfl
      · simp only [Move.fromUci, h4, if_false, if_pos (Or.inr h)]
        rfl

/-- Witness for C9 at two concrete inputs: "e2e4x" parses to a
Promotion-flagged move with promotion None, and "zz11" (no valid squares)
parses to the null move. -/
theorem from_uci_edge_behavior_witness :
    (Move.fromUci ("e2e4x").data).flag = .promotion ∧
    (Move.fromUci ("e2e4x").data).promotion = .none ∧
    Move.fromUci ("zz11").data = nullMove := by
  have h1 := (from_uci_edge_behavior ("e2e4x").data).1 (by decide) (by decide) (by decide)
  have h2 := (from_uci_edge_behavior ("zz11").data).2 (by decide)
  exact ⟨h1.1, h1.2.2.2 (by decide), h2⟩

-- ── Concrete positions used by the counterexamples and witnesses ────────────

/-- Extract the parsed position of a FEN string (the positions below all
parse successfully, as the proofs verify by evaluation). -/
def posOfFen (s : List Char) : Position :=
  ((fromFen s).toOption).getD (Position.ofFields emptyBoard .white 0 noSquare 0 1)

/-- The standard starting position. -/
def startPos : Position := posOfFen startFen

/-- The position after Ng1-f3, Ng8-f6, Nf3-g1, Nf6-g8 from the start: the
board, side, castling, and en-passant all match the start again, so the
current Zobrist key has exactly one earlier occurrence in the key history. -/
def knightShufflePos : Position :=
  (((startPos.makeMove ⟨6, 21, .normal, .none⟩).makeMove
      ⟨62, 45, .normal, .none⟩).makeMove
    ⟨21, 6, .normal, .none⟩).makeMove ⟨45, 62, .normal, .none⟩

-- ── C3: the repetition cutoff fires after ONE previous occurrence ───────────

/-- C3 counterexample: after the four-knight shuffle the draw predicate
reports a draw, the current key is the head of the key history, exactly one
earlier history entry equals it (not two), the halfmove clock is far from
100, and more than four pieces are on the board — so the reported draw is
the repetition cutoff firing with a single previous occurrence. -/
theorem rep_draw_counterexample :
    isDraw knightShufflePos = true ∧
    knightShufflePos.keyHistory.head? = some knightShufflePos.key ∧
    knightShufflePos.keyHistory.tail.count knightShufflePos.key = 1 ∧
    knightShufflePos.halfmoveClock < 100 ∧
    4 < popcountBB knightShufflePos.board.occupiedAll := by
  decide

/-- C3 amended: with the current key recorded at the top of the key history,
the code's repetition test repetition_count() >= 2 holds exactly when the
key appears in at least ONE entry recorded before the current occurrence,
and in that case is_draw reports a draw. -/
theorem rep_draw_amended (pos : Position) (h : List Nat)
    (hh : pos.keyHistory = pos.key :: h) :
    ((2 ≤ pos.repetitionCount) ↔ 1 ≤ h.count pos.key) ∧
    (1 ≤ h.count pos.key → isDraw pos = true) := by
  have hc : pos.repetitionCount = h.count pos.key + 1 := by
    simp [Position.repetitionCount, hh]
  constructor
  · omega
  · intro h1
    unfold isDraw
    by_cases h100 : pos.halfmoveClock ≥ 100
    · rw [if_pos h100]
    · rw [if_neg h100, if_pos (show pos.repetitionCount ≥ 2 by omega)]

/-- Witness for the amended C3 at the four-knight shuffle position. -/
theorem rep_draw_amended_witness :
    (2 ≤ knightShufflePos.repetitionCount) ∧ isDraw knightShufflePos = true := by
  have h := rep_draw_amended knightShufflePos knightShufflePos.keyHistory.tail (by decide)
  exact ⟨h.1.mpr (by decide), h.2 (by decide)⟩

-- ── C4: castling generation conditions ──────────────────────────────────────

/-- Every move from gen_piece_moves carries the Normal flag. -/
theorem flag_of_genPieceMoves {pos : Position} {pt : PieceType} {m : Move}
    (h : m ∈ genPieceMoves pos pt) : m.flag = .normal := by
  simp only [genPieceMoves, List.mem_flatMap, List.mem_map] at h
  obtain ⟨a, _, b, _, rfl⟩ := h
  rfl

/-- No move from gen_pawn_moves carries a castling flag. -/
theorem flag_of_genPawnMoves {pos : Position} {m : Move}
    (h : m ∈ genPawnMoves pos) :
    m.flag ≠ .castleKingside ∧ m.flag ≠ .castleQueenside := by
  simp only [genPawnMoves, addPromotions, List.mem_append, List.mem_map,
    List.mem_flatMap, List.mem_cons, List.not_mem_nil, or_false] at h
  rcases h with ((((((⟨a, _, rfl⟩ | ⟨a, _, h⟩) | ⟨a, _, rfl⟩) | ⟨a, _, rfl⟩) |
    ⟨a, _, h⟩) | ⟨a, _, rfl⟩) | ⟨a, _, h⟩) | h
  · exact ⟨by simp, by simp⟩
  · rcases h with rfl | rfl | rfl | rfl <;> exact ⟨by simp, by simp⟩
  · exact ⟨by simp, by simp⟩
  · exact ⟨by simp, by simp⟩
  · rcases h with rfl | rfl | rfl | rfl <;> exact ⟨by simp, by simp⟩
  · exact ⟨by simp, by simp⟩
  · rcases h with rfl | rfl | rfl | rfl <;> exact ⟨by simp, by simp⟩
  · by_cases hep : pos.enPassant ≠ noSquare
    · rw [if_pos hep] at h
      simp only [List.mem_map] at h
      obtain ⟨a, _, rfl⟩ := h
      exact ⟨by simp, by simp⟩
    · rw [if_neg hep] at h
      simp at h

/-- Membership in gen_castling, characterized by the exact conditions the
generator tests (note that the generator checks the attacked status of BOTH
transit and destination squares on the kingside: f and g). -/
theorem mem_genCastling_iff (pos : Position) (m : Move) :
    m ∈ genCastling pos ↔
      (pos.isSquareAttacked (pos.board.kingSquare pos.sideToMove)
         pos.sideToMove.opposite = false ∧
       ((pos.castling &&& (if pos.sideToMove = .white then whiteKingside else blackKingside) ≠ 0 ∧
         pos.board.isEmpty (mkSquare 5 (if pos.sideToMove = .white then 0 else 7)) = true ∧
         pos.board.isEmpty (mkSquare 6 (if pos.sideToMove = .white then 0 else 7)) = true ∧
         pos.isSquareAttacked (mkSquare 5 (if pos.sideToMove = .white then 0 else 7))
           pos.sideToMove.opposite = false ∧
         pos.isSquareAttacked (mkSquare 6 (if pos.sideToMove = .white then 0 else 7))
           pos.sideToMove.opposite = false ∧
         m = { fromSq := pos.board.kingSquare pos.sideToMove,
               toSq := mkSquare 6 (if pos.sideToMove = .white then 0 else 7),
               flag := .castleKingside, promotion := .none }) ∨
        (pos.castling &&& (if pos.sideToMove = .white then whiteQueenside else blackQueenside) ≠ 0 ∧
         pos.board.isEmpty (mkSquare 1 (if pos.sideToMove = .white then 0 else 7)) = true ∧
         pos.board.isEmpty (mkSquare 2 (if pos.sideToMove = .white then 0 else 7)) = true ∧
         pos.board.isEmpty (mkSquare 3 (if pos.sideToMove = .white then 0 else 7)) = true ∧
         pos.isSquareAttacked (mkSquare 2 (if pos.sideToMove = .white then 0 else 7))
           pos.sideToMove.opposite = false ∧
         pos.isSquareAttacked (mkSquare 3 (if pos.sideToMove = .white then 0 else 7))
           pos.sideToMove.opposite = false ∧
         m = { fromSq := pos.board.kingSquare pos.sideToMove,
               toSq := mkSquare 2 (if pos.sideToMove = .white then 0 else 7),
               flag := .castleQueenside, promotion := .none }))) := by
  unfold genCastling
  by_cases hk : pos.isSquareAttacked (pos.board.kingSquare pos.sideToMove)
      pos.sideToMove.opposite <;>
  rcases hside : pos.sideToMove <;>
  rw [hside] at hk <;>
  simp only [hside, hk, if_true, if_false, Bool.true_eq_false, false_and, not_false_iff,
    List.not_mem_nil, false_iff, reduceCtorEq, reduceIte, Bool.false_eq_true, true_and,
    List.mem_append]
  case neg.white =>
    constructor
    · rintro (h | h)
      · refine Or.inl ?_
        split at h
        · split at h
          · rename_i h1 hconds
            simp only [List.mem_cons, List.not_mem_nil, or_false] at h
            exact ⟨h1, hconds.1, hconds.2.1, by simpa using hconds.2.2.1,
              by simpa using hconds.2.2.2, h⟩
          · simp at h
        · simp at h
      · refine Or.inr ?_
        split at h
        · split at h
          · rename_i h1 hconds
            simp only [List.mem_cons, List.not_mem_nil, or_false] at h
            exact ⟨h1, hconds.1, hconds.2.1, hconds.2.2.1,
              by simpa using hconds.2.2.2.1, by simpa using hconds.2.2.2.2, h⟩
          · simp at h
        · simp at h
    · rintro (⟨h1, he1, he2, ha1, ha2, rfl⟩ | ⟨h1, he1, he2, he3, ha1, ha2, rfl⟩)
      · refine Or.inl ?_
        rw [if_pos h1, if_pos ⟨he1, he2, by simp [ha1], by simp [ha2]⟩]
        simp
      · refine Or.inr ?_
        rw [if_pos h1, if_pos ⟨he1, he2, he3, by simp [ha1], by simp [ha2]⟩]
        simp
  case neg.black =>
    constructor
    · rintro (h | h)
      · refine Or.inl ?_
        split at h
        · split at h
          · rename_i h1 hconds
            simp only [List.mem_cons, List.not_mem_nil, or_false] at h
            exact ⟨h1, hconds.1, hconds.2.1, by simpa using hconds.2.2.1,
              by simpa using hconds.2.2.2, h⟩
          · simp at h
        · simp at h
      · refine Or.inr ?_
        split at h
        · split at h
          · rename_i h1 hconds
            simp only [List.mem_cons, List.not_mem_nil, or_false] at h
            exact ⟨h1, hconds.1, hconds.2.1, hconds.2.2.1,
              by simpa using hconds.2.2.2.1, by simpa using hconds.2.2.2.2, h⟩
          · simp at h
        · simp at h
    · rintro (⟨h1, he1, he2, ha1, ha2, rfl⟩ | ⟨h1, he1, he2, he3, ha1, ha2, rfl⟩)
      · refine Or.inl ?_
        rw [if_pos h1, if_pos ⟨he1, he2, by simp [ha1], by simp [ha2]⟩]
        simp
      · refine Or.inr ?_
        rw [if_pos h1, if_pos ⟨he1, he2, he3, by simp [ha1], by simp [ha2]⟩]
        simp

/-- A castle-flagged move is pseudo-legal exactly when gen_castling emits
it: no other generator family produces castle flags. -/
theorem castle_mem_pseudoLegal (pos : Position) (m : Move)
    (hf : m.flag = .castleKingside ∨ m.flag = .castleQueenside) :
    m ∈ pseudoLegal pos ↔ m ∈ genCastling pos := by
  simp only [pseudoLegal, List.mem_append]
  constructor
  · rintro ((((((h | h) | h) | h) | h) | h) | h)
    · rcases flag_of_genPawnMoves h with ⟨h1, h2⟩
      rcases hf with hf | hf
      · exact absurd hf h1
      · exact absurd hf h2
    · have := flag_of_genPieceMoves h
      rcases hf with hf | hf <;> simp [hf] at this
    · have := flag_of_genPieceMoves h
      rcases hf with hf | hf <;> simp [hf] at this
    · have := flag_of_genPieceMoves h
      rcases hf with hf | hf <;> simp [hf] at this
    · have := flag_of_genPieceMoves h
      rcases hf with hf | hf <;> simp [hf] at this
    · have := flag_of_genPieceMoves h
      rcases hf with hf | hf <;> simp [hf] at this
    · exact h
  · intro h
    exact Or.inr h


/-- The C4 counterexample position: White Ke1 and Rh1 with the kingside
right, Black king a8 and rook g4.  The f1 and g1 squares are empty, the king
is not in check, f1 is not attacked — but g1 is attacked by the g4 rook. -/
def castleC4Pos : Position := posOfFen ("k7/8/8/8/6r1/8/8/4K2R w K - 0 1").data

/-- C4 counterexample: all the conditions the claim lists for emitting the
kingside castling move hold (right present, f1 and g1 empty, king not in
check, transit square f1 not attacked), yet the pseudo-legal generator emits
no kingside castling move, because it also tests the destination square g1,
which the g4 rook attacks. -/
theorem castling_gen_counterexample :
    castleC4Pos.castling &&& whiteKingside ≠ 0 ∧
    castleC4Pos.sideToMove = .white ∧
    castleC4Pos.board.isEmpty 5 = true ∧
    castleC4Pos.board.isEmpty 6 = true ∧
    castleC4Pos.isSquareAttacked (castleC4Pos.board.kingSquare .white) .black = false ∧
    castleC4Pos.isSquareAttacked 5 .black = false ∧
    castleC4Pos.isSquareAttacked 6 .black = true ∧
    (∀ m ∈ pseudoLegal castleC4Pos, m.flag ≠ .castleKingside) := by
  decide

/-- C4 amended: the pseudo-legal generator emits a castle-flagged move
exactly when the corresponding right is present, the between squares are
empty (kingside f,g; queenside b,c,d), the king is not in check, and BOTH
the transit and the landing squares of the king are unattacked (kingside
f AND g; queenside c,d) — the kingside destination square is tested by the
generator itself, not left to the legality filter. -/
theorem castling_gen_amended (pos : Position) (m : Move)
    (hf : m.flag = .castleKingside ∨ m.flag = .castleQueenside) :
    m ∈ pseudoLegal pos ↔
      (pos.isSquareAttacked (pos.board.kingSquare pos.sideToMove)
         pos.sideToMove.opposite = false ∧
       ((pos.castling &&& (if pos.sideToMove = .white then whiteKingside else blackKingside) ≠ 0 ∧
         pos.board.isEmpty (mkSquare 5 (if pos.sideToMove = .white then 0 else 7)) = true ∧
         pos.board.isEmpty (mkSquare 6 (if pos.sideToMove = .white then 0 else 7)) = true ∧
         pos.isSquareAttacked (mkSquare 5 (if pos.sideToMove = .white then 0 else 7))
           pos.sideToMove.opposite = false ∧
         pos.isSquareAttacked (mkSquare 6 (if pos.sideToMove = .white then 0 else 7))
           pos.sideToMove.opposite = false ∧
         m = { fromSq := pos.board.kingSquare pos.sideToMove,
               toSq := mkSquare 6 (if pos.sideToMove = .white then 0 else 7),
               flag := .castleKingside, promotion := .none }) ∨
        (pos.castling &&& (if pos.sideToMove = .white then whiteQueenside else blackQueenside) ≠ 0 ∧
         pos.board.isEmpty (mkSquare 1 (if pos.sideToMove = .white then 0 else 7)) = true ∧
         pos.board.isEmpty (mkSquare 2 (if pos.sideToMove = .white then 0 else 7)) = true ∧
         pos.board.isEmpty (mkSquare 3 (if pos.sideToMove = .white then 0 else 7)) = true ∧
         pos.isSquareAttacked (mkSquare 2 (if pos.sideToMove = .white then 0 else 7))
           pos.sideToMove.opposite = false ∧
         pos.isSquareAttacked (mkSquare 3 (if pos.sideToMove = .white then 0 else 7))
           pos.sideToMove.opposite = false ∧
         m = { fromSq := pos.board.kingSquare pos.sideToMove,
               toSq := mkSquare 2 (if pos.sideToMove = .white then 0 else 7),
               flag := .castleQueenside, promotion := .none }))) := by
  rw [castle_mem_pseudoLegal pos m hf]
  exact mem_genCastling_iff pos m

/-- A position where White may castle kingside. -/
def castleOkPos : Position := posOfFen ("4k3/8/8/8/8/8/8/4K2R w K - 0 1").data

/-- Witness for the amended C4: in castleOkPos the kingside castling move
e1-g1 is pseudo-legal. -/
theorem castling_gen_amended_witness :
    ({ fromSq := 4, toSq := 6, flag := .castleKingside, promotion := .none } : Move) ∈
      pseudoLegal castleOkPos := by
  refine (castling_gen_amended castleOkPos _ (Or.inl rfl)).mpr ?_
  refine ⟨by decide, Or.inl ⟨by decide, by decide, by decide, by decide, by decide, by decide⟩⟩



-- ── C5: cancellation before the first completed iteration ───────────────────

/-- scanBestAux keeps its best index within the list. -/
theorem scanBestAux_lt (score : Move → Int) (l : List Move) :
    ∀ fuel j bi bs, bi < l.length → scanBestAux score l fuel j bi bs < l.length
  | 0, _, _, _, h => h
  | fuel + 1, j, bi, bs, h => by
    unfold scanBestAux
    by_cases hj : j < l.length
    · rw [if_pos hj]
      split
      · exact scanBestAux_lt score l fuel (j + 1) j _ hj
      · exact scanBestAux_lt score l fuel (j + 1) bi _ h
    · rw [if_neg hj]
      exact h

/-- Swapping preserves the length. -/
theorem length_swapList (l : List Move) (i j : Nat) :
    (swapList l i j).length = l.length := by
  simp [swapList]

/-- Elements of a swapped list were in the original list. -/
theorem mem_swapList {l : List Move} {i j : Nat} (hi : i < l.length) (hj : j < l.length)
    {a : Move} (h : a ∈ swapList l i j) : a ∈ l := by
  unfold swapList at h
  rcases List.mem_or_eq_of_mem_set h with h | rfl
  · rcases List.mem_or_eq_of_mem_set h with h | rfl
    · exact h
    · have : l.getD j nullMove = l[j] := List.getD_eq_getElem l nullMove hj
      rw [this]
      exact List.getElem_mem hj
  · have : l.getD i nullMove = l[i] := List.getD_eq_getElem l nullMove hi
    rw [this]
    exact List.getElem_mem hi

/-- The selection sort preserves the length. -/
theorem length_selSortAux (score : Move → Int) :
    ∀ fuel l i, (selSortAux score fuel l i).length = l.length
  | 0, _, _ => rfl
  | fuel + 1, l, i => by
    unfold selSortAux
    by_cases hi : i < l.length
    · rw [if_pos hi]
      split
      · rw [length_selSortAux score fuel _ (i + 1), length_swapList]
      · rw [length_selSortAux score fuel _ (i + 1)]
    · rw [if_neg hi]

/-- Elements of the selection-sorted list were in the original list. -/
theorem mem_selSortAux (score : Move → Int) :
    ∀ fuel l i a, a ∈ selSortAux score fuel l i → a ∈ l
  | 0, _, _, _, h => h
  | fuel + 1, l, i, a, h => by
    unfold selSortAux at h
    by_cases hi : i < l.length
    · rw [if_pos hi] at h
      split at h
      · have hbi := scanBestAux_lt score l l.length (i + 1) i (score (l.getD i nullMove)) hi
        exact mem_swapList hi hbi (mem_selSortAux score fuel _ (i + 1) a h)
      · exact mem_selSortAux score fuel _ (i + 1) a h
    · rw [if_neg hi] at h
      exact h

/-- order_moves returns a list of the same length whose elements come from
its input. -/
theorem orderMoves_length_mem (pos : Position) (ttMove : Move) (ply : Nat)
    (killers : Nat → Move × Move) (hist : Color → Nat → Nat → Int)
    (l : List Move) :
    (orderMoves pos ttMove ply killers hist l).length = l.length ∧
    ∀ a ∈ orderMoves pos ttMove ply killers hist l, a ∈ l :=
  ⟨length_selSortAux _ l.length l 0, fun a h => mem_selSortAux _ l.length l 0 a h⟩

/-- When the stop predicate holds at a zero poll counter, the
iterative-deepening loop leaves best move, best score, and completed depth
untouched. -/
theorem idAux_stopped (stop : Nat → Bool) (nm : Nat → Nat → Int)
    (hstop : stop 0 = true) :
    ∀ fuel depth bm bs cd mv,
      (idAux stop nm fuel depth ⟨bm, bs, cd, mv, 0⟩).bestMove = bm ∧
      (idAux stop nm fuel depth ⟨bm, bs, cd, mv, 0⟩).bestScore = bs ∧
      (idAux stop nm fuel depth ⟨bm, bs, cd, mv, 0⟩).completedDepth = cd
  | 0, _, _, _, _, _ => ⟨rfl, rfl, rfl⟩
  | fuel + 1, depth, bm, bs, cd, mv => by
    unfold idAux
    rw [show (⟨bm, bs, cd, mv, 0⟩ : IdState).poll = 0 from rfl, hstop]
    exact ⟨rfl, rfl, rfl⟩

set_option maxHeartbeats 1000000 in
/-- C5 counterexample: the search is cancelled before the first iteration
completes (the stop predicate is already true at the first poll) in the
starting position, which has 20 legal root moves, yet the returned result
carries the legal move a2a3 (the first move of the ordered root list) — not
the null move — and its UCI text is "a2a3", not the empty string. -/
theorem cancelled_search_counterexample :
    legalMoves startPos ≠ [] ∧
    (searchModel startPos 64 (fun _ => true) (fun _ _ => 0)).bestMove =
      ({ fromSq := 8, toSq := 16, flag := .normal, promotion := .none } : Move) ∧
    (searchModel startPos 64 (fun _ => true) (fun _ _ => 0)).bestMove ≠ nullMove ∧
    (searchModel startPos 64 (fun _ => true) (fun _ _ => 0)).bestMove.uci =
      ("a2a3").data ∧
    (searchModel startPos 64 (fun _ => true) (fun _ _ => 0)).depth = 0 := by
  decide

set_option maxHeartbeats 1000000 in
/-- C5 amended: when the stop predicate already holds at the very first poll
(cancellation or an expired deadline before the first iteration completes)
and the position has legal root moves, the returned result carries the FIRST
move of the heuristically ordered root move list — a legal root move — with
completed depth 0 and score -kInfScore; the null move is returned only when
there are no legal root moves. -/
theorem cancelled_search_amended (pos : Position) (maxDepth : Nat)
    (stop : Nat → Bool) (nm : Nat → Nat → Int)
    (hstop : stop 0 = true) (hne : legalMoves pos ≠ []) :
    searchModel pos maxDepth stop nm =
      ⟨(orderMoves pos nullMove 0 zeroKillers zeroHist (legalMoves pos)).getD 0 nullMove,
        -infScore, 0⟩ ∧
    (orderMoves pos nullMove 0 zeroKillers zeroHist (legalMoves pos)).getD 0 nullMove ∈
      legalMoves pos := by
  obtain ⟨len_eq, mem_sub⟩ :=
    orderMoves_length_mem pos nullMove 0 zeroKillers zeroHist (legalMoves pos)
  have hlen : 0 < (orderMoves pos nullMove 0 zeroKillers zeroHist (legalMoves pos)).length := by
    rw [len_eq]
    exact List.length_pos.mpr hne
  have hmem : (orderMoves pos nullMove 0 zeroKillers zeroHist (legalMoves pos)).getD 0
      nullMove ∈ legalMoves pos := by
    refine mem_sub _ ?_
    rw [List.getD_eq_getElem _ nullMove hlen]
    exact List.getElem_mem hlen
  refine ⟨?_, hmem⟩
  have hE : (legalMoves pos).isEmpty = false := by
    rcases hlm : legalMoves pos with _ | ⟨x, xs⟩
    · exact absurd hlm hne
    · rfl
  simp only [searchModel, hE, Bool.false_eq_true, if_false]
  have h := idAux_stopped stop nm hstop maxDepth 1
    ((orderMoves pos nullMove 0 zeroKillers zeroHist (legalMoves pos)).getD 0 nullMove)
    (-infScore) 0 (orderMoves pos nullMove 0 zeroKillers zeroHist (legalMoves pos))
  rw [SearchResultM.mk.injEq]
  exact ⟨h.1, h.2.1, h.2.2⟩



/-- Witness for the amended C5 at the starting position with an
immediately-true stop predicate. -/
theorem cancelled_search_amended_witness :
    searchModel startPos 64 (fun _ => true) (fun _ _ => 0) =
      ⟨(orderMoves startPos nullMove 0 zeroKillers zeroHist (legalMoves startPos)).getD 0
          nullMove, -infScore, 0⟩ ∧
    (orderMoves startPos nullMove 0 zeroKillers zeroHist (legalMoves startPos)).getD 0
        nullMove ∈ legalMoves startPos :=
  cancelled_search_amended startPos 64 (fun _ => true) (fun _ _ => 0) rfl (by decide)



-- ── Bit-level infrastructure ────────────────────────────────────────────────

/-- Membership in squaresOf: the set bits below 64. -/
theorem mem_squaresOf {b : Bitboard} {s : Nat} (h : s ∈ squaresOf b) :
    s < 64 ∧ b.testBit s := by
  simp only [squaresOf, List.mem_filter, List.mem_range] at h
  exact ⟨h.1, h.2⟩

/-- squaresOf contains every set bit below 64. -/
theorem mem_squaresOf_of {b : Bitboard} {s : Nat} (hs : s < 64) (hb : b.testBit s) :
    s ∈ squaresOf b := by
  simp only [squaresOf, List.mem_filter, List.mem_range]
  exact ⟨hs, hb⟩

/-- A set bit of a 64-bit-bounded word lies below 64. -/
theorem testBit_lt_64 {b : Bitboard} {i : Nat} (hb : b < two64) (h : b.testBit i) :
    i < 64 := by
  by_contra hge
  have h64 : b < 2 ^ i := lt_of_lt_of_le hb (by
    have : (64 : Nat) ≤ i := by omega
    calc two64 = 2 ^ 64 := by norm_num [two64]
    _ ≤ 2 ^ i := Nat.pow_le_pow_right (by omega) this)
  rw [Nat.testBit_lt_two_pow h64] at h
  exact Bool.noConfusion h

/-- testBit through the explicit 64-bit reduction. -/
theorem testBit_mod_two64 (b : Nat) (i : Nat) :
    (b % two64).testBit i = (decide (i < 64) && b.testBit i) := by
  have : two64 = 2 ^ 64 := by norm_num [two64]
  rw [this, Nat.testBit_mod_two_pow]

/-- testBit of a masked left shift. -/
theorem testBit_shiftLeft_mod (b k i : Nat) :
    ((b <<< k) % two64).testBit i =
      (decide (i < 64) && decide (k ≤ i) && b.testBit (i - k)) := by
  rw [testBit_mod_two64, Nat.testBit_shiftLeft, Bool.and_comm (decide (k ≤ i)),
    Bool.and_assoc, Bool.and_comm (b.testBit (i - k)), ← Bool.and_assoc]

/-- testBit of a right shift. -/
theorem testBit_shiftRight' (b k i : Nat) : (b >>> k).testBit i = b.testBit (k + i) :=
  Nat.testBit_shiftRight b

/-- The lsb worker finds a bit below the fuel whenever the word is nonzero
and bounded by 2 ^ fuel. -/
theorem lsbAux_lt : ∀ fuel b, b ≠ 0 → b < 2 ^ fuel → lsbAux fuel b < fuel
  | 0, b, hne, hlt => absurd (Nat.lt_one_iff.mp hlt) hne
  | fuel + 1, b, hne, hlt => by
    unfold lsbAux
    by_cases hpar : b % 2 = 1
    · rw [if_pos hpar]
      omega
    · rw [if_neg hpar]
      have hne2 : b / 2 ≠ 0 := by omega
      have hlt2 : b / 2 < 2 ^ fuel := by
        rw [pow_succ] at hlt
        omega
      have := lsbAux_lt fuel (b / 2) hne2 hlt2
      omega

/-- The lsb worker finds a set bit. -/
theorem testBit_lsbAux : ∀ fuel b, b ≠ 0 → b < 2 ^ fuel → b.testBit (lsbAux fuel b)
  | 0, b, hne, hlt => absurd (Nat.lt_one_iff.mp hlt) hne
  | fuel + 1, b, hne, hlt => by
    unfold lsbAux
    by_cases hpar : b % 2 = 1
    · rw [if_pos hpar]
      simp [Nat.testBit, Nat.shiftRight, Nat.and_comm, Nat.one_and_eq_mod_two, hpar]
    · rw [if_neg hpar]
      have hne2 : b / 2 ≠ 0 := by omega
      have hlt2 : b / 2 < 2 ^ fuel := by
        rw [pow_succ] at hlt
        omega
      have ih := testBit_lsbAux fuel (b / 2) hne2 hlt2
      rw [Nat.add_comm 1 (lsbAux fuel (b / 2)), Nat.testBit_add_one]
      exact ih

/-- kingSquare is a real square on every bounded board with a king. -/
theorem kingSquare_lt_64 {b : Board} {c : Color} (hb : b.pieces (c, .king) < two64)
    (hne : b.pieces (c, .king) ≠ 0) : b.kingSquare c < 64 := by
  have : two64 = 2 ^ 64 := by norm_num [two64]
  rw [this] at hb
  exact lsbAux_lt 64 _ hne hb



/-- Split a conjunction of testBits over a bitwise and. -/
theorem land_testBit {a b i : Nat} (h : (a &&& b).testBit i) :
    a.testBit i ∧ b.testBit i := by
  rw [Nat.testBit_land] at h
  exact ⟨(Bool.and_eq_true _ _ |>.mp h).1, (Bool.and_eq_true _ _ |>.mp h).2⟩

/-- Projection helpers for move literals. -/
theorem mkMove_fromSq (f t : Nat) (fl : MoveFlag) (pr : PieceType) :
    (Move.mk f t fl pr).fromSq = f := rfl

/-- Projection helper. -/
theorem mkMove_toSq (f t : Nat) (fl : MoveFlag) (pr : PieceType) :
    (Move.mk f t fl pr).toSq = t := rfl

/-- squareBB is zero for out-of-range squares (the shifted bit wraps out). -/
theorem squareBB_ge64 {sq : Nat} (h : 64 ≤ sq) : squareBB sq = 0 := by
  have hdvd : (18446744073709551616 : Nat) ∣ 2 ^ sq := by
    have h2 : (18446744073709551616 : Nat) = 2 ^ 64 := by norm_num
    rw [h2]
    exact pow_dvd_pow 2 h
  unfold squareBB two64
  rw [Nat.shiftLeft_eq, one_mul]
  exact Nat.mod_eq_zero_of_dvd hdvd

/-- Pawn attack sets of an out-of-range square are empty. -/
theorem pawnAttacks_zero {c : Color} {e : Nat} (hz : squareBB e = 0) :
    pawnAttacks c e = 0 := by
  rcases c <;>
    simp [pawnAttacks, shiftNE, shiftNW, shiftSE, shiftSW, hz, Nat.zero_shiftLeft,
      Nat.zero_mod, Nat.zero_and, Nat.zero_shiftRight, Nat.zero_or]

/-- Packaging helper: the four field facts for a literal move. -/
theorem moveFields (f t : Nat) (fl : MoveFlag) (pr : PieceType) (hf : f < 64) (ht : t < 64)
    (h1 : fl = .promotion →
      pr = .queen ∨ pr = .rook ∨ pr = .bishop ∨ pr = .knight)
    (h2 : fl ≠ .promotion → pr = .none) :
    (Move.mk f t fl pr).fromSq < 64 ∧ (Move.mk f t fl pr).toSq < 64 ∧
    ((Move.mk f t fl pr).flag = .promotion →
      (Move.mk f t fl pr).promotion = .queen ∨ (Move.mk f t fl pr).promotion = .rook ∨
      (Move.mk f t fl pr).promotion = .bishop ∨ (Move.mk f t fl pr).promotion = .knight) ∧
    ((Move.mk f t fl pr).flag ≠ .promotion → (Move.mk f t fl pr).promotion = .none) :=
  ⟨hf, ht, h1, h2⟩

/-- Field discipline of gen_pawn_moves: real squares, and the promotion
field is set exactly on Promotion-flagged moves (to one of Q, R, B, N). -/
theorem genPawnMoves_fields (pos : Position)
    (hp : pos.board.pieces (pos.sideToMove, .pawn) < two64)
    {m : Move} (hm : m ∈ genPawnMoves pos) :
    m.fromSq < 64 ∧ m.toSq < 64 ∧
    (m.flag = .promotion →
      m.promotion = .queen ∨ m.promotion = .rook ∨ m.promotion = .bishop ∨
      m.promotion = .knight) ∧
    (m.flag ≠ .promotion → m.promotion = .none) := by
  simp only [genPawnMoves, addPromotions, List.mem_append, List.mem_map,
    List.mem_flatMap, List.mem_cons, List.not_mem_nil, or_false] at hm
  by_cases hus : pos.sideToMove = Color.white
  all_goals simp only [hus, if_true, if_false, reduceCtorEq, reduceIte] at hm
  -- White: from-squares are downward offsets of the target square
  · rcases hm with ((((((⟨t, ht, rfl⟩ | ⟨t, ht, h⟩) | ⟨t, ht, rfl⟩) | ⟨t, ht, rfl⟩) |
      ⟨t, ht, h⟩) | ⟨t, ht, rfl⟩) | ⟨t, ht, h⟩) | hm
    · have := (mem_squaresOf ht).1
      exact moveFields _ _ _ _ (by omega) (by omega) (by simp) (fun _ => rfl)
    · have := (mem_squaresOf ht).1
      rcases h with rfl | rfl | rfl | rfl <;>
        exact moveFields _ _ _ _ (by omega) (by omega) (fun _ => by simp) (fun hq => absurd rfl hq)
    · have := (mem_squaresOf ht).1
      exact moveFields _ _ _ _ (by omega) (by omega) (by simp) (fun _ => rfl)
    · have := (mem_squaresOf ht).1
      exact moveFields _ _ _ _ (by omega) (by omega) (by simp) (fun _ => rfl)
    · have := (mem_squaresOf ht).1
      rcases h with rfl | rfl | rfl | rfl <;>
        exact moveFields _ _ _ _ (by omega) (by omega) (fun _ => by simp) (fun hq => absurd rfl hq)
    · have := (mem_squaresOf ht).1
      exact moveFields _ _ _ _ (by omega) (by omega) (by simp) (fun _ => rfl)
    · have := (mem_squaresOf ht).1
      rcases h with rfl | rfl | rfl | rfl <;>
        exact moveFields _ _ _ _ (by omega) (by omega) (fun _ => by simp) (fun hq => absurd rfl hq)
    · by_cases hep : pos.enPassant ≠ noSquare
      · rw [if_pos hep] at hm
        simp only [List.mem_map] at hm
        obtain ⟨f, hf, rfl⟩ := hm
        obtain ⟨hf64, hfb⟩ := mem_squaresOf hf
        obtain ⟨hatt, -⟩ := land_testBit hfb
        have hep64 : pos.enPassant < 64 := by
          by_contra hge
          have hz : squareBB pos.enPassant = 0 := squareBB_ge64 (Nat.le_of_not_lt hge)
          rw [pawnAttacks_zero hz] at hatt
          simp [Nat.zero_testBit] at hatt
        exact moveFields _ _ _ _ hf64 hep64 (by simp) (fun _ => rfl)
      · rw [if_neg hep] at hm
        simp at hm
  -- Black: from-squares are upward offsets, bounded via the pawn bitboard
  · rcases hm with ((((((⟨t, ht, rfl⟩ | ⟨t, ht, h⟩) | ⟨t, ht, rfl⟩) | ⟨t, ht, rfl⟩) |
      ⟨t, ht, h⟩) | ⟨t, ht, rfl⟩) | ⟨t, ht, h⟩) | hm
    · obtain ⟨ht64, htb⟩ := mem_squaresOf ht
      obtain ⟨hs, -⟩ := land_testBit htb
      obtain ⟨hsp, -⟩ := land_testBit hs
      rw [shiftSouth, testBit_shiftRight'] at hsp
      have := testBit_lt_64 hp hsp
      exact moveFields _ _ _ _ (by omega) (by omega) (by simp) (fun _ => rfl)
    · obtain ⟨ht64, htb⟩ := mem_squaresOf ht
      obtain ⟨hs, -⟩ := land_testBit htb
      obtain ⟨hsp, -⟩ := land_testBit hs
      rw [shiftSouth, testBit_shiftRight'] at hsp
      have := testBit_lt_64 hp hsp
      rcases h with rfl | rfl | rfl | rfl <;>
        exact moveFields _ _ _ _ (by omega) (by omega) (fun _ => by simp) (fun hq => absurd rfl hq)
    · obtain ⟨ht64, htb⟩ := mem_squaresOf ht
      obtain ⟨hs, -⟩ := land_testBit htb
      rw [shiftSouth, testBit_shiftRight'] at hs
      obtain ⟨hs2, -⟩ := land_testBit hs
      obtain ⟨hsp, -⟩ := land_testBit hs2
      rw [shiftSouth, testBit_shiftRight'] at hsp
      have := testBit_lt_64 hp hsp
      exact moveFields _ _ _ _ (by omega) (by omega) (by simp) (fun _ => rfl)
    · obtain ⟨ht64, htb⟩ := mem_squaresOf ht
      obtain ⟨hs, -⟩ := land_testBit htb
      obtain ⟨hsw, -⟩ := land_testBit hs
      rw [shiftSW] at hsw
      obtain ⟨hsp, -⟩ := land_testBit hsw
      rw [testBit_shiftRight'] at hsp
      have := testBit_lt_64 hp hsp
      exact moveFields _ _ _ _ (by omega) (by omega) (by simp) (fun _ => rfl)
    · obtain ⟨ht64, htb⟩ := mem_squaresOf ht
      obtain ⟨hs, -⟩ := land_testBit htb
      obtain ⟨hsw, -⟩ := land_testBit hs
      rw [shiftSW] at hsw
      obtain ⟨hsp, -⟩ := land_testBit hsw
      rw [testBit_shiftRight'] at hsp
      have := testBit_lt_64 hp hsp
      rcases h with rfl | rfl | rfl | rfl <;>
        exact moveFields _ _ _ _ (by omega) (by omega) (fun _ => by simp) (fun hq => absurd rfl hq)
    · obtain ⟨ht64, htb⟩ := mem_squaresOf ht
      obtain ⟨hs, -⟩ := land_testBit htb
      obtain ⟨hse, -⟩ := land_testBit hs
      rw [shiftSE] at hse
      obtain ⟨hsp, -⟩ := land_testBit hse
      rw [testBit_shiftRight'] at hsp
      have := testBit_lt_64 hp hsp
      exact moveFields _ _ _ _ (by omega) (by omega) (by simp) (fun _ => rfl)
    · obtain ⟨ht64, htb⟩ := mem_squaresOf ht
      obtain ⟨hs, -⟩ := land_testBit htb
      obtain ⟨hse, -⟩ := land_testBit hs
      rw [shiftSE] at hse
      obtain ⟨hsp, -⟩ := land_testBit hse
      rw [testBit_shiftRight'] at hsp
      have := testBit_lt_64 hp hsp
      rcases h with rfl | rfl | rfl | rfl <;>
        exact moveFields _ _ _ _ (by omega) (by omega) (fun _ => by simp) (fun hq => absurd rfl hq)
    · by_cases hep : pos.enPassant ≠ noSquare
      · rw [if_pos hep] at hm
        simp only [List.mem_map] at hm
        obtain ⟨f, hf, rfl⟩ := hm
        obtain ⟨hf64, hfb⟩ := mem_squaresOf hf
        obtain ⟨hatt, -⟩ := land_testBit hfb
        have hep64 : pos.enPassant < 64 := by
          by_contra hge
          have hz : squareBB pos.enPassant = 0 := squareBB_ge64 (Nat.le_of_not_lt hge)
          rw [pawnAttacks_zero hz] at hatt
          simp [Nat.zero_testBit] at hatt
        exact moveFields _ _ _ _ hf64 hep64 (by simp) (fun _ => rfl)
      · rw [if_neg hep] at hm
        simp at hm



/-- Field discipline of gen_piece_moves: real squares, Normal flag, no
promotion type. -/
theorem genPieceMoves_fields (pos : Position) (pt : PieceType) {m : Move}
    (hm : m ∈ genPieceMoves pos pt) :
    m.fromSq < 64 ∧ m.toSq < 64 ∧ m.flag = .normal ∧ m.promotion = .none := by
  simp only [genPieceMoves, List.mem_flatMap, List.mem_map] at hm
  obtain ⟨f, hf, t, ht, rfl⟩ := hm
  exact ⟨(mem_squaresOf hf).1, (mem_squaresOf ht).1, rfl, rfl⟩

/-- Field discipline of gen_castling on a board whose side to move has a
bounded, nonempty king bitboard: real squares and no promotion type. -/
theorem genCastling_fields (pos : Position)
    (hkb : pos.board.pieces (pos.sideToMove, .king) < two64)
    (hkn : pos.board.pieces (pos.sideToMove, .king) ≠ 0)
    {m : Move} (hm : m ∈ genCastling pos) :
    m.fromSq < 64 ∧ m.toSq < 64 ∧
    (m.flag = .castleKingside ∨ m.flag = .castleQueenside) ∧ m.promotion = .none := by
  have hks := kingSquare_lt_64 hkb hkn
  rcases (mem_genCastling_iff pos m).mp hm with ⟨-, ⟨-, -, -, -, -, rfl⟩ | ⟨-, -, -, -, -, -, rfl⟩⟩
  · refine ⟨hks, ?_, Or.inl rfl, rfl⟩
    rcases pos.sideToMove <;> simp [mkSquare]
  · refine ⟨hks, ?_, Or.inr rfl, rfl⟩
    rcases pos.sideToMove <;> simp [mkSquare]

/-- Field discipline of every pseudo-legal move: both squares are real
board squares, Promotion-flagged moves promote to one of Q, R, B, N, and
every other move has promotion type None. -/
theorem pseudoLegal_fields (pos : Position)
    (hp : pos.board.pieces (pos.sideToMove, .pawn) < two64)
    (hkb : pos.board.pieces (pos.sideToMove, .king) < two64)
    (hkn : pos.board.pieces (pos.sideToMove, .king) ≠ 0)
    {m : Move} (hm : m ∈ pseudoLegal pos) :
    m.fromSq < 64 ∧ m.toSq < 64 ∧
    (m.flag = .promotion →
      m.promotion = .queen ∨ m.promotion = .rook ∨ m.promotion = .bishop ∨
      m.promotion = .knight) ∧
    (m.flag ≠ .promotion → m.promotion = .none) := by
  simp only [pseudoLegal, List.mem_append] at hm
  rcases hm with ((((((hm | hm) | hm) | hm) | hm) | hm) | hm)
  · exact genPawnMoves_fields pos hp hm
  · obtain ⟨h1, h2, h3, h4⟩ := genPieceMoves_fields pos _ hm
    exact ⟨h1, h2, fun hq => absurd hq (by simp [h3]), fun _ => h4⟩
  · obtain ⟨h1, h2, h3, h4⟩ := genPieceMoves_fields pos _ hm
    exact ⟨h1, h2, fun hq => absurd hq (by simp [h3]), fun _ => h4⟩
  · obtain ⟨h1, h2, h3, h4⟩ := genPieceMoves_fields pos _ hm
    exact ⟨h1, h2, fun hq => absurd hq (by simp [h3]), fun _ => h4⟩
  · obtain ⟨h1, h2, h3, h4⟩ := genPieceMoves_fields pos _ hm
    exact ⟨h1, h2, fun hq => absurd hq (by simp [h3]), fun _ => h4⟩
  · obtain ⟨h1, h2, h3, h4⟩ := genPieceMoves_fields pos _ hm
    exact ⟨h1, h2, fun hq => absurd hq (by simp [h3]), fun _ => h4⟩
  · obtain ⟨h1, h2, h3, h4⟩ := genCastling_fields pos hkb hkn hm
    refine ⟨h1, h2, fun hq => ?_, fun _ => h4⟩
    rcases h3 with h3 | h3 <;> rw [h3] at hq <;> exact absurd hq (by simp)

/-- Every move kept by the legality filter comes from the pseudo-legal
input list. -/
theorem mem_of_mem_legalAux (us : Color) :
    ∀ (p : Position) (ms : List Move) (m : Move), m ∈ legalAux us p ms → m ∈ ms
  | _, [], _, h => absurd h (List.not_mem_nil _)
  | p, m0 :: ms, m, h => by
    unfold legalAux at h
    dsimp only at h
    split at h
    · rcases List.mem_cons.mp h with rfl | h
      · exact List.mem_cons_self _ _
      · exact List.mem_cons_of_mem _ (mem_of_mem_legalAux us _ ms m h)
    · exact List.mem_cons_of_mem _ (mem_of_mem_legalAux us _ ms m h)

/-- Legal moves are pseudo-legal. -/
theorem legal_sub_pseudo (pos : Position) {m : Move} (hm : m ∈ legalMoves pos) :
    m ∈ pseudoLegal pos :=
  mem_of_mem_legalAux pos.sideToMove pos (pseudoLegal pos) m hm



/-- parse_square inverts square_name on every real square. -/
theorem parseSquare_squareName : ∀ sq < 64, parseSquare (squareName sq) = sq := by decide

/-- from_uci inverts uci on any move with real squares whose promotion type
is None or one of the four promotable piece types; the flag comes back as
Promotion when a promotion suffix was printed and Normal otherwise. -/
theorem fromUci_uci (f t : Nat) (fl : MoveFlag) (p : PieceType)
    (h1 : f < 64) (h2 : t < 64)
    (h3 : p = .none ∨ p = .queen ∨ p = .rook ∨ p = .bishop ∨ p = .knight) :
    Move.fromUci (Move.uci ⟨f, t, fl, p⟩) =
      ⟨f, t, if p = .none then .normal else .promotion, p⟩ := by
  have e1 : parseSquare (squareName f) = f := parseSquare_squareName f h1
  have e2 : parseSquare (squareName t) = t := parseSquare_squareName t h2
  have hf : f ≠ noSquare := by unfold noSquare; omega
  have ht : t ≠ noSquare := by unfold noSquare; omega
  rcases h3 with h3 | h3 | h3 | h3 | h3 <;> subst h3
  · show Move.fromUci (squareName f ++ squareName t ++ []) = ⟨f, t, .normal, .none⟩
    have hred : Move.fromUci (squareName f ++ squareName t ++ []) =
        (if parseSquare (squareName f) = noSquare ∨ parseSquare (squareName t) = noSquare
         then {}
         else { fromSq := parseSquare (squareName f), toSq := parseSquare (squareName t),
                flag := MoveFlag.normal, promotion := PieceType.none }) := rfl
    rw [hred, e1, e2, if_neg (not_or.mpr ⟨hf, ht⟩)]
  · show Move.fromUci (squareName f ++ squareName t ++ [Char.ofNat 113]) = ⟨f, t, .promotion, .queen⟩
    have hred : Move.fromUci (squareName f ++ squareName t ++ [Char.ofNat 113]) =
        (if parseSquare (squareName f) = noSquare ∨ parseSquare (squareName t) = noSquare
         then {}
         else { fromSq := parseSquare (squareName f), toSq := parseSquare (squareName t),
                flag := MoveFlag.promotion, promotion := PieceType.queen }) := rfl
    rw [hred, e1, e2, if_neg (not_or.mpr ⟨hf, ht⟩)]
  · show Move.fromUci (squareName f ++ squareName t ++ [Char.ofNat 114]) = ⟨f, t, .promotion, .rook⟩
    have hred : Move.fromUci (squareName f ++ squareName t ++ [Char.ofNat 114]) =
        (if parseSquare (squareName f) = noSquare ∨ parseSquare (squareName t) = noSquare
         then {}
         else { fromSq := parseSquare (squareName f), toSq := parseSquare (squareName t),
                flag := MoveFlag.promotion, promotion := PieceType.rook }) := rfl
    rw [hred, e1, e2, if_neg (not_or.mpr ⟨hf, ht⟩)]
  · show Move.fromUci (squareName f ++ squareName t ++ [Char.ofNat 98]) = ⟨f, t, .promotion, .bishop⟩
    have hred : Move.fromUci (squareName f ++ squareName t ++ [Char.ofNat 98]) =
        (if parseSquare (squareName f) = noSquare ∨ parseSquare (squareName t) = noSquare
         then {}
         else { fromSq := parseSquare (squareName f), toSq := parseSquare (squareName t),
                flag := MoveFlag.promotion, promotion := PieceType.bishop }) := rfl
    rw [hred, e1, e2, if_neg (not_or.mpr ⟨hf, ht⟩)]
  · show Move.fromUci (squareName f ++ squareName t ++ [Char.ofNat 110]) = ⟨f, t, .promotion, .knight⟩
    have hred : Move.fromUci (squareName f ++ squareName t ++ [Char.ofNat 110]) =
        (if parseSquare (squareName f) = noSquare ∨ parseSquare (squareName t) = noSquare
         then {}
         else { fromSq := parseSquare (squareName f), toSq := parseSquare (squareName t),
                flag := MoveFlag.promotion, promotion := PieceType.knight }) := rfl
    rw [hred, e1, e2, if_neg (not_or.mpr ⟨hf, ht⟩)]

set_option maxHeartbeats 1000000 in
/-- C6 counterexample: the double pawn push e2e4 is listed as legal in the
starting position, yet parsing its UCI text "e2e4" does not give it back:
from_uci always returns the Normal flag on 4-character input, never
DoublePawn. -/
theorem uci_round_trip_counterexample :
    ({ fromSq := 12, toSq := 28, flag := .doublePawn } : Move) ∈ legalMoves startPos ∧
    Move.fromUci (Move.uci { fromSq := 12, toSq := 28, flag := .doublePawn }) ≠
      ({ fromSq := 12, toSq := 28, flag := .doublePawn } : Move) := by
  constructor
  · decide
  · decide

/-- C6 amended: for every move listed as legal in a position whose
side-to-move pawn and king bitboards are in range (king nonempty), parsing
the move's UCI text recovers the from-square, the to-square and the
promotion type exactly, and recovers the flag only up to the
Promotion/Normal dichotomy of from_uci: Promotion-flagged moves round-trip
in full, every other move comes back with the Normal flag (so DoublePawn,
EnPassant and the two Castle flags are lost). -/
theorem uci_round_trip_amended (pos : Position)
    (hp : pos.board.pieces (pos.sideToMove, .pawn) < two64)
    (hkb : pos.board.pieces (pos.sideToMove, .king) < two64)
    (hkn : pos.board.pieces (pos.sideToMove, .king) ≠ 0)
    (m : Move) (hm : m ∈ legalMoves pos) :
    Move.fromUci (Move.uci m) =
      { fromSq := m.fromSq, toSq := m.toSq,
        flag := if m.flag = .promotion then .promotion else .normal,
        promotion := m.promotion } := by
  obtain ⟨h1, h2, h3, h4⟩ := pseudoLegal_fields pos hp hkb hkn (legal_sub_pseudo pos hm)
  obtain ⟨f, t, fl, p⟩ := m
  simp only at h1 h2 h3 h4 ⊢
  by_cases hfl : fl = MoveFlag.promotion
  · subst hfl
    have hp4 := h3 rfl
    have hpn : p ≠ PieceType.none := by
      rcases hp4 with rfl | rfl | rfl | rfl <;> decide
    refine (fromUci_uci f t .promotion p h1 h2 (Or.inr hp4)).trans ?_
    rw [if_neg hpn, if_pos rfl]
  · have hp0 : p = PieceType.none := h4 hfl
    subst hp0
    refine (fromUci_uci f t fl .none h1 h2 (Or.inl rfl)).trans ?_
    rw [if_pos rfl, if_neg hfl]

set_option maxHeartbeats 1000000 in
/-- Witness for the amended C6 theorem at the starting position and the
legal double pawn push e2e4. -/
theorem uci_round_trip_amended_witness :
    Move.fromUci (Move.uci { fromSq := 12, toSq := 28, flag := .doublePawn }) =
      ({ fromSq := 12, toSq := 28,
         flag := if MoveFlag.doublePawn = MoveFlag.promotion then .promotion else .normal,
         promotion := .none } : Move) :=
  uci_round_trip_amended startPos (by decide) (by decide) (by decide)
    { fromSq := 12, toSq := 28, flag := .doublePawn } (by decide)



-- ── Word-level set/clear bit algebra ────────────────────────────────────────

/-- The single-square bitboard has exactly its square's bit set. -/
theorem testBit_squareBB {sq : Nat} (hsq : sq < 64) (i : Nat) :
    (squareBB sq).testBit i = decide (i = sq) := by
  by_cases h : i = sq
  · subst h
    unfold squareBB
    rw [testBit_shiftLeft_mod]
    simp [hsq]
  · unfold squareBB
    rw [testBit_shiftLeft_mod]
    simp only [h, decide_eq_true_eq]
    rcases Nat.lt_or_ge i 64 with hi | hi
    · rcases Nat.lt_or_ge i sq with hsi | hsi
      · have hd : decide (sq ≤ i) = false := by simp; omega
        simp [hd]
      · have hgt : 0 < i - sq := by omega
        have hpow : (1 : Nat) < 2 ^ (i - sq) := by
          calc (1 : Nat) < 2 ^ 1 := by norm_num
          _ ≤ 2 ^ (i - sq) := Nat.pow_le_pow_right (by omega) hgt
        rw [Nat.testBit_lt_two_pow hpow]
        simp
    · have hd : decide (i < 64) = false := by simp; omega
      simp [hd]

/-- Bit i of a set_bit word. -/
theorem testBit_setBitBB (b : Nat) {sq : Nat} (hsq : sq < 64) (i : Nat) :
    (setBitBB b sq).testBit i = (b.testBit i || decide (i = sq)) := by
  unfold setBitBB
  rw [Nat.testBit_or, testBit_squareBB hsq]

/-- Bit i of mask64. -/
theorem testBit_mask64 (i : Nat) : mask64.testBit i = decide (i < 64) := by
  unfold mask64 two64
  have h : (18446744073709551616 - 1 : Nat) = 2 ^ 64 - 1 := by norm_num
  rw [h, Nat.testBit_two_pow_sub_one]

/-- Bit i of a clear_bit word. -/
theorem testBit_clearBitBB (b : Nat) {sq : Nat} (hsq : sq < 64) (i : Nat) :
    (clearBitBB b sq).testBit i = (b.testBit i && !decide (i = sq) && decide (i < 64)) := by
  unfold clearBitBB compl64
  rw [Nat.testBit_and, Nat.testBit_xor, testBit_squareBB hsq, testBit_mask64]
  by_cases h1 : i = sq
  · subst h1
    simp [hsq]
  · by_cases h2 : i < 64 <;> simp [h1, h2]

/-- set_bit keeps the word in 64-bit range. -/
theorem setBitBB_lt {b : Nat} (sq : Nat) (hb : b < two64) : setBitBB b sq < two64 := by
  unfold setBitBB
  have h1 : squareBB sq < two64 := by
    unfold squareBB
    exact Nat.mod_lt _ (by norm_num [two64])
  have h2 : two64 = 2 ^ 64 := by norm_num [two64]
  rw [h2] at *
  exact Nat.or_lt_two_pow hb h1

/-- clear_bit keeps the word in 64-bit range. -/
theorem clearBitBB_lt {b : Nat} (sq : Nat) (hb : b < two64) : clearBitBB b sq < two64 :=
  lt_of_le_of_lt Nat.and_le_left hb

/-- Clearing a freshly set bit of a clean word restores it. -/
theorem clear_set_cancel {b sq : Nat} (hb : b < two64) (hbit : b.testBit sq = false)
    (hsq : sq < 64) : clearBitBB (setBitBB b sq) sq = b := by
  apply Nat.eq_of_testBit_eq
  intro i
  rw [testBit_clearBitBB _ hsq, testBit_setBitBB _ hsq]
  by_cases h : i = sq
  · subst h
    simp [hbit]
  · by_cases h2 : i < 64
    · simp [h, h2]
    · simp only [h, decide_False, h2]
      cases hbi : b.testBit i
      · simp
      · exact absurd (testBit_lt_64 hb hbi) h2

/-- Setting a freshly cleared bit back restores the word. -/
theorem set_clear_restore {b sq : Nat} (hb : b < two64) (hbit : b.testBit sq = true)
    (hsq : sq < 64) : setBitBB (clearBitBB b sq) sq = b := by
  apply Nat.eq_of_testBit_eq
  intro i
  rw [testBit_setBitBB _ hsq, testBit_clearBitBB _ hsq]
  by_cases h : i = sq
  · subst h
    simp [hbit]
  · by_cases h2 : i < 64
    · simp [h, h2]
    · simp only [h, decide_False, h2]
      cases hbi : b.testBit i
      · simp
      · exact absurd (testBit_lt_64 hb hbi) h2

/-- set_bit and clear_bit at distinct squares commute. -/
theorem set_clear_comm {x y : Nat} (b : Nat) (hxy : x ≠ y) (hx : x < 64) (hy : y < 64) :
    setBitBB (clearBitBB b y) x = clearBitBB (setBitBB b x) y := by
  apply Nat.eq_of_testBit_eq
  intro i
  rw [testBit_setBitBB _ hx, testBit_clearBitBB _ hy, testBit_clearBitBB _ hy,
    testBit_setBitBB _ hx]
  by_cases h1 : i = x
  · subst h1
    simp [hx, hxy]
  · by_cases h2 : i = y <;> by_cases h3 : i < 64 <;>
      simp [h1, h2, h3, Ne.symm hxy]

/-- Two clear_bits commute. -/
theorem clear_clear_comm (b : Nat) (x y : Nat) :
    clearBitBB (clearBitBB b x) y = clearBitBB (clearBitBB b y) x := by
  unfold clearBitBB
  rw [Nat.and_assoc, Nat.and_assoc, Nat.and_comm (compl64 (squareBB x))]

/-- The file A mask holds exactly the file-0 squares. -/
theorem testBit_fileA : ∀ i < 64, (fileA.testBit i = true ↔ i % 8 = 0) := by decide

/-- The file H mask holds exactly the file-7 squares. -/
theorem testBit_fileH : ∀ i < 64, (fileH.testBit i = true ↔ i % 8 = 7) := by decide



-- ── Board-level update algebra ──────────────────────────────────────────────

/-- Boards with equal fields are equal. -/
theorem board_eq_of_fields {b1 b2 : Board} (h1 : b1.pieces = b2.pieces)
    (h2 : b1.occupied = b2.occupied) (h3 : b1.occupiedAll = b2.occupiedAll)
    (h4 : b1.mailbox = b2.mailbox) : b1 = b2 := by
  cases b1
  cases b2
  simp_all

/-- The mailbox after put_piece. -/
theorem putPiece_mailbox (b : Board) (sq : Nat) (p : Piece) (x : Nat) :
    (b.putPiece sq p).mailbox x = if x = sq then p else b.mailbox x := by
  unfold Board.putPiece
  exact Function.update_apply b.mailbox sq p x

/-- The mailbox after remove_piece. -/
theorem removePiece_mailbox (b : Board) (sq : Nat) (x : Nat) :
    (b.removePiece sq).mailbox x = if x = sq then noPiece else b.mailbox x := by
  unfold Board.removePiece
  exact Function.update_apply b.mailbox sq noPiece x

/-- A piece bitboard after put_piece. -/
theorem putPiece_pieces (b : Board) (sq : Nat) (p : Piece) (k : Color × PieceType) :
    (b.putPiece sq p).pieces k =
      if k = (p.color, p.type) then setBitBB (b.pieces (p.color, p.type)) sq
      else b.pieces k := by
  unfold Board.putPiece
  exact Function.update_apply b.pieces _ _ k

/-- A piece bitboard after remove_piece. -/
theorem removePiece_pieces (b : Board) (sq : Nat) (k : Color × PieceType) :
    (b.removePiece sq).pieces k =
      if k = ((b.mailbox sq).color, (b.mailbox sq).type) then
        clearBitBB (b.pieces ((b.mailbox sq).color, (b.mailbox sq).type)) sq
      else b.pieces k := by
  unfold Board.removePiece
  exact Function.update_apply b.pieces _ _ k

/-- A color occupancy after put_piece. -/
theorem putPiece_occupied (b : Board) (sq : Nat) (p : Piece) (c : Color) :
    (b.putPiece sq p).occupied c =
      if c = p.color then setBitBB (b.occupied p.color) sq else b.occupied c := by
  unfold Board.putPiece
  exact Function.update_apply b.occupied _ _ c

/-- A color occupancy after remove_piece. -/
theorem removePiece_occupied (b : Board) (sq : Nat) (c : Color) :
    (b.removePiece sq).occupied c =
      if c = (b.mailbox sq).color then
        clearBitBB (b.occupied (b.mailbox sq).color) sq
      else b.occupied c := by
  unfold Board.removePiece
  exact Function.update_apply b.occupied _ _ c

/-- The all-occupancy after put_piece. -/
theorem putPiece_occupiedAll (b : Board) (sq : Nat) (p : Piece) :
    (b.putPiece sq p).occupiedAll = setBitBB b.occupiedAll sq := rfl

/-- The all-occupancy after remove_piece. -/
theorem removePiece_occupiedAll (b : Board) (sq : Nat) :
    (b.removePiece sq).occupiedAll = clearBitBB b.occupiedAll sq := rfl



/-- Removing a freshly put piece from a clean empty square restores the
board. -/
theorem put_remove_cancel (b : Board) (sq : Nat) (p : Piece) (hsq : sq < 64)
    (hmail : b.mailbox sq = noPiece)
    (hpieces : (b.pieces (p.color, p.type)).testBit sq = false)
    (hocc : (b.occupied p.color).testBit sq = false)
    (hall : b.occupiedAll.testBit sq = false)
    (hplt : b.pieces (p.color, p.type) < two64)
    (holt : b.occupied p.color < two64)
    (halt : b.occupiedAll < two64) :
    (b.putPiece sq p).removePiece sq = b := by
  have hread : (b.putPiece sq p).mailbox sq = p := by
    rw [putPiece_mailbox]
    simp
  apply board_eq_of_fields
  · funext k
    rw [removePiece_pieces, hread, putPiece_pieces, putPiece_pieces]
    by_cases hk : k = (p.color, p.type)
    · rw [if_pos hk, if_pos rfl, clear_set_cancel hplt hpieces hsq, hk]
    · rw [if_neg hk, if_neg hk]
  · funext c
    rw [removePiece_occupied, hread, putPiece_occupied, putPiece_occupied]
    by_cases hc : c = p.color
    · rw [if_pos hc, if_pos rfl, clear_set_cancel holt hocc hsq, hc]
    · rw [if_neg hc, if_neg hc]
  · rw [removePiece_occupiedAll, putPiece_occupiedAll, clear_set_cancel halt hall hsq]
  · funext x
    rw [removePiece_mailbox, putPiece_mailbox]
    by_cases hx : x = sq
    · subst hx
      rw [if_pos rfl, hmail]
    · rw [if_neg hx, if_neg hx]

/-- Putting the removed piece back on its clean occupied square restores the
board. -/
theorem remove_put_restore (b : Board) (sq : Nat) (p : Piece) (hsq : sq < 64)
    (hmail : b.mailbox sq = p)
    (hpieces : (b.pieces (p.color, p.type)).testBit sq = true)
    (hocc : (b.occupied p.color).testBit sq = true)
    (hall : b.occupiedAll.testBit sq = true)
    (hplt : b.pieces (p.color, p.type) < two64)
    (holt : b.occupied p.color < two64)
    (halt : b.occupiedAll < two64) :
    (b.removePiece sq).putPiece sq p = b := by
  apply board_eq_of_fields
  · funext k
    rw [putPiece_pieces, removePiece_pieces, removePiece_pieces, hmail]
    by_cases hk : k = (p.color, p.type)
    · rw [if_pos hk, if_pos rfl, set_clear_restore hplt hpieces hsq, hk]
    · rw [if_neg hk, if_neg hk]
  · funext c
    rw [putPiece_occupied, removePiece_occupied, removePiece_occupied, hmail]
    by_cases hc : c = p.color
    · rw [if_pos hc, if_pos rfl, set_clear_restore holt hocc hsq, hc]
    · rw [if_neg hc, if_neg hc]
  · rw [putPiece_occupiedAll, removePiece_occupiedAll, set_clear_restore halt hall hsq]
  · funext x
    rw [putPiece_mailbox, removePiece_mailbox]
    by_cases hx : x = sq
    · subst hx
      rw [if_pos rfl, hmail]
    · rw [if_neg hx, if_neg hx]



/-- Commuting two point updates of a function, each reading the original
value at its own key. -/
theorem ite_chain_comm {α β : Type} [DecidableEq α] (f : α → β) (P Q : α) (u v : β → β)
    (huv : P = Q → ∀ w, u (v w) = v (u w)) (k : α) :
    (if k = P then u (if P = Q then v (f Q) else f P)
     else if k = Q then v (f Q) else f k) =
    (if k = Q then v (if Q = P then u (f P) else f Q)
     else if k = P then u (f P) else f k) := by
  by_cases hPQ : P = Q
  · subst hPQ
    by_cases hk : k = P <;> simp [hk, huv rfl]
  · by_cases h1 : k = P <;> by_cases h2 : k = Q
    · exact absurd (h1 ▸ h2) hPQ
    · rw [if_pos h1, if_neg h2, if_pos h1, if_neg hPQ]
    · rw [if_neg h1, if_pos h2, if_pos h2, if_neg (fun h => hPQ h.symm)]
    · rw [if_neg h1, if_neg h2, if_neg h2, if_neg h1]

/-- put_piece and remove_piece at distinct squares commute. -/
theorem put_remove_comm (b : Board) {x y : Nat} (p : Piece) (hxy : x ≠ y)
    (hx : x < 64) (hy : y < 64) :
    (b.removePiece y).putPiece x p = (b.putPiece x p).removePiece y := by
  have hread : (b.putPiece x p).mailbox y = b.mailbox y := by
    rw [putPiece_mailbox, if_neg (fun h => hxy h.symm)]
  apply board_eq_of_fields
  · funext k
    simp only [putPiece_pieces, removePiece_pieces, hread]
    exact ite_chain_comm b.pieces (p.color, p.type)
      ((b.mailbox y).color, (b.mailbox y).type) (fun w => setBitBB w x)
      (fun w => clearBitBB w y) (fun _ w => set_clear_comm w hxy hx hy) k
  · funext c
    simp only [putPiece_occupied, removePiece_occupied, hread]
    exact ite_chain_comm b.occupied p.color (b.mailbox y).color
      (fun w => setBitBB w x) (fun w => clearBitBB w y)
      (fun _ w => set_clear_comm w hxy hx hy) c
  · simp only [putPiece_occupiedAll, removePiece_occupiedAll]
    exact set_clear_comm _ hxy hx hy
  · funext z
    simp only [putPiece_mailbox, removePiece_mailbox, hread]
    exact ite_chain_comm b.mailbox x y (fun _ => p) (fun _ => noPiece)
      (fun h => absurd h hxy) z

/-- Two remove_pieces at distinct squares commute. -/
theorem remove_remove_comm (b : Board) {x y : Nat} (hxy : x ≠ y) :
    (b.removePiece x).removePiece y = (b.removePiece y).removePiece x := by
  have hrx : (b.removePiece x).mailbox y = b.mailbox y := by
    rw [removePiece_mailbox, if_neg (fun h => hxy h.symm)]
  have hry : (b.removePiece y).mailbox x = b.mailbox x := by
    rw [removePiece_mailbox, if_neg hxy]
  apply board_eq_of_fields
  · funext k
    simp only [removePiece_pieces, hrx, hry]
    exact ite_chain_comm b.pieces ((b.mailbox y).color, (b.mailbox y).type)
      ((b.mailbox x).color, (b.mailbox x).type) (fun w => clearBitBB w y)
      (fun w => clearBitBB w x) (fun _ w => clear_clear_comm w x y) k
  · funext c
    simp only [removePiece_occupied, hrx, hry]
    exact ite_chain_comm b.occupied (b.mailbox y).color (b.mailbox x).color
      (fun w => clearBitBB w y) (fun w => clearBitBB w x)
      (fun _ w => clear_clear_comm w x y) c
  · simp only [removePiece_occupiedAll]
    exact clear_clear_comm _ _ _
  · funext z
    simp only [removePiece_mailbox, hrx, hry]
    exact ite_chain_comm b.mailbox y x (fun _ => noPiece) (fun _ => noPiece)
      (fun _ _ => rfl) z


-- ── Well-formedness invariants ──────────────────────────────────────────────

instance : Fintype Color :=
  ⟨{Color.white, Color.black}, fun c => by cases c <;> simp⟩

instance : Fintype PieceType :=
  ⟨{PieceType.none, .pawn, .knight, .bishop, .rook, .queen, .king},
   fun t => by cases t <;> simp⟩

/-- Coherence of the redundant board representation: every bitboard is a
64-bit word, the sentinel piece-type slot is empty, and the piece bitboards,
color occupancies and all-occupancy agree with the mailbox. -/
@[mk_iff]
structure BoardWF (b : Board) : Prop where
  piecesLt : ∀ c t, b.pieces (c, t) < two64
  occLt : ∀ c, b.occupied c < two64
  allLt : b.occupiedAll < two64
  noneSlot : ∀ c, b.pieces (c, .none) = 0
  mailboxNone : ∀ sq < 64, (b.mailbox sq).type = .none → b.mailbox sq = noPiece
  piecesBit : ∀ c t, t ≠ .none → ∀ sq < 64,
    ((b.pieces (c, t)).testBit sq ↔ b.mailbox sq = ⟨c, t⟩)
  occBit : ∀ c, ∀ sq < 64,
    ((b.occupied c).testBit sq ↔ b.mailbox sq ≠ noPiece ∧ (b.mailbox sq).color = c)
  allBit : ∀ sq < 64, (b.occupiedAll.testBit sq ↔ b.mailbox sq ≠ noPiece)

instance (b : Board) : Decidable (BoardWF b) :=
  decidable_of_iff _ (boardWF_iff b).symm

/-- Well-formedness of a position: a coherent board, an en-passant square
consistent with the side to move (right rank, empty target, capturable
enemy pawn behind it), and, for each castling right still held, the king
bitboard pinned to the home square and the rook on its corner. -/
@[mk_iff]
structure PosWF (pos : Position) : Prop where
  board : BoardWF pos.board
  epOK : pos.enPassant ≠ noSquare →
    (pos.sideToMove = .white →
      rankOf pos.enPassant = 5 ∧ pos.board.mailbox pos.enPassant = noPiece ∧
      pos.board.mailbox (mkSquare (fileOf pos.enPassant) 4) = ⟨.black, .pawn⟩) ∧
    (pos.sideToMove = .black →
      rankOf pos.enPassant = 2 ∧ pos.board.mailbox pos.enPassant = noPiece ∧
      pos.board.mailbox (mkSquare (fileOf pos.enPassant) 3) = ⟨.white, .pawn⟩)
  castleWK : pos.castling &&& whiteKingside ≠ 0 →
    pos.board.pieces (.white, .king) = squareBB 4 ∧ pos.board.mailbox 7 = ⟨.white, .rook⟩
  castleWQ : pos.castling &&& whiteQueenside ≠ 0 →
    pos.board.pieces (.white, .king) = squareBB 4 ∧ pos.board.mailbox 0 = ⟨.white, .rook⟩
  castleBK : pos.castling &&& blackKingside ≠ 0 →
    pos.board.pieces (.black, .king) = squareBB 60 ∧ pos.board.mailbox 63 = ⟨.black, .rook⟩
  castleBQ : pos.castling &&& blackQueenside ≠ 0 →
    pos.board.pieces (.black, .king) = squareBB 60 ∧ pos.board.mailbox 56 = ⟨.black, .rook⟩

instance (pos : Position) : Decidable (PosWF pos) :=
  decidable_of_iff _ (posWF_iff pos).symm



/-- 64-bit boundedness of all board words. -/
def BoardLt (b : Board) : Prop :=
  (∀ c t, b.pieces (c, t) < two64) ∧ (∀ c, b.occupied c < two64) ∧ b.occupiedAll < two64

/-- A coherent board is bounded. -/
theorem BoardWF.lt {b : Board} (h : BoardWF b) : BoardLt b := ⟨h.piecesLt, h.occLt, h.allLt⟩

/-- put_piece keeps every board word 64-bit. -/
theorem BoardLt.put {b : Board} (h : BoardLt b) (sq : Nat) (p : Piece) :
    BoardLt (b.putPiece sq p) := by
  obtain ⟨h1, h2, h3⟩ := h
  refine ⟨fun c t => ?_, fun c => ?_, ?_⟩
  · rw [putPiece_pieces]
    split_ifs with hk
    · exact setBitBB_lt _ (h1 _ _)
    · exact h1 _ _
  · rw [putPiece_occupied]
    split_ifs with hc
    · exact setBitBB_lt _ (h2 _)
    · exact h2 _
  · rw [putPiece_occupiedAll]
    exact setBitBB_lt _ h3

/-- remove_piece keeps every board word 64-bit. -/
theorem BoardLt.remove {b : Board} (h : BoardLt b) (sq : Nat) :
    BoardLt (b.removePiece sq) := by
  obtain ⟨h1, h2, h3⟩ := h
  refine ⟨fun c t => ?_, fun c => ?_, ?_⟩
  · rw [removePiece_pieces]
    split_ifs with hk
    · exact clearBitBB_lt _ (h1 _ _)
    · exact h1 _ _
  · rw [removePiece_occupied]
    split_ifs with hc
    · exact clearBitBB_lt _ (h2 _)
    · exact h2 _
  · rw [removePiece_occupiedAll]
    exact clearBitBB_lt _ h3

/-- Board round trip of a quiet move (no capture): remove the mover at the
origin, put the arriving piece on the empty destination; then remove the
destination and put the original piece back. -/
theorem board_roundtrip_quiet (B : Board) {f t : Nat} (P Pl : Piece)
    (hWF : BoardWF B) (hf : f < 64) (ht : t < 64) (hft : f ≠ t)
    (hmf : B.mailbox f = P) (hPne : P ≠ noPiece) (hPlt : Pl.type ≠ .none)
    (hmt : B.mailbox t = noPiece) :
    (((B.removePiece f).putPiece t Pl).removePiece t).putPiece f P = B := by
  have hPtne : P.type ≠ .none := by
    intro h
    have hmb := hWF.mailboxNone f hf (by rw [hmf]; exact h)
    rw [hmf] at hmb
    exact hPne hmb
  have hb1 : (B.pieces (Pl.color, Pl.type)).testBit t = false := by
    cases hbit : (B.pieces (Pl.color, Pl.type)).testBit t
    · rfl
    · exfalso
      have hmb := (hWF.piecesBit Pl.color Pl.type hPlt t ht).mp hbit
      rw [hmt] at hmb
      exact hPlt (congrArg Piece.type hmb).symm
  have hb2 : ∀ c, (B.occupied c).testBit t = false := by
    intro c
    cases hbit : (B.occupied c).testBit t
    · rfl
    · exact absurd hmt ((hWF.occBit c t ht).mp hbit).1
  have hb3 : B.occupiedAll.testBit t = false := by
    cases hbit : B.occupiedAll.testBit t
    · rfl
    · exact absurd hmt ((hWF.allBit t ht).mp hbit)
  have hX1 : ((B.removePiece f).putPiece t Pl).removePiece t = B.removePiece f := by
    apply put_remove_cancel _ t Pl ht
    · rw [removePiece_mailbox, if_neg (fun h => hft h.symm), hmt]
    · rw [removePiece_pieces]
      by_cases hk : ((Pl.color, Pl.type) : Color × PieceType) =
          ((B.mailbox f).color, (B.mailbox f).type)
      · rw [if_pos hk, ← hk, testBit_clearBitBB _ hf, hb1]
        rfl
      · rw [if_neg hk]
        exact hb1
    · rw [removePiece_occupied]
      by_cases hc : Pl.color = (B.mailbox f).color
      · rw [if_pos hc, ← hc, testBit_clearBitBB _ hf, hb2 Pl.color]
        rfl
      · rw [if_neg hc]
        exact hb2 _
    · rw [removePiece_occupiedAll, testBit_clearBitBB _ hf, hb3]
      rfl
    · exact (hWF.lt.remove f).1 _ _
    · exact (hWF.lt.remove f).2.1 _
    · exact (hWF.lt.remove f).2.2
  rw [hX1]
  apply remove_put_restore B f P hf hmf
  · refine (hWF.piecesBit P.color P.type hPtne f hf).mpr ?_
    rw [hmf]
  · refine (hWF.occBit P.color f hf).mpr ⟨?_, ?_⟩
    · rw [hmf]
      exact hPne
    · rw [hmf]
  · exact (hWF.allBit f hf).mpr (by rw [hmf]; exact hPne)
  · exact hWF.piecesLt _ _
  · exact hWF.occLt _
  · exact hWF.allLt



/-- remove_piece never turns a piece-bitboard bit on. -/
theorem removePiece_pieces_false {b : Board} (sq : Nat) (k : Color × PieceType)
    {i : Nat} (h : (b.pieces k).testBit i = false) :
    ((b.removePiece sq).pieces k).testBit i = false := by
  rw [removePiece_pieces]
  split_ifs with hk
  · rw [hk] at h
    unfold clearBitBB
    cases hbit : ((b.pieces ((b.mailbox sq).color, (b.mailbox sq).type) &&&
        compl64 (squareBB sq)).testBit i)
    · rfl
    · exact Bool.noConfusion (h.symm.trans (land_testBit hbit).1)
  · exact h

/-- remove_piece never turns a color-occupancy bit on. -/
theorem removePiece_occupied_false {b : Board} (sq : Nat) (c : Color)
    {i : Nat} (h : (b.occupied c).testBit i = false) :
    ((b.removePiece sq).occupied c).testBit i = false := by
  rw [removePiece_occupied]
  split_ifs with hc
  · rw [hc] at h
    unfold clearBitBB
    cases hbit : ((b.occupied (b.mailbox sq).color &&& compl64 (squareBB sq)).testBit i)
    · rfl
    · exact Bool.noConfusion (h.symm.trans (land_testBit hbit).1)
  · exact h

/-- remove_piece never turns an all-occupancy bit on. -/
theorem removePiece_all_false {b : Board} (sq : Nat)
    {i : Nat} (h : b.occupiedAll.testBit i = false) :
    (b.removePiece sq).occupiedAll.testBit i = false := by
  rw [removePiece_occupiedAll]
  unfold clearBitBB
  cases hbit : ((b.occupiedAll &&& compl64 (squareBB sq)).testBit i)
  · rfl
  · exact Bool.noConfusion (h.symm.trans (land_testBit hbit).1)

/-- On a coherent board, an empty square has all relevant bits clear. -/
theorem empty_square_bits {B : Board} (hWF : BoardWF B) {sq : Nat} (hsq : sq < 64)
    (hm : B.mailbox sq = noPiece) (p : Piece) (hpt : p.type ≠ .none) :
    (B.pieces (p.color, p.type)).testBit sq = false ∧
    (∀ c, (B.occupied c).testBit sq = false) ∧
    B.occupiedAll.testBit sq = false := by
  refine ⟨?_, fun c => ?_, ?_⟩
  · cases hbit : (B.pieces (p.color, p.type)).testBit sq
    · rfl
    · exfalso
      have hmb := (hWF.piecesBit p.color p.type hpt sq hsq).mp hbit
      rw [hm] at hmb
      exact hpt (congrArg Piece.type hmb).symm
  · cases hbit : (B.occupied c).testBit sq
    · rfl
    · exact absurd hm ((hWF.occBit c sq hsq).mp hbit).1
  · cases hbit : B.occupiedAll.testBit sq
    · rfl
    · exact absurd hm ((hWF.allBit sq hsq).mp hbit)

/-- On a coherent board, an occupied square has all its bits set, and its
piece has a real type. -/
theorem occupied_square_bits {B : Board} (hWF : BoardWF B) {sq : Nat} (hsq : sq < 64)
    {p : Piece} (hm : B.mailbox sq = p) (hpne : p ≠ noPiece) :
    (B.pieces (p.color, p.type)).testBit sq = true ∧
    (B.occupied p.color).testBit sq = true ∧
    B.occupiedAll.testBit sq = true ∧ p.type ≠ .none := by
  have hpt : p.type ≠ .none := by
    intro h
    have hmb := hWF.mailboxNone sq hsq (by rw [hm]; exact h)
    rw [hm] at hmb
    exact hpne hmb
  refine ⟨?_, ?_, ?_, hpt⟩
  · refine (hWF.piecesBit p.color p.type hpt sq hsq).mpr ?_
    rw [hm]
  · refine (hWF.occBit p.color sq hsq).mpr ⟨?_, ?_⟩
    · rw [hm]
      exact hpne
    · rw [hm]
  · exact (hWF.allBit sq hsq).mpr (by rw [hm]; exact hpne)

/-- Remove-then-put of the resident piece restores a coherent board. -/
theorem restore_at {B : Board} (hWF : BoardWF B) {sq : Nat} (hsq : sq < 64)
    {p : Piece} (hm : B.mailbox sq = p) (hpne : p ≠ noPiece) :
    (B.removePiece sq).putPiece sq p = B := by
  obtain ⟨h1, h2, h3, _⟩ := occupied_square_bits hWF hsq hm hpne
  exact remove_put_restore B sq p hsq hm h1 h2 h3 (hWF.piecesLt _ _) (hWF.occLt _) hWF.allLt



/-- Board round trip of a capturing move (capture on the destination
square). -/
theorem board_roundtrip_capture (B : Board) {f t : Nat} (P Pl C : Piece)
    (hWF : BoardWF B) (hf : f < 64) (ht : t < 64) (hft : f ≠ t)
    (hmf : B.mailbox f = P) (hPne : P ≠ noPiece) (hPlt : Pl.type ≠ .none)
    (hmt : B.mailbox t = C) (hCne : C ≠ noPiece)
    (hslot : ((Pl.color, Pl.type) : Color × PieceType) ≠ (C.color, C.type)) :
    Board.putPiece
      (((((B.removePiece f).removePiece t).putPiece t Pl).removePiece t).putPiece f P)
      t C = B := by
  have hmt' : (B.removePiece f).mailbox t = C := by
    rw [removePiece_mailbox, if_neg (fun h => hft h.symm), hmt]
  have hb1 : (B.pieces (Pl.color, Pl.type)).testBit t = false := by
    cases hbit : (B.pieces (Pl.color, Pl.type)).testBit t
    · rfl
    · exfalso
      have hmb := (hWF.piecesBit Pl.color Pl.type hPlt t ht).mp hbit
      rw [hmt] at hmb
      exact hslot (congrArg (fun p => ((p.color, p.type) : Color × PieceType)) hmb).symm
  have hcancel : (((B.removePiece f).removePiece t).putPiece t Pl).removePiece t =
      (B.removePiece f).removePiece t := by
    apply put_remove_cancel _ t Pl ht
    · rw [removePiece_mailbox, if_pos rfl]
    · exact removePiece_pieces_false _ _ (removePiece_pieces_false _ _ hb1)
    · rw [removePiece_occupied, hmt']
      by_cases hcc : Pl.color = C.color
      · rw [if_pos hcc, testBit_clearBitBB _ ht]
        simp
      · rw [if_neg hcc]
        apply removePiece_occupied_false
        cases hbit : (B.occupied Pl.color).testBit t
        · rfl
        · exfalso
          have hcol := ((hWF.occBit Pl.color t ht).mp hbit).2
          rw [hmt] at hcol
          exact hcc hcol.symm
    · rw [removePiece_occupiedAll, testBit_clearBitBB _ ht]
      simp
    · exact ((hWF.lt.remove f).remove t).1 _ _
    · exact ((hWF.lt.remove f).remove t).2.1 _
    · exact ((hWF.lt.remove f).remove t).2.2
  rw [hcancel, put_remove_comm (B.removePiece f) P hft hf ht,
    restore_at hWF hf hmf hPne, restore_at hWF ht hmt hCne]



/-- Board round trip of an en-passant capture: the captured pawn sits on its
own square c, distinct from both the origin and the (empty) destination. -/
theorem board_roundtrip_ep (B : Board) {f t c : Nat} (P C : Piece)
    (hWF : BoardWF B) (hf : f < 64) (ht : t < 64) (hc : c < 64)
    (hft : f ≠ t) (hfc : f ≠ c) (htc : t ≠ c)
    (hmf : B.mailbox f = P) (hPne : P ≠ noPiece)
    (hmt : B.mailbox t = noPiece)
    (hmc : B.mailbox c = C) (hCne : C ≠ noPiece) :
    Board.putPiece
      (((((B.removePiece f).removePiece c).putPiece t P).removePiece t).putPiece f P)
      c C = B := by
  have hPt : P.type ≠ .none := (occupied_square_bits hWF hf hmf hPne).2.2.2
  obtain ⟨he1, he2, he3⟩ := empty_square_bits hWF ht hmt P hPt
  have hcancel : (((B.removePiece f).removePiece c).putPiece t P).removePiece t =
      (B.removePiece f).removePiece c := by
    apply put_remove_cancel _ t P ht
    · rw [removePiece_mailbox, if_neg htc, removePiece_mailbox,
        if_neg (fun h => hft h.symm), hmt]
    · exact removePiece_pieces_false _ _ (removePiece_pieces_false _ _ he1)
    · exact removePiece_occupied_false _ _ (removePiece_occupied_false _ _ (he2 _))
    · exact removePiece_all_false _ (removePiece_all_false _ he3)
    · exact ((hWF.lt.remove f).remove c).1 _ _
    · exact ((hWF.lt.remove f).remove c).2.1 _
    · exact ((hWF.lt.remove f).remove c).2.2
  rw [hcancel, put_remove_comm (B.removePiece f) P hfc hf hc,
    restore_at hWF hf hmf hPne, restore_at hWF hc hmc hCne]

/-- Board round trip of a castling move: king from e to g, rook from h to
f1 (the four squares pairwise distinct), then the two slides undone. -/
theorem board_roundtrip_castle (B : Board) {e g h f1 : Nat} (K R : Piece)
    (hWF : BoardWF B)
    (he : e < 64) (hg : g < 64) (hh : h < 64) (hf1 : f1 < 64)
    (heg : e ≠ g) (heh : e ≠ h) (hef1 : e ≠ f1) (hgh : g ≠ h) (hgf1 : g ≠ f1)
    (hhf1 : h ≠ f1)
    (hme : B.mailbox e = K) (hKne : K ≠ noPiece)
    (hmh : B.mailbox h = R) (hRne : R ≠ noPiece)
    (hmg : B.mailbox g = noPiece) (hmf1 : B.mailbox f1 = noPiece) :
    Board.putPiece
      (Board.removePiece
        (Board.putPiece
          (Board.removePiece
            ((((B.removePiece e).putPiece g K).removePiece h).putPiece f1 R) g)
          e K) f1)
      h R = B := by
  have hKt : K.type ≠ .none := (occupied_square_bits hWF he hme hKne).2.2.2
  have hRt : R.type ≠ .none := (occupied_square_bits hWF hh hmh hRne).2.2.2
  obtain ⟨hg1, hg2, hg3⟩ := empty_square_bits hWF hg hmg K hKt
  obtain ⟨hf11, hf12, hf13⟩ := empty_square_bits hWF hf1 hmf1 R hRt
  rw [← put_remove_comm (((B.removePiece e).putPiece g K).removePiece h) R
      (Ne.symm hgf1) hf1 hg,
    remove_remove_comm ((B.removePiece e).putPiece g K) (Ne.symm hgh)]
  have hcg : ((B.removePiece e).putPiece g K).removePiece g = B.removePiece e := by
    apply put_remove_cancel _ g K hg
    · rw [removePiece_mailbox, if_neg (fun hx => heg hx.symm), hmg]
    · exact removePiece_pieces_false _ _ hg1
    · exact removePiece_occupied_false _ _ (hg2 _)
    · exact removePiece_all_false _ hg3
    · exact (hWF.lt.remove e).1 _ _
    · exact (hWF.lt.remove e).2.1 _
    · exact (hWF.lt.remove e).2.2
  rw [hcg,
    ← put_remove_comm (((B.removePiece e).removePiece h).putPiece f1 R) K hef1 he hf1]
  have hcf1 : (((B.removePiece e).removePiece h).putPiece f1 R).removePiece f1 =
      (B.removePiece e).removePiece h := by
    apply put_remove_cancel _ f1 R hf1
    · rw [removePiece_mailbox, if_neg (fun hx => hhf1 hx.symm), removePiece_mailbox,
        if_neg (fun hx => hef1 hx.symm), hmf1]
    · exact removePiece_pieces_false _ _ (removePiece_pieces_false _ _ hf11)
    · exact removePiece_occupied_false _ _ (removePiece_occupied_false _ _ (hf12 _))
    · exact removePiece_all_false _ (removePiece_all_false _ hf13)
    · exact ((hWF.lt.remove e).remove h).1 _ _
    · exact ((hWF.lt.remove e).remove h).2.1 _
    · exact ((hWF.lt.remove e).remove h).2.2
  rw [hcf1, put_remove_comm (B.removePiece e) K heh he hh,
    restore_at hWF he hme hKne, restore_at hWF hh hmh hRne]


/-- rank3 mask bits. -/
theorem testBit_rank3 : ∀ i < 64, (rank3.testBit i ↔ 16 ≤ i ∧ i < 24) := by decide

/-- rank6 mask bits. -/
theorem testBit_rank6 : ∀ i < 64, (rank6.testBit i ↔ 40 ≤ i ∧ i < 48) := by decide

/-- A set bit of the 64-bit complement of a bounded word: in range and clear
in the word. -/
theorem testBit_compl64 {x i : Nat} (hx : x < two64) (h : (compl64 x).testBit i = true) :
    i < 64 ∧ x.testBit i = false := by
  unfold compl64 at h
  rw [Nat.testBit_xor, testBit_mask64] at h
  by_cases h64 : i < 64
  · refine ⟨h64, ?_⟩
    cases hbit : x.testBit i
    · rfl
    · rw [hbit] at h
      simp [h64] at h
  · exfalso
    cases hbit : x.testBit i
    · rw [hbit] at h
      simp [h64] at h
    · exact h64 (testBit_lt_64 hx hbit)

/-- Nat, flag and origin facts of every generated pawn move. -/
theorem genPawnMoves_facts (pos : Position)
    (hp : pos.board.pieces (pos.sideToMove, .pawn) < two64)
    {f t : Nat} {fl : MoveFlag} {pr : PieceType}
    (hm : (⟨f, t, fl, pr⟩ : Move) ∈ genPawnMoves pos) :
    (pos.board.pieces (pos.sideToMove, .pawn)).testBit f ∧ f < 64 ∧ t < 64 ∧ f ≠ t ∧
    (((fl = .normal ∨ fl = .promotion) ∧
       ((compl64 pos.board.occupiedAll).testBit t ∨
        (pos.board.occupied pos.sideToMove.opposite).testBit t))
     ∨ (fl = .doublePawn ∧
        (compl64 pos.board.occupiedAll).testBit t ∧
        (pos.sideToMove = .white →
          f = t - 16 ∧ 24 ≤ t ∧ t < 32 ∧ (compl64 pos.board.occupiedAll).testBit (t - 8)) ∧
        (pos.sideToMove = .black →
          f = t + 16 ∧ 32 ≤ t ∧ t < 40 ∧ (compl64 pos.board.occupiedAll).testBit (t + 8)))
     ∨ (fl = .enPassant ∧ t = pos.enPassant ∧ pos.enPassant ≠ noSquare ∧
        (pos.sideToMove = .white →
          (f = t - 7 ∧ 7 ≤ t ∧ f % 8 ≠ 0) ∨ (f = t - 9 ∧ 9 ≤ t ∧ f % 8 ≠ 7)) ∧
        (pos.sideToMove = .black →
          (f = t + 7 ∧ f % 8 ≠ 7) ∨ (f = t + 9 ∧ f % 8 ≠ 0)))) := by
  simp only [genPawnMoves, addPromotions, List.mem_append, List.mem_map,
    List.mem_flatMap, List.mem_cons, List.not_mem_nil, or_false] at hm
  by_cases hus : pos.sideToMove = Color.white
  all_goals simp only [hus, if_true, if_false, reduceCtorEq, reduceIte] at hm
  · rw [hus]
    rcases hm with ((((((⟨x, hx, heq⟩ | ⟨x, hx, heq⟩) | ⟨x, hx, heq⟩) | ⟨x, hx, heq⟩) |
      ⟨x, hx, heq⟩) | ⟨x, hx, heq⟩) | ⟨x, hx, heq⟩) | hm
    · rw [Move.mk.injEq] at heq
      obtain ⟨rfl, rfl, rfl, rfl⟩ := heq
      obtain ⟨hx64, hxb⟩ := mem_squaresOf hx
      obtain ⟨hs, -⟩ := land_testBit hxb
      obtain ⟨hsh, hemp⟩ := land_testBit hs
      rw [shiftNorth, testBit_shiftLeft_mod] at hsh
      simp only [Bool.and_eq_true, decide_eq_true_eq] at hsh
      exact ⟨hsh.2, by omega, hx64, by omega, Or.inl ⟨Or.inl rfl, Or.inl hemp⟩⟩
    · obtain ⟨hx64, hxb⟩ := mem_squaresOf hx
      obtain ⟨hs, -⟩ := land_testBit hxb
      obtain ⟨hsh, hemp⟩ := land_testBit hs
      rw [shiftNorth, testBit_shiftLeft_mod] at hsh
      simp only [Bool.and_eq_true, decide_eq_true_eq] at hsh
      rcases heq with heq | heq | heq | heq <;> rw [Move.mk.injEq] at heq <;>
        obtain ⟨rfl, rfl, rfl, rfl⟩ := heq <;>
        exact ⟨hsh.2, by omega, hx64, by omega, Or.inl ⟨Or.inr rfl, Or.inl hemp⟩⟩
    · rw [Move.mk.injEq] at heq
      obtain ⟨rfl, rfl, rfl, rfl⟩ := heq
      obtain ⟨hx64, hxb⟩ := mem_squaresOf hx
      obtain ⟨hs, hemp⟩ := land_testBit hxb
      rw [shiftNorth, testBit_shiftLeft_mod] at hs
      simp only [Bool.and_eq_true, decide_eq_true_eq] at hs
      obtain ⟨hsingle, hrank⟩ := land_testBit hs.2
      obtain ⟨hsh, hemp2⟩ := land_testBit hsingle
      rw [shiftNorth, testBit_shiftLeft_mod] at hsh
      simp only [Bool.and_eq_true, decide_eq_true_eq] at hsh
      have hr3 := (testBit_rank3 (x - 8) (by omega)).mp hrank
      refine ⟨by rw [show (x : Nat) - 16 = x - 8 - 8 by omega]; exact hsh.2, by omega, hx64,
        by omega, Or.inr (Or.inl ⟨rfl, hemp, fun _ => ⟨rfl, by omega, by omega, hemp2⟩,
        fun hb => nomatch hb⟩)⟩
    · rw [Move.mk.injEq] at heq
      obtain ⟨rfl, rfl, rfl, rfl⟩ := heq
      obtain ⟨hx64, hxb⟩ := mem_squaresOf hx
      obtain ⟨hcap, -⟩ := land_testBit hxb
      obtain ⟨hnw, henemy⟩ := land_testBit hcap
      rw [shiftNW] at hnw
      obtain ⟨hsh, -⟩ := land_testBit hnw
      rw [testBit_shiftLeft_mod] at hsh
      simp only [Bool.and_eq_true, decide_eq_true_eq] at hsh
      exact ⟨hsh.2, by omega, hx64, by omega, Or.inl ⟨Or.inl rfl, Or.inr henemy⟩⟩
    · obtain ⟨hx64, hxb⟩ := mem_squaresOf hx
      obtain ⟨hcap, -⟩ := land_testBit hxb
      obtain ⟨hnw, henemy⟩ := land_testBit hcap
      rw [shiftNW] at hnw
      obtain ⟨hsh, -⟩ := land_testBit hnw
      rw [testBit_shiftLeft_mod] at hsh
      simp only [Bool.and_eq_true, decide_eq_true_eq] at hsh
      rcases heq with heq | heq | heq | heq <;> rw [Move.mk.injEq] at heq <;>
        obtain ⟨rfl, rfl, rfl, rfl⟩ := heq <;>
        exact ⟨hsh.2, by omega, hx64, by omega, Or.inl ⟨Or.inr rfl, Or.inr henemy⟩⟩
    · rw [Move.mk.injEq] at heq
      obtain ⟨rfl, rfl, rfl, rfl⟩ := heq
      obtain ⟨hx64, hxb⟩ := mem_squaresOf hx
      obtain ⟨hcap, -⟩ := land_testBit hxb
      obtain ⟨hne, henemy⟩ := land_testBit hcap
      rw [shiftNE] at hne
      obtain ⟨hsh, -⟩ := land_testBit hne
      rw [testBit_shiftLeft_mod] at hsh
      simp only [Bool.and_eq_true, decide_eq_true_eq] at hsh
      exact ⟨hsh.2, by omega, hx64, by omega, Or.inl ⟨Or.inl rfl, Or.inr henemy⟩⟩
    · obtain ⟨hx64, hxb⟩ := mem_squaresOf hx
      obtain ⟨hcap, -⟩ := land_testBit hxb
      obtain ⟨hne, henemy⟩ := land_testBit hcap
      rw [shiftNE] at hne
      obtain ⟨hsh, -⟩ := land_testBit hne
      rw [testBit_shiftLeft_mod] at hsh
      simp only [Bool.and_eq_true, decide_eq_true_eq] at hsh
      rcases heq with heq | heq | heq | heq <;> rw [Move.mk.injEq] at heq <;>
        obtain ⟨rfl, rfl, rfl, rfl⟩ := heq <;>
        exact ⟨hsh.2, by omega, hx64, by omega, Or.inl ⟨Or.inr rfl, Or.inr henemy⟩⟩
    · by_cases hep : pos.enPassant ≠ noSquare
      · rw [if_pos hep] at hm
        simp only [List.mem_map] at hm
        obtain ⟨x, hx, heq⟩ := hm
        rw [Move.mk.injEq] at heq
        obtain ⟨rfl, rfl, rfl, rfl⟩ := heq
        obtain ⟨hx64, hxb⟩ := mem_squaresOf hx
        obtain ⟨hatt, hpawn⟩ := land_testBit hxb
        have hep64 : pos.enPassant < 64 := by
          by_contra hge
          have hz : squareBB pos.enPassant = 0 := squareBB_ge64 (Nat.le_of_not_lt hge)
          rw [pawnAttacks_zero hz] at hatt
          simp [Nat.zero_testBit] at hatt
        have hatt2 : ((shiftSE (squareBB pos.enPassant)) |||
            (shiftSW (squareBB pos.enPassant))).testBit x = true := hatt
        rw [Nat.testBit_or] at hatt2
        have hdir : ((x : Nat) = pos.enPassant - 7 ∧ 7 ≤ pos.enPassant ∧ x % 8 ≠ 0) ∨
            ((x : Nat) = pos.enPassant - 9 ∧ 9 ≤ pos.enPassant ∧ x % 8 ≠ 7) := by
          rcases Bool.or_eq_true _ _ |>.mp hatt2 with hse | hsw
          · rw [shiftSE] at hse
            obtain ⟨hsh, hfa⟩ := land_testBit hse
            rw [testBit_shiftRight', testBit_squareBB hep64] at hsh
            have heq7 : 7 + (x : Nat) = pos.enPassant := of_decide_eq_true hsh
            obtain ⟨hx64b, hfA⟩ := testBit_compl64 (by decide) hfa
            have hne0 : x % 8 ≠ 0 := fun h8 =>
              Bool.noConfusion (((testBit_fileA x hx64b).mpr h8).symm.trans hfA)
            exact Or.inl ⟨by omega, by omega, hne0⟩
          · rw [shiftSW] at hsw
            obtain ⟨hsh, hfh⟩ := land_testBit hsw
            rw [testBit_shiftRight', testBit_squareBB hep64] at hsh
            have heq9 : 9 + (x : Nat) = pos.enPassant := of_decide_eq_true hsh
            obtain ⟨hx64b, hfH⟩ := testBit_compl64 (by decide) hfh
            have hne7 : x % 8 ≠ 7 := fun h8 =>
              Bool.noConfusion (((testBit_fileH x hx64b).mpr h8).symm.trans hfH)
            exact Or.inr ⟨by omega, by omega, hne7⟩
        refine ⟨hpawn, hx64, hep64, by omega, Or.inr (Or.inr ⟨rfl, rfl, hep,
          fun _ => hdir, fun hb => nomatch hb⟩)⟩
      · rw [if_neg hep] at hm
        simp at hm
  · have hblack : pos.sideToMove = Color.black := by
      cases h : pos.sideToMove
      · exact absurd h hus
      · rfl
    rw [hblack] at hp hm ⊢
    rcases hm with ((((((⟨x, hx, heq⟩ | ⟨x, hx, heq⟩) | ⟨x, hx, heq⟩) | ⟨x, hx, heq⟩) |
      ⟨x, hx, heq⟩) | ⟨x, hx, heq⟩) | ⟨x, hx, heq⟩) | hm
    · rw [Move.mk.injEq] at heq
      obtain ⟨rfl, rfl, rfl, rfl⟩ := heq
      obtain ⟨hx64, hxb⟩ := mem_squaresOf hx
      obtain ⟨hs, -⟩ := land_testBit hxb
      obtain ⟨hsh, hemp⟩ := land_testBit hs
      rw [shiftSouth, testBit_shiftRight'] at hsh
      have hf64 := testBit_lt_64 hp hsh
      exact ⟨by rw [Nat.add_comm]; exact hsh, by omega, hx64, by omega,
        Or.inl ⟨Or.inl rfl, Or.inl hemp⟩⟩
    · obtain ⟨hx64, hxb⟩ := mem_squaresOf hx
      obtain ⟨hs, -⟩ := land_testBit hxb
      obtain ⟨hsh, hemp⟩ := land_testBit hs
      rw [shiftSouth, testBit_shiftRight'] at hsh
      have hf64 := testBit_lt_64 hp hsh
      rcases heq with heq | heq | heq | heq <;> rw [Move.mk.injEq] at heq <;>
        obtain ⟨rfl, rfl, rfl, rfl⟩ := heq <;>
        exact ⟨by rw [Nat.add_comm]; exact hsh, by omega, hx64, by omega,
          Or.inl ⟨Or.inr rfl, Or.inl hemp⟩⟩
    · rw [Move.mk.injEq] at heq
      obtain ⟨rfl, rfl, rfl, rfl⟩ := heq
      obtain ⟨hx64, hxb⟩ := mem_squaresOf hx
      obtain ⟨hs, hemp⟩ := land_testBit hxb
      rw [shiftSouth, testBit_shiftRight'] at hs
      obtain ⟨hsingle, hrank⟩ := land_testBit hs
      obtain ⟨hsh, hemp2⟩ := land_testBit hsingle
      rw [shiftSouth, testBit_shiftRight'] at hsh
      have hf64 := testBit_lt_64 hp hsh
      have hr6 := (testBit_rank6 (8 + x) (by omega)).mp hrank
      refine ⟨by rw [show (x : Nat) + 16 = 8 + (8 + x) by omega]; exact hsh, by omega, hx64,
        by omega, Or.inr (Or.inl ⟨rfl, hemp, fun hw => ?_,
        fun _ => ⟨rfl, by omega, by omega, by rw [Nat.add_comm]; exact hemp2⟩⟩)⟩
      exact nomatch hw
    · rw [Move.mk.injEq] at heq
      obtain ⟨rfl, rfl, rfl, rfl⟩ := heq
      obtain ⟨hx64, hxb⟩ := mem_squaresOf hx
      obtain ⟨hcap, -⟩ := land_testBit hxb
      obtain ⟨hsw, henemy⟩ := land_testBit hcap
      rw [shiftSW] at hsw
      obtain ⟨hsh, -⟩ := land_testBit hsw
      rw [testBit_shiftRight'] at hsh
      have hf64 := testBit_lt_64 hp hsh
      exact ⟨by rw [Nat.add_comm]; exact hsh, by omega, hx64, by omega,
        Or.inl ⟨Or.inl rfl, Or.inr henemy⟩⟩
    · obtain ⟨hx64, hxb⟩ := mem_squaresOf hx
      obtain ⟨hcap, -⟩ := land_testBit hxb
      obtain ⟨hsw, henemy⟩ := land_testBit hcap
      rw [shiftSW] at hsw
      obtain ⟨hsh, -⟩ := land_testBit hsw
      rw [testBit_shiftRight'] at hsh
      have hf64 := testBit_lt_64 hp hsh
      rcases heq with heq | heq | heq | heq <;> rw [Move.mk.injEq] at heq <;>
        obtain ⟨rfl, rfl, rfl, rfl⟩ := heq <;>
        exact ⟨by rw [Nat.add_comm]; exact hsh, by omega, hx64, by omega,
          Or.inl ⟨Or.inr rfl, Or.inr henemy⟩⟩
    · rw [Move.mk.injEq] at heq
      obtain ⟨rfl, rfl, rfl, rfl⟩ := heq
      obtain ⟨hx64, hxb⟩ := mem_squaresOf hx
      obtain ⟨hcap, -⟩ := land_testBit hxb
      obtain ⟨hse, henemy⟩ := land_testBit hcap
      rw [shiftSE] at hse
      obtain ⟨hsh, -⟩ := land_testBit hse
      rw [testBit_shiftRight'] at hsh
      have hf64 := testBit_lt_64 hp hsh
      exact ⟨by rw [Nat.add_comm]; exact hsh, by omega, hx64, by omega,
        Or.inl ⟨Or.inl rfl, Or.inr henemy⟩⟩
    · obtain ⟨hx64, hxb⟩ := mem_squaresOf hx
      obtain ⟨hcap, -⟩ := land_testBit hxb
      obtain ⟨hse, henemy⟩ := land_testBit hcap
      rw [shiftSE] at hse
      obtain ⟨hsh, -⟩ := land_testBit hse
      rw [testBit_shiftRight'] at hsh
      have hf64 := testBit_lt_64 hp hsh
      rcases heq with heq | heq | heq | heq <;> rw [Move.mk.injEq] at heq <;>
        obtain ⟨rfl, rfl, rfl, rfl⟩ := heq <;>
        exact ⟨by rw [Nat.add_comm]; exact hsh, by omega, hx64, by omega,
          Or.inl ⟨Or.inr rfl, Or.inr henemy⟩⟩
    · by_cases hep : pos.enPassant ≠ noSquare
      · rw [if_pos hep] at hm
        simp only [List.mem_map] at hm
        obtain ⟨x, hx, heq⟩ := hm
        rw [Move.mk.injEq] at heq
        obtain ⟨rfl, rfl, rfl, rfl⟩ := heq
        obtain ⟨hx64, hxb⟩ := mem_squaresOf hx
        obtain ⟨hatt, hpawn⟩ := land_testBit hxb
        have hep64 : pos.enPassant < 64 := by
          by_contra hge
          have hz : squareBB pos.enPassant = 0 := squareBB_ge64 (Nat.le_of_not_lt hge)
          rw [pawnAttacks_zero hz] at hatt
          simp [Nat.zero_testBit] at hatt
        have hatt2 : ((shiftNE (squareBB pos.enPassant)) |||
            (shiftNW (squareBB pos.enPassant))).testBit x = true := hatt
        rw [Nat.testBit_or] at hatt2
        have hdir : ((x : Nat) = pos.enPassant + 7 ∧ x % 8 ≠ 7) ∨
            ((x : Nat) = pos.enPassant + 9 ∧ x % 8 ≠ 0) := by
          rcases Bool.or_eq_true _ _ |>.mp hatt2 with hne | hnw
          · rw [shiftNE] at hne
            obtain ⟨hsh, hfa⟩ := land_testBit hne
            rw [testBit_shiftLeft_mod] at hsh
            simp only [Bool.and_eq_true, decide_eq_true_eq] at hsh
            rw [testBit_squareBB hep64] at hsh
            have heq9 : (x : Nat) - 9 = pos.enPassant := of_decide_eq_true hsh.2
            obtain ⟨hx64b, hfA⟩ := testBit_compl64 (by decide) hfa
            have hne0 : x % 8 ≠ 0 := fun h8 =>
              Bool.noConfusion (((testBit_fileA x hx64b).mpr h8).symm.trans hfA)
            have h9le : 9 ≤ x := hsh.1.2
            exact Or.inr ⟨by omega, hne0⟩
          · rw [shiftNW] at hnw
            obtain ⟨hsh, hfh⟩ := land_testBit hnw
            rw [testBit_shiftLeft_mod] at hsh
            simp only [Bool.and_eq_true, decide_eq_true_eq] at hsh
            rw [testBit_squareBB hep64] at hsh
            have heq7 : (x : Nat) - 7 = pos.enPassant := of_decide_eq_true hsh.2
            obtain ⟨hx64b, hfH⟩ := testBit_compl64 (by decide) hfh
            have hne7 : x % 8 ≠ 7 := fun h8 =>
              Bool.noConfusion (((testBit_fileH x hx64b).mpr h8).symm.trans hfH)
            have h7le : 7 ≤ x := hsh.1.2
            exact Or.inl ⟨by omega, hne7⟩
        refine ⟨hpawn, hx64, hep64, by omega, Or.inr (Or.inr ⟨rfl, rfl, hep,
          fun hw => ?_, fun _ => hdir⟩)⟩
        exact nomatch hw
      · rw [if_neg hep] at hm
        simp at hm


-- ── Position-level projection lemmas ────────────────────────────────────────

/-- Positions with equal fields are equal. -/
theorem position_eq_of_fields {p q : Position} (h1 : p.board = q.board)
    (h2 : p.sideToMove = q.sideToMove) (h3 : p.castling = q.castling)
    (h4 : p.enPassant = q.enPassant) (h5 : p.halfmoveClock = q.halfmoveClock)
    (h6 : p.fullmoveNumber = q.fullmoveNumber) (h7 : p.key = q.key)
    (h8 : p.history = q.history) (h9 : p.keyHistory = q.keyHistory) : p = q := by
  cases p
  cases q
  simp_all

/-- Double color flip is the identity. -/
theorem Color.opposite_opposite (c : Color) : c.opposite.opposite = c := by
  cases c <;> rfl

/-- set_en_passant only touches the en-passant square and the key. -/
theorem setEnPassant_board (p : Position) (ep : Nat) : (p.setEnPassant ep).board = p.board := by
  unfold Position.setEnPassant
  split <;> rfl

/-- set_en_passant frame: side to move. -/
theorem setEnPassant_side (p : Position) (ep : Nat) :
    (p.setEnPassant ep).sideToMove = p.sideToMove := by
  unfold Position.setEnPassant
  split <;> rfl

/-- set_en_passant frame: castling rights. -/
theorem setEnPassant_castling (p : Position) (ep : Nat) :
    (p.setEnPassant ep).castling = p.castling := by
  unfold Position.setEnPassant
  split <;> rfl

/-- set_en_passant frame: halfmove clock. -/
theorem setEnPassant_halfmove (p : Position) (ep : Nat) :
    (p.setEnPassant ep).halfmoveClock = p.halfmoveClock := by
  unfold Position.setEnPassant
  split <;> rfl

/-- set_en_passant frame: fullmove number. -/
theorem setEnPassant_fullmove (p : Position) (ep : Nat) :
    (p.setEnPassant ep).fullmoveNumber = p.fullmoveNumber := by
  unfold Position.setEnPassant
  split <;> rfl

/-- set_en_passant frame: undo history. -/
theorem setEnPassant_history (p : Position) (ep : Nat) :
    (p.setEnPassant ep).history = p.history := by
  unfold Position.setEnPassant
  split <;> rfl

/-- set_en_passant frame: key history. -/
theorem setEnPassant_keyHistory (p : Position) (ep : Nat) :
    (p.setEnPassant ep).keyHistory = p.keyHistory := by
  unfold Position.setEnPassant
  split <;> rfl

/-- set_castling only touches the castling rights and the key. -/
theorem setCastling_board (p : Position) (cr : CastlingRights) :
    (p.setCastling cr).board = p.board := by
  unfold Position.setCastling
  split <;> rfl

/-- set_castling frame: side to move. -/
theorem setCastling_side (p : Position) (cr : CastlingRights) :
    (p.setCastling cr).sideToMove = p.sideToMove := by
  unfold Position.setCastling
  split <;> rfl

/-- set_castling frame: en-passant square. -/
theorem setCastling_enPassant (p : Position) (cr : CastlingRights) :
    (p.setCastling cr).enPassant = p.enPassant := by
  unfold Position.setCastling
  split <;> rfl

/-- set_castling frame: halfmove clock. -/
theorem setCastling_halfmove (p : Position) (cr : CastlingRights) :
    (p.setCastling cr).halfmoveClock = p.halfmoveClock := by
  unfold Position.setCastling
  split <;> rfl

/-- set_castling frame: fullmove number. -/
theorem setCastling_fullmove (p : Position) (cr : CastlingRights) :
    (p.setCastling cr).fullmoveNumber = p.fullmoveNumber := by
  unfold Position.setCastling
  split <;> rfl

/-- set_castling frame: undo history. -/
theorem setCastling_history (p : Position) (cr : CastlingRights) :
    (p.setCastling cr).history = p.history := by
  unfold Position.setCastling
  split <;> rfl

/-- set_castling frame: key history. -/
theorem setCastling_keyHistory (p : Position) (cr : CastlingRights) :
    (p.setCastling cr).keyHistory = p.keyHistory := by
  unfold Position.setCastling
  split <;> rfl



/-- The bookkeeping fields of make_move: flipped side, pushed undo record,
pushed key history, fullmove bump on Black. -/
theorem makeMove_proj (pos : Position) (m : Move) :
    (pos.makeMove m).sideToMove = pos.sideToMove.opposite ∧
    (pos.makeMove m).history = (⟨pos.castling, pos.enPassant, pos.halfmoveClock,
      pos.board.pieceAt (if m.flag = .enPassant then mkSquare (fileOf m.toSq) (rankOf m.fromSq)
        else m.toSq), pos.key⟩ : UndoInfo) :: pos.history ∧
    (pos.makeMove m).keyHistory = (pos.makeMove m).key :: pos.keyHistory ∧
    (pos.makeMove m).fullmoveNumber =
      (if pos.sideToMove = .black then pos.fullmoveNumber + 1 else pos.fullmoveNumber) := by
  by_cases hck : m.flag = .castleKingside <;>
  by_cases hcq : m.flag = .castleQueenside <;>
  by_cases hdp : m.flag = .doublePawn <;>
    simp only [Position.makeMove, hck, hcq, hdp, if_true, if_false, reduceIte, reduceCtorEq,
      setEnPassant_side, setEnPassant_history, setEnPassant_keyHistory, setEnPassant_fullmove,
      setCastling_side, setCastling_history, setCastling_keyHistory,
      setCastling_fullmove] <;>
    exact ⟨by trivial, by trivial, by trivial, by trivial⟩



set_option linter.unreachableTactic false in
set_option linter.unusedTactic false in
/-- The board after make_move for a plain move (no en passant, no castling):
remove the mover, remove any captured piece at the destination, put the
arriving piece. -/
theorem makeMove_board_basic (pos : Position) (f t : Nat) (fl : MoveFlag) (pr : PieceType)
    (h1 : fl ≠ .enPassant) (h2 : fl ≠ .castleKingside) (h3 : fl ≠ .castleQueenside) :
    (pos.makeMove ⟨f, t, fl, pr⟩).board =
      ((if pos.board.pieceAt t ≠ noPiece
        then (pos.board.removePiece f).removePiece t
        else pos.board.removePiece f).putPiece t
        (if fl = .promotion ∧ pr ≠ .none
          then ⟨(pos.board.pieceAt f).color, pr⟩
          else pos.board.pieceAt f)) := by
  by_cases hdp : fl = .doublePawn <;>
    simp only [Position.makeMove, h1, h2, h3, hdp, if_true, if_false, reduceIte,
      reduceCtorEq, setEnPassant_board, setCastling_board] <;>
    try trivial

/-- The board after an en-passant make_move: the captured pawn is removed
from the square behind the destination. -/
theorem makeMove_board_ep (pos : Position) (f t : Nat) (pr : PieceType) :
    (pos.makeMove ⟨f, t, .enPassant, pr⟩).board =
      ((if pos.board.pieceAt (mkSquare (fileOf t) (rankOf f)) ≠ noPiece
        then (pos.board.removePiece f).removePiece (mkSquare (fileOf t) (rankOf f))
        else pos.board.removePiece f).putPiece t (pos.board.pieceAt f)) := by
  simp only [Position.makeMove, reduceIte, reduceCtorEq, setEnPassant_board,
    setCastling_board]
  trivial

/-- The board after a kingside-castling make_move: the king move followed by
the rook slide from the h-file corner to the f-file square. -/
theorem makeMove_board_castleK (pos : Position) (f t : Nat) (pr : PieceType) :
    (pos.makeMove ⟨f, t, .castleKingside, pr⟩).board =
      ((((if pos.board.pieceAt t ≠ noPiece
          then (pos.board.removePiece f).removePiece t
          else pos.board.removePiece f).putPiece t
            (pos.board.pieceAt f)).removePiece (mkSquare 7 (rankOf f))).putPiece
        (mkSquare 5 (rankOf f))
        (((if pos.board.pieceAt t ≠ noPiece
          then (pos.board.removePiece f).removePiece t
          else pos.board.removePiece f).putPiece t
            (pos.board.pieceAt f)).pieceAt (mkSquare 7 (rankOf f)))) := by
  simp only [Position.makeMove, reduceIte, reduceCtorEq, setEnPassant_board,
    setCastling_board]
  trivial

/-- The board after a queenside-castling make_move: the king move followed
by the rook slide from the a-file corner to the d-file square. -/
theorem makeMove_board_castleQ (pos : Position) (f t : Nat) (pr : PieceType) :
    (pos.makeMove ⟨f, t, .castleQueenside, pr⟩).board =
      ((((if pos.board.pieceAt t ≠ noPiece
          then (pos.board.removePiece f).removePiece t
          else pos.board.removePiece f).putPiece t
            (pos.board.pieceAt f)).removePiece (mkSquare 0 (rankOf f))).putPiece
        (mkSquare 3 (rankOf f))
        (((if pos.board.pieceAt t ≠ noPiece
          then (pos.board.removePiece f).removePiece t
          else pos.board.removePiece f).putPiece t
            (pos.board.pieceAt f)).pieceAt (mkSquare 0 (rankOf f)))) := by
  simp only [Position.makeMove, reduceIte, reduceCtorEq, setEnPassant_board,
    setCastling_board]
  trivial



/-- The bookkeeping fields of unmake_move: side flipped back, scalar fields
restored from the top undo record, both stacks popped, fullmove decremented
when the restored side is Black. -/
theorem unmakeMove_fields (p : Position) (m : Move) :
    (p.unmakeMove m).sideToMove = p.sideToMove.opposite ∧
    (p.unmakeMove m).castling = (p.history.headD ⟨0, noSquare, 0, noPiece, 0⟩).castling ∧
    (p.unmakeMove m).enPassant = (p.history.headD ⟨0, noSquare, 0, noPiece, 0⟩).enPassant ∧
    (p.unmakeMove m).halfmoveClock =
      (p.history.headD ⟨0, noSquare, 0, noPiece, 0⟩).halfmoveClock ∧
    (p.unmakeMove m).key = (p.history.headD ⟨0, noSquare, 0, noPiece, 0⟩).key ∧
    (p.unmakeMove m).history = p.history.tail ∧
    (p.unmakeMove m).keyHistory = p.keyHistory.tail ∧
    (p.unmakeMove m).fullmoveNumber =
      (if p.sideToMove.opposite = .black then p.fullmoveNumber - 1 else p.fullmoveNumber) :=
  ⟨rfl, rfl, rfl, rfl, rfl, rfl, rfl, rfl⟩

/-- The board after unmake_move for a plain move: remove the arriving piece
from the destination, put the original piece (a pawn if the move promoted)
back at the origin, and restore any captured piece on the destination. -/
theorem unmakeMove_board_basic (p : Position) (f t : Nat) (fl : MoveFlag) (pr : PieceType)
    (h1 : fl ≠ .enPassant) (h2 : fl ≠ .castleKingside) (h3 : fl ≠ .castleQueenside) :
    (p.unmakeMove ⟨f, t, fl, pr⟩).board =
      (if (p.history.headD ⟨0, noSquare, 0, noPiece, 0⟩).captured ≠ noPiece
       then ((p.board.removePiece t).putPiece f
              (if fl = .promotion then ⟨(p.board.pieceAt t).color, .pawn⟩
               else p.board.pieceAt t)).putPiece t
              (p.history.headD ⟨0, noSquare, 0, noPiece, 0⟩).captured
       else (p.board.removePiece t).putPiece f
              (if fl = .promotion then ⟨(p.board.pieceAt t).color, .pawn⟩
               else p.board.pieceAt t)) := by
  simp only [Position.unmakeMove, h1, h2, h3, reduceIte, reduceCtorEq, if_true, if_false]
  try rfl



/-- make_move then unmake_move restores the position for every plain move
(no en passant, no castling) from a coherent board: the origin holds a
piece, a promotion move promotes a pawn to a real type, and any capture
takes an enemy piece. -/
theorem make_unmake_basic (pos : Position) (hWF : BoardWF pos.board)
    {f t : Nat} {fl : MoveFlag} {pr : PieceType}
    (hfl1 : fl ≠ .enPassant) (hfl2 : fl ≠ .castleKingside) (hfl3 : fl ≠ .castleQueenside)
    (hf : f < 64) (ht : t < 64) (hft : f ≠ t)
    (hPne : pos.board.mailbox f ≠ noPiece)
    (hpromo : fl = .promotion → (pos.board.mailbox f).type = .pawn ∧ pr ≠ .none)
    (hcapcol : pos.board.mailbox t ≠ noPiece →
      (pos.board.mailbox t).color ≠ (pos.board.mailbox f).color) :
    (pos.makeMove ⟨f, t, fl, pr⟩).unmakeMove ⟨f, t, fl, pr⟩ = pos := by
  obtain ⟨hside, hhist, hkeyh, hfm⟩ := makeMove_proj pos ⟨f, t, fl, pr⟩
  simp only at hhist
  rw [if_neg hfl1] at hhist
  have hboard := makeMove_board_basic pos f t fl pr hfl1 hfl2 hfl3
  obtain ⟨hu1, hu2, hu3, hu4, hu5, hu6, hu7, hu8⟩ :=
    unmakeMove_fields (pos.makeMove ⟨f, t, fl, pr⟩) ⟨f, t, fl, pr⟩
  have hub := unmakeMove_board_basic (pos.makeMove ⟨f, t, fl, pr⟩) f t fl pr hfl1 hfl2 hfl3
  have hhd : (pos.makeMove ⟨f, t, fl, pr⟩).history.headD ⟨0, noSquare, 0, noPiece, 0⟩ =
      ⟨pos.castling, pos.enPassant, pos.halfmoveClock, pos.board.pieceAt t, pos.key⟩ := by
    rw [hhist]
    rfl
  have hplaced : (pos.makeMove ⟨f, t, fl, pr⟩).board.pieceAt t =
      (if fl = .promotion ∧ pr ≠ .none then (⟨(pos.board.pieceAt f).color, pr⟩ : Piece)
       else pos.board.pieceAt f) := by
    rw [hboard]
    simp only [Board.pieceAt, putPiece_mailbox, if_pos]
  refine position_eq_of_fields ?_ ?_ ?_ ?_ ?_ ?_ ?_ ?_ ?_
  · rw [hub, hhd, hplaced, hboard]
    dsimp only
    simp only [Board.pieceAt]
    by_cases hpr : fl = .promotion
    · obtain ⟨hPt, hprne⟩ := hpromo hpr
      rw [if_pos hpr, if_pos (⟨hpr, hprne⟩ : fl = .promotion ∧ pr ≠ .none)]
      dsimp only
      have horig : (⟨(pos.board.mailbox f).color, PieceType.pawn⟩ : Piece) =
          pos.board.mailbox f := by
        rw [← hPt]
      rw [horig]
      by_cases hcap : pos.board.mailbox t ≠ noPiece
      · rw [if_pos hcap, if_pos hcap]
        exact board_roundtrip_capture pos.board _ _ _ hWF hf ht hft rfl hPne hprne rfl hcap
          (fun h => hcapcol hcap (congrArg (fun q : Color × PieceType => q.1) h).symm)
      · rw [if_neg hcap, if_neg hcap]
        exact board_roundtrip_quiet pos.board _ _ hWF hf ht hft rfl hPne hprne
          (of_not_not hcap)
    · rw [if_neg hpr, if_neg (fun hc : fl = .promotion ∧ pr ≠ .none => hpr hc.1)]
      have hPt : (pos.board.mailbox f).type ≠ .none :=
        (occupied_square_bits hWF hf rfl hPne).2.2.2
      by_cases hcap : pos.board.mailbox t ≠ noPiece
      · rw [if_pos hcap, if_pos hcap]
        exact board_roundtrip_capture pos.board _ _ _ hWF hf ht hft rfl hPne hPt rfl hcap
          (fun h => hcapcol hcap (congrArg (fun q : Color × PieceType => q.1) h).symm)
      · rw [if_neg hcap, if_neg hcap]
        exact board_roundtrip_quiet pos.board _ _ hWF hf ht hft rfl hPne hPt
          (of_not_not hcap)
  · rw [hu1, hside, Color.opposite_opposite]
  · rw [hu2, hhd]
  · rw [hu3, hhd]
  · rw [hu4, hhd]
  · rw [hu8, hside, Color.opposite_opposite, hfm]
    rcases hcol : pos.sideToMove <;> simp [hcol]
  · rw [hu5, hhd]
  · rw [hu6, hhist]
    rfl
  · rw [hu7, hkeyh]
    rfl




/-- The board after unmake_move of an en-passant capture: the pawn returns
to the origin and the captured pawn is restored behind the destination. -/
theorem unmakeMove_board_ep (p : Position) (f t : Nat) (pr : PieceType) :
    (p.unmakeMove ⟨f, t, .enPassant, pr⟩).board =
      (if (p.history.headD ⟨0, noSquare, 0, noPiece, 0⟩).captured ≠ noPiece
       then ((p.board.removePiece t).putPiece f (p.board.pieceAt t)).putPiece
              (mkSquare (fileOf t) (rankOf f))
              ((p.history.headD ⟨0, noSquare, 0, noPiece, 0⟩).captured)
       else (p.board.removePiece t).putPiece f (p.board.pieceAt t)) := by
  simp only [Position.unmakeMove, reduceIte, reduceCtorEq]
  try rfl

/-- The board after unmake_move of a kingside castle with an empty undo
capture slot: undo the king move, then slide the rook home. -/
theorem unmakeMove_board_castleK (p : Position) (f t : Nat) (pr : PieceType)
    (hcap : (p.history.headD ⟨0, noSquare, 0, noPiece, 0⟩).captured = noPiece) :
    (p.unmakeMove ⟨f, t, .castleKingside, pr⟩).board =
      ((((p.board.removePiece t).putPiece f (p.board.pieceAt t)).removePiece
          (mkSquare 5 (rankOf f))).putPiece (mkSquare 7 (rankOf f))
        (((p.board.removePiece t).putPiece f (p.board.pieceAt t)).pieceAt
          (mkSquare 5 (rankOf f)))) := by
  simp only [Position.unmakeMove, reduceIte, reduceCtorEq, hcap, ne_eq,
    not_true_eq_false, if_false]
  try rfl

/-- The board after unmake_move of a queenside castle with an empty undo
capture slot: undo the king move, then slide the rook home. -/
theorem unmakeMove_board_castleQ (p : Position) (f t : Nat) (pr : PieceType)
    (hcap : (p.history.headD ⟨0, noSquare, 0, noPiece, 0⟩).captured = noPiece) :
    (p.unmakeMove ⟨f, t, .castleQueenside, pr⟩).board =
      ((((p.board.removePiece t).putPiece f (p.board.pieceAt t)).removePiece
          (mkSquare 3 (rankOf f))).putPiece (mkSquare 0 (rankOf f))
        (((p.board.removePiece t).putPiece f (p.board.pieceAt t)).pieceAt
          (mkSquare 3 (rankOf f)))) := by
  simp only [Position.unmakeMove, reduceIte, reduceCtorEq, hcap, ne_eq,
    not_true_eq_false, if_false]
  try rfl



/-- make_move then unmake_move restores the position for an en-passant
capture whose capture square holds a piece, with the destination empty. -/
theorem make_unmake_ep (pos : Position) (hWF : BoardWF pos.board)
    {f t : Nat} {pr : PieceType}
    (hf : f < 64) (ht : t < 64) (hc : mkSquare (fileOf t) (rankOf f) < 64)
    (hft : f ≠ t) (hfc : f ≠ mkSquare (fileOf t) (rankOf f))
    (htc : t ≠ mkSquare (fileOf t) (rankOf f))
    (hPne : pos.board.mailbox f ≠ noPiece)
    (hmt : pos.board.mailbox t = noPiece)
    (hCne : pos.board.mailbox (mkSquare (fileOf t) (rankOf f)) ≠ noPiece) :
    (pos.makeMove ⟨f, t, .enPassant, pr⟩).unmakeMove ⟨f, t, .enPassant, pr⟩ = pos := by
  obtain ⟨hside, hhist, hkeyh, hfm⟩ := makeMove_proj pos ⟨f, t, .enPassant, pr⟩
  have hboard := makeMove_board_ep pos f t pr
  simp only [Board.pieceAt] at hboard
  rw [if_pos hCne] at hboard
  obtain ⟨hu1, hu2, hu3, hu4, hu5, hu6, hu7, hu8⟩ :=
    unmakeMove_fields (pos.makeMove ⟨f, t, .enPassant, pr⟩) ⟨f, t, .enPassant, pr⟩
  have hub := unmakeMove_board_ep (pos.makeMove ⟨f, t, .enPassant, pr⟩) f t pr
  have hhd : (pos.makeMove ⟨f, t, .enPassant, pr⟩).history.headD ⟨0, noSquare, 0, noPiece, 0⟩ =
      ⟨pos.castling, pos.enPassant, pos.halfmoveClock,
       pos.board.pieceAt (mkSquare (fileOf t) (rankOf f)), pos.key⟩ := by
    rw [hhist]
    rfl
  have hplaced : (pos.makeMove ⟨f, t, .enPassant, pr⟩).board.pieceAt t =
      pos.board.mailbox f := by
    rw [hboard]
    simp only [Board.pieceAt, putPiece_mailbox, if_pos]
  refine position_eq_of_fields ?_ ?_ ?_ ?_ ?_ ?_ ?_ ?_ ?_
  · rw [hub, hhd, hplaced, hboard]
    dsimp only
    simp only [Board.pieceAt]
    rw [if_pos hCne]
    exact board_roundtrip_ep pos.board _ _ hWF hf ht hc hft hfc htc rfl hPne hmt rfl hCne
  · rw [hu1, hside, Color.opposite_opposite]
  · rw [hu2, hhd]
  · rw [hu3, hhd]
  · rw [hu4, hhd]
  · rw [hu8, hside, Color.opposite_opposite, hfm]
    rcases hcol : pos.sideToMove <;> simp [hcol]
  · rw [hu5, hhd]
  · rw [hu6, hhist]
    rfl
  · rw [hu7, hkeyh]
    rfl

/-- make_move then unmake_move restores the position for a kingside castle
from a coherent board with the king on its square, the rook on the corner,
and the two transit squares empty. -/
theorem make_unmake_castleK (pos : Position) (hWF : BoardWF pos.board)
    {f t : Nat} {pr : PieceType}
    (hf : f < 64) (ht : t < 64) (hrf : mkSquare 7 (rankOf f) < 64)
    (hrt : mkSquare 5 (rankOf f) < 64)
    (hft : f ≠ t) (hfrf : f ≠ mkSquare 7 (rankOf f)) (hfrt : f ≠ mkSquare 5 (rankOf f))
    (htrf : t ≠ mkSquare 7 (rankOf f)) (htrt : t ≠ mkSquare 5 (rankOf f))
    (hrfrt : mkSquare 7 (rankOf f) ≠ mkSquare 5 (rankOf f))
    (hKne : pos.board.mailbox f ≠ noPiece)
    (hRne : pos.board.mailbox (mkSquare 7 (rankOf f)) ≠ noPiece)
    (hmt : pos.board.mailbox t = noPiece)
    (hmrt : pos.board.mailbox (mkSquare 5 (rankOf f)) = noPiece) :
    (pos.makeMove ⟨f, t, .castleKingside, pr⟩).unmakeMove ⟨f, t, .castleKingside, pr⟩ =
      pos := by
  obtain ⟨hside, hhist, hkeyh, hfm⟩ := makeMove_proj pos ⟨f, t, .castleKingside, pr⟩
  have hboard := makeMove_board_castleK pos f t pr
  simp only [Board.pieceAt] at hboard
  rw [if_neg (fun hcc : pos.board.mailbox t ≠ noPiece => hcc hmt)] at hboard
  have hR : ((pos.board.removePiece f).putPiece t (pos.board.mailbox f)).mailbox
      (mkSquare 7 (rankOf f)) = pos.board.mailbox (mkSquare 7 (rankOf f)) := by
    rw [putPiece_mailbox, if_neg (fun h => htrf h.symm), removePiece_mailbox,
      if_neg (fun h => hfrf h.symm)]
  rw [hR] at hboard
  have hhd : (pos.makeMove ⟨f, t, .castleKingside, pr⟩).history.headD
      ⟨0, noSquare, 0, noPiece, 0⟩ =
      ⟨pos.castling, pos.enPassant, pos.halfmoveClock, pos.board.pieceAt t, pos.key⟩ := by
    rw [hhist]
    rfl
  have hcapU : ((pos.makeMove ⟨f, t, .castleKingside, pr⟩).history.headD
      ⟨0, noSquare, 0, noPiece, 0⟩).captured = noPiece := by
    rw [hhd]
    exact hmt
  obtain ⟨hu1, hu2, hu3, hu4, hu5, hu6, hu7, hu8⟩ :=
    unmakeMove_fields (pos.makeMove ⟨f, t, .castleKingside, pr⟩) ⟨f, t, .castleKingside, pr⟩
  have hub := unmakeMove_board_castleK (pos.makeMove ⟨f, t, .castleKingside, pr⟩) f t pr hcapU
  simp only [Board.pieceAt] at hub
  have hK : (pos.makeMove ⟨f, t, .castleKingside, pr⟩).board.mailbox t =
      pos.board.mailbox f := by
    rw [hboard, putPiece_mailbox, if_neg htrt, removePiece_mailbox, if_neg htrf,
      putPiece_mailbox, if_pos rfl]
  rw [hK] at hub
  have hRt : (((pos.makeMove ⟨f, t, .castleKingside, pr⟩).board.removePiece t).putPiece f
      (pos.board.mailbox f)).mailbox (mkSquare 5 (rankOf f)) =
      pos.board.mailbox (mkSquare 7 (rankOf f)) := by
    rw [putPiece_mailbox, if_neg (fun h => hfrt h.symm), removePiece_mailbox,
      if_neg (fun h => htrt h.symm), hboard, putPiece_mailbox, if_pos rfl]
  rw [hRt] at hub
  refine position_eq_of_fields ?_ ?_ ?_ ?_ ?_ ?_ ?_ ?_ ?_
  · rw [hub, hboard]
    exact board_roundtrip_castle pos.board _ _ hWF hf ht hrf hrt hft hfrf hfrt htrf htrt
      hrfrt rfl hKne rfl hRne hmt hmrt
  · rw [hu1, hside, Color.opposite_opposite]
  · rw [hu2, hhd]
  · rw [hu3, hhd]
  · rw [hu4, hhd]
  · rw [hu8, hside, Color.opposite_opposite, hfm]
    rcases hcol : pos.sideToMove <;> simp [hcol]
  · rw [hu5, hhd]
  · rw [hu6, hhist]
    rfl
  · rw [hu7, hkeyh]
    rfl

/-- make_move then unmake_move restores the position for a queenside castle
from a coherent board with the king on its square, the rook on the corner,
and the transit squares empty. -/
theorem make_unmake_castleQ (pos : Position) (hWF : BoardWF pos.board)
    {f t : Nat} {pr : PieceType}
    (hf : f < 64) (ht : t < 64) (hrf : mkSquare 0 (rankOf f) < 64)
    (hrt : mkSquare 3 (rankOf f) < 64)
    (hft : f ≠ t) (hfrf : f ≠ mkSquare 0 (rankOf f)) (hfrt : f ≠ mkSquare 3 (rankOf f))
    (htrf : t ≠ mkSquare 0 (rankOf f)) (htrt : t ≠ mkSquare 3 (rankOf f))
    (hrfrt : mkSquare 0 (rankOf f) ≠ mkSquare 3 (rankOf f))
    (hKne : pos.board.mailbox f ≠ noPiece)
    (hRne : pos.board.mailbox (mkSquare 0 (rankOf f)) ≠ noPiece)
    (hmt : pos.board.mailbox t = noPiece)
    (hmrt : pos.board.mailbox (mkSquare 3 (rankOf f)) = noPiece) :
    (pos.makeMove ⟨f, t, .castleQueenside, pr⟩).unmakeMove ⟨f, t, .castleQueenside, pr⟩ =
      pos := by
  obtain ⟨hside, hhist, hkeyh, hfm⟩ := makeMove_proj pos ⟨f, t, .castleQueenside, pr⟩
  have hboard := makeMove_board_castleQ pos f t pr
  simp only [Board.pieceAt] at hboard
  rw [if_neg (fun hcc : pos.board.mailbox t ≠ noPiece => hcc hmt)] at hboard
  have hR : ((pos.board.removePiece f).putPiece t (pos.board.mailbox f)).mailbox
      (mkSquare 0 (rankOf f)) = pos.board.mailbox (mkSquare 0 (rankOf f)) := by
    rw [putPiece_mailbox, if_neg (fun h => htrf h.symm), removePiece_mailbox,
      if_neg (fun h => hfrf h.symm)]
  rw [hR] at hboard
  have hhd : (pos.makeMove ⟨f, t, .castleQueenside, pr⟩).history.headD
      ⟨0, noSquare, 0, noPiece, 0⟩ =
      ⟨pos.castling, pos.enPassant, pos.halfmoveClock, pos.board.pieceAt t, pos.key⟩ := by
    rw [hhist]
    rfl
  have hcapU : ((pos.makeMove ⟨f, t, .castleQueenside, pr⟩).history.headD
      ⟨0, noSquare, 0, noPiece, 0⟩).captured = noPiece := by
    rw [hhd]
    exact hmt
  obtain ⟨hu1, hu2, hu3, hu4, hu5, hu6, hu7, hu8⟩ :=
    unmakeMove_fields (pos.makeMove ⟨f, t, .castleQueenside, pr⟩) ⟨f, t, .castleQueenside, pr⟩
  have hub := unmakeMove_board_castleQ (pos.makeMove ⟨f, t, .castleQueenside, pr⟩) f t pr hcapU
  simp only [Board.pieceAt] at hub
  have hK : (pos.makeMove ⟨f, t, .castleQueenside, pr⟩).board.mailbox t =
      pos.board.mailbox f := by
    rw [hboard, putPiece_mailbox, if_neg htrt, removePiece_mailbox, if_neg htrf,
      putPiece_mailbox, if_pos rfl]
  rw [hK] at hub
  have hRt : (((pos.makeMove ⟨f, t, .castleQueenside, pr⟩).board.removePiece t).putPiece f
      (pos.board.mailbox f)).mailbox (mkSquare 3 (rankOf f)) =
      pos.board.mailbox (mkSquare 0 (rankOf f)) := by
    rw [putPiece_mailbox, if_neg (fun h => hfrt h.symm), removePiece_mailbox,
      if_neg (fun h => htrt h.symm), hboard, putPiece_mailbox, if_pos rfl]
  rw [hRt] at hub
  refine position_eq_of_fields ?_ ?_ ?_ ?_ ?_ ?_ ?_ ?_ ?_
  · rw [hub, hboard]
    exact board_roundtrip_castle pos.board _ _ hWF hf ht hrf hrt hft hfrf hfrt htrf htrt
      hrfrt rfl hKne rfl hRne hmt hmrt
  · rw [hu1, hside, Color.opposite_opposite]
  · rw [hu2, hhd]
  · rw [hu3, hhd]
  · rw [hu4, hhd]
  · rw [hu8, hside, Color.opposite_opposite, hfm]
    rcases hcol : pos.sideToMove <;> simp [hcol]
  · rw [hu5, hhd]
  · rw [hu6, hhist]
    rfl
  · rw [hu7, hkeyh]
    rfl



/-- A color never equals its opposite. -/
theorem Color.opposite_ne (c : Color) : c.opposite ≠ c := by
  cases c <;> exact fun h => nomatch h

/-- Square, flag and origin facts of every generated non-pawn piece move. -/
theorem genPieceMoves_facts (pos : Position) (pt : PieceType) {f t : Nat} {fl : MoveFlag}
    {pr : PieceType} (hm : (⟨f, t, fl, pr⟩ : Move) ∈ genPieceMoves pos pt) :
    (pos.board.pieces (pos.sideToMove, pt)).testBit f ∧ f < 64 ∧ t < 64 ∧
    (compl64 (pos.board.occupied pos.sideToMove)).testBit t ∧
    fl = .normal ∧ pr = .none := by
  simp only [genPieceMoves, List.mem_flatMap, List.mem_map] at hm
  obtain ⟨a, ha, b, hb, heq⟩ := hm
  rw [Move.mk.injEq] at heq
  obtain ⟨rfl, rfl, rfl, rfl⟩ := heq
  obtain ⟨ha64, hab⟩ := mem_squaresOf ha
  obtain ⟨hb64, hbb⟩ := mem_squaresOf hb
  obtain ⟨-, hcompl⟩ := land_testBit hbb
  exact ⟨hab, ha64, hb64, hcompl, rfl, rfl⟩



/-- Make/unmake round trip for any move produced by one of the non-pawn,
non-castling piece generators, on a coherent board. -/
theorem make_unmake_piece_seg (pos : Position) (hB : BoardWF pos.board)
    (pt : PieceType) (hpt : pt ≠ .none) {f t : Nat} {fl : MoveFlag} {pr : PieceType}
    (hm : (⟨f, t, fl, pr⟩ : Move) ∈ genPieceMoves pos pt) :
    (pos.makeMove ⟨f, t, fl, pr⟩).unmakeMove ⟨f, t, fl, pr⟩ = pos := by
  obtain ⟨hpb, hf, ht, hct, rfl, rfl⟩ := genPieceMoves_facts pos pt hm
  have hmf : pos.board.mailbox f = ⟨pos.sideToMove, pt⟩ :=
    (hB.piecesBit pos.sideToMove pt hpt f hf).mp hpb
  have hmfne : pos.board.mailbox f ≠ noPiece := by
    rw [hmf]
    intro hc
    exact hpt (congrArg (fun p : Piece => p.type) hc)
  have hocct : (pos.board.occupied pos.sideToMove).testBit t = false :=
    (testBit_compl64 (hB.occLt _) hct).2
  have hft : f ≠ t := by
    intro h
    have hocf : (pos.board.occupied pos.sideToMove).testBit f = true :=
      (hB.occBit pos.sideToMove f hf).mpr ⟨hmfne, by rw [hmf]⟩
    rw [h, hocct] at hocf
    exact nomatch hocf
  have hcapcol : pos.board.mailbox t ≠ noPiece →
      (pos.board.mailbox t).color ≠ (pos.board.mailbox f).color := by
    intro hne hc
    have hocc : (pos.board.occupied pos.sideToMove).testBit t = true :=
      (hB.occBit pos.sideToMove t ht).mpr ⟨hne, by rw [hc, hmf]⟩
    rw [hocc] at hocct
    exact nomatch hocct
  exact make_unmake_basic pos hB (fun h => nomatch h) (fun h => nomatch h)
    (fun h => nomatch h) hf ht hft hmfne (fun h => nomatch h) hcapcol

/-- C1 (amended): on a well-formed position (coherent board words and
mailbox, en-passant square consistent with the side to move, every held
castling right backed by the king and rook on their home squares), make_move
followed by unmake_move of any pseudo-legal move restores the position
exactly. -/
theorem make_unmake_amended (pos : Position) (hWF : PosWF pos)
    (m : Move) (hm : m ∈ pseudoLegal pos) :
    (pos.makeMove m).unmakeMove m = pos := by
  obtain ⟨f, t, fl, pr⟩ := m
  have hB := hWF.board
  simp only [pseudoLegal, List.mem_append] at hm
  rcases hm with ((((((hmp | hmn) | hmb) | hmr) | hmq) | hmk) | hmc)
  · -- pawn moves
    obtain ⟨-, -, hprom, -⟩ := genPawnMoves_fields pos (hB.piecesLt _ _) hmp
    obtain ⟨hpb, hf, ht, hft, hcase⟩ := genPawnMoves_facts pos (hB.piecesLt _ _) hmp
    have hmf : pos.board.mailbox f = ⟨pos.sideToMove, .pawn⟩ :=
      (hB.piecesBit pos.sideToMove .pawn (fun h => nomatch h) f hf).mp hpb
    have hmfne : pos.board.mailbox f ≠ noPiece := by
      rw [hmf]
      intro hc
      exact nomatch (congrArg (fun p : Piece => p.type) hc)
    rcases hcase with ⟨hfl, htgt⟩ | ⟨hfl, hemp, -, -⟩ | ⟨hfl, hte, hepne, hwdir, hbdir⟩
    · -- single push or diagonal capture: flag Normal or Promotion
      have hpromo : fl = .promotion → (pos.board.mailbox f).type = .pawn ∧ pr ≠ .none := by
        intro hq
        refine ⟨by rw [hmf], ?_⟩
        have h4 : pr = .queen ∨ pr = .rook ∨ pr = .bishop ∨ pr = .knight := hprom hq
        rcases h4 with rfl | rfl | rfl | rfl <;> exact fun h => nomatch h
      have hcapcol : pos.board.mailbox t ≠ noPiece →
          (pos.board.mailbox t).color ≠ (pos.board.mailbox f).color := by
        rcases htgt with hemp2 | henemy
        · intro hne hcol
          have h0 := (testBit_compl64 hB.allLt hemp2).2
          rw [(hB.allBit t ht).mpr hne] at h0
          exact nomatch h0
        · intro hne hc
          have hco := ((hB.occBit pos.sideToMove.opposite t ht).mp henemy).2
          refine Color.opposite_ne pos.sideToMove ?_
          rw [← hco, hc, hmf]
      rcases hfl with rfl | rfl
      · exact make_unmake_basic pos hB (fun h => nomatch h) (fun h => nomatch h)
          (fun h => nomatch h) hf ht hft hmfne (fun h => nomatch h) hcapcol
      · exact make_unmake_basic pos hB (fun h => nomatch h) (fun h => nomatch h)
          (fun h => nomatch h) hf ht hft hmfne hpromo hcapcol
    · -- double pawn push onto an empty square
      have hmt : pos.board.mailbox t = noPiece := by
        by_contra hne
        have h0 := (testBit_compl64 hB.allLt hemp).2
        rw [(hB.allBit t ht).mpr hne] at h0
        exact nomatch h0
      subst hfl
      exact make_unmake_basic pos hB (fun h => nomatch h) (fun h => nomatch h)
        (fun h => nomatch h) hf ht hft hmfne (fun h => nomatch h)
        (fun hne => absurd hmt hne)
    · -- en passant: the WF en-passant clause pins down the capture square
      subst hfl
      rcases hus : pos.sideToMove with _ | _
      · obtain ⟨hrk, hmte, hcp⟩ := (hWF.epOK hepne).1 hus
        rw [← hte] at hrk hmte hcp
        have hdir := hwdir hus
        have hcsq : mkSquare (fileOf t) (rankOf f) = mkSquare (fileOf t) 4 := by
          have hr4 : rankOf f = 4 := by
            unfold rankOf at hrk ⊢
            rcases hdir with ⟨hfe, h7, hm0⟩ | ⟨hfe, h9, hm7⟩ <;> omega
          rw [hr4]
        refine make_unmake_ep pos hB hf ht ?_ hft ?_ ?_ hmfne hmte ?_
        · unfold mkSquare fileOf rankOf
          omega
        · rw [hcsq]
          unfold mkSquare fileOf
          unfold rankOf at hrk
          rcases hdir with ⟨hfe, h7, hm0⟩ | ⟨hfe, h9, hm7⟩ <;> omega
        · rw [hcsq]
          unfold mkSquare fileOf
          unfold rankOf at hrk
          omega
        · rw [hcsq, hcp]
          decide
      · obtain ⟨hrk, hmte, hcp⟩ := (hWF.epOK hepne).2 hus
        rw [← hte] at hrk hmte hcp
        have hdir := hbdir hus
        have hcsq : mkSquare (fileOf t) (rankOf f) = mkSquare (fileOf t) 3 := by
          have hr3 : rankOf f = 3 := by
            unfold rankOf at hrk ⊢
            rcases hdir with ⟨hfe, hm7⟩ | ⟨hfe, hm0⟩ <;> omega
          rw [hr3]
        refine make_unmake_ep pos hB hf ht ?_ hft ?_ ?_ hmfne hmte ?_
        · unfold mkSquare fileOf rankOf
          omega
        · rw [hcsq]
          unfold mkSquare fileOf
          unfold rankOf at hrk
          rcases hdir with ⟨hfe, hm7⟩ | ⟨hfe, hm0⟩ <;> omega
        · rw [hcsq]
          unfold mkSquare fileOf
          unfold rankOf at hrk
          omega
        · rw [hcsq, hcp]
          decide
  · exact make_unmake_piece_seg pos hB .knight (fun h => nomatch h) hmn
  · exact make_unmake_piece_seg pos hB .bishop (fun h => nomatch h) hmb
  · exact make_unmake_piece_seg pos hB .rook (fun h => nomatch h) hmr
  · exact make_unmake_piece_seg pos hB .queen (fun h => nomatch h) hmq
  · exact make_unmake_piece_seg pos hB .king (fun h => nomatch h) hmk
  · -- castling: the WF castle clauses pin king and rook to home squares
    rw [mem_genCastling_iff] at hmc
    obtain ⟨-, hKQ⟩ := hmc
    rcases hus : pos.sideToMove with _ | _
    · simp only [hus, if_true, if_false, reduceCtorEq, reduceIte] at hKQ
      rcases hKQ with ⟨hright, hem5, hem6, -, -, heqm⟩ |
        ⟨hright, -, hem2, hem3, -, -, heqm⟩
      · have hWC := hWF.castleWK hright
        have hks : pos.board.kingSquare Color.white = 4 := by
          unfold Board.kingSquare
          rw [hWC.1]
          decide
        rw [Move.mk.injEq] at heqm
        obtain ⟨hfe, hte2, hfle, hpre⟩ := heqm
        subst hfle
        subst hpre
        have hf4 : f = 4 := by rw [hfe, hks]
        have ht6 : t = 6 := by rw [hte2]; decide
        subst hf4
        subst ht6
        have hm4 : pos.board.mailbox 4 = ⟨.white, .king⟩ :=
          (hB.piecesBit .white .king (fun h => nomatch h) 4 (by decide)).mp
            (by rw [hWC.1]; decide)
        rw [show mkSquare 6 0 = 6 by decide] at hem6
        rw [show mkSquare 5 0 = 5 by decide] at hem5
        have he6 : pos.board.mailbox 6 = noPiece := by
          refine hB.mailboxNone 6 (by decide) ?_
          unfold Board.isEmpty at hem6
          exact of_decide_eq_true hem6
        have he5 : pos.board.mailbox 5 = noPiece := by
          refine hB.mailboxNone 5 (by decide) ?_
          unfold Board.isEmpty at hem5
          exact of_decide_eq_true hem5
        refine make_unmake_castleK pos hB (by decide) (by decide) (by decide) (by decide)
          (by decide) (by decide) (by decide) (by decide) (by decide) (by decide)
          ?_ ?_ he6 ?_
        · rw [hm4]
          decide
        · rw [show mkSquare 7 (rankOf 4) = 7 by decide, hWC.2]
          decide
        · rw [show mkSquare 5 (rankOf 4) = 5 by decide]
          exact he5
      · have hWC := hWF.castleWQ hright
        have hks : pos.board.kingSquare Color.white = 4 := by
          unfold Board.kingSquare
          rw [hWC.1]
          decide
        rw [Move.mk.injEq] at heqm
        obtain ⟨hfe, hte2, hfle, hpre⟩ := heqm
        subst hfle
        subst hpre
        have hf4 : f = 4 := by rw [hfe, hks]
        have ht2 : t = 2 := by rw [hte2]; decide
        subst hf4
        subst ht2
        have hm4 : pos.board.mailbox 4 = ⟨.white, .king⟩ :=
          (hB.piecesBit .white .king (fun h => nomatch h) 4 (by decide)).mp
            (by rw [hWC.1]; decide)
        rw [show mkSquare 2 0 = 2 by decide] at hem2
        rw [show mkSquare 3 0 = 3 by decide] at hem3
        have he2 : pos.board.mailbox 2 = noPiece := by
          refine hB.mailboxNone 2 (by decide) ?_
          unfold Board.isEmpty at hem2
          exact of_decide_eq_true hem2
        have he3 : pos.board.mailbox 3 = noPiece := by
          refine hB.mailboxNone 3 (by decide) ?_
          unfold Board.isEmpty at hem3
          exact of_decide_eq_true hem3
        refine make_unmake_castleQ pos hB (by decide) (by decide) (by decide) (by decide)
          (by decide) (by decide) (by decide) (by decide) (by decide) (by decide)
          ?_ ?_ he2 ?_
        · rw [hm4]
          decide
        · rw [show mkSquare 0 (rankOf 4) = 0 by decide, hWC.2]
          decide
        · rw [show mkSquare 3 (rankOf 4) = 3 by decide]
          exact he3
    · simp only [hus, if_true, if_false, reduceCtorEq, reduceIte] at hKQ
      rcases hKQ with ⟨hright, hem5, hem6, -, -, heqm⟩ |
        ⟨hright, -, hem2, hem3, -, -, heqm⟩
      · have hWC := hWF.castleBK hright
        have hks : pos.board.kingSquare Color.black = 60 := by
          unfold Board.kingSquare
          rw [hWC.1]
          decide
        rw [Move.mk.injEq] at heqm
        obtain ⟨hfe, hte2, hfle, hpre⟩ := heqm
        subst hfle
        subst hpre
        have hf60 : f = 60 := by rw [hfe, hks]
        have ht62 : t = 62 := by rw [hte2]; decide
        subst hf60
        subst ht62
        have hm60 : pos.board.mailbox 60 = ⟨.black, .king⟩ :=
          (hB.piecesBit .black .king (fun h => nomatch h) 60 (by decide)).mp
            (by rw [hWC.1]; decide)
        rw [show mkSquare 6 7 = 62 by decide] at hem6
        rw [show mkSquare 5 7 = 61 by decide] at hem5
        have he62 : pos.board.mailbox 62 = noPiece := by
          refine hB.mailboxNone 62 (by decide) ?_
          unfold Board.isEmpty at hem6
          exact of_decide_eq_true hem6
        have he61 : pos.board.mailbox 61 = noPiece := by
          refine hB.mailboxNone 61 (by decide) ?_
          unfold Board.isEmpty at hem5
          exact of_decide_eq_true hem5
        refine make_unmake_castleK pos hB (by decide) (by decide) (by decide) (by decide)
          (by decide) (by decide) (by decide) (by decide) (by decide) (by decide)
          ?_ ?_ he62 ?_
        · rw [hm60]
          decide
        · rw [show mkSquare 7 (rankOf 60) = 63 by decide, hWC.2]
          decide
        · rw [show mkSquare 5 (rankOf 60) = 61 by decide]
          exact he61
      · have hWC := hWF.castleBQ hright
        have hks : pos.board.kingSquare Color.black = 60 := by
          unfold Board.kingSquare
          rw [hWC.1]
          decide
        rw [Move.mk.injEq] at heqm
        obtain ⟨hfe, hte2, hfle, hpre⟩ := heqm
        subst hfle
        subst hpre
        have hf60 : f = 60 := by rw [hfe, hks]
        have ht58 : t = 58 := by rw [hte2]; decide
        subst hf60
        subst ht58
        have hm60 : pos.board.mailbox 60 = ⟨.black, .king⟩ :=
          (hB.piecesBit .black .king (fun h => nomatch h) 60 (by decide)).mp
            (by rw [hWC.1]; decide)
        rw [show mkSquare 2 7 = 58 by decide] at hem2
        rw [show mkSquare 3 7 = 59 by decide] at hem3
        have he58 : pos.board.mailbox 58 = noPiece := by
          refine hB.mailboxNone 58 (by decide) ?_
          unfold Board.isEmpty at hem2
          exact of_decide_eq_true hem2
        have he59 : pos.board.mailbox 59 = noPiece := by
          refine hB.mailboxNone 59 (by decide) ?_
          unfold Board.isEmpty at hem3
          exact of_decide_eq_true hem3
        refine make_unmake_castleQ pos hB (by decide) (by decide) (by decide) (by decide)
          (by decide) (by decide) (by decide) (by decide) (by decide) (by decide)
          ?_ ?_ he58 ?_
        · rw [hm60]
          decide
        · rw [show mkSquare 0 (rankOf 60) = 56 by decide, hWC.2]
          decide
        · rw [show mkSquare 3 (rankOf 60) = 59 by decide]
          exact he59



/-- A parseable position whose en-passant square e3 is occupied by a white
knight (from_fen performs no cross-field consistency check). -/
def epPos : Position := posOfFen ("k7/8/8/8/3p4/4N3/8/K7 b - e3 0 1").data

/-- The en-passant capture d4xe3 the pawn generator emits in epPos. -/
def epMove : Move := ⟨27, 20, .enPassant, .none⟩

/-- C1: pseudo-legal make_move/unmake_move is NOT always a round trip: in
the parsed position k7/8/8/8/3p4/4N3/8/K7 b - e3 0 1, whose en-passant
square e3 holds a white knight, the generated en-passant capture d4xe3
leaves the all-occupancy bitboard changed after make_move + unmake_move. -/
theorem make_unmake_counterexample :
    epMove ∈ pseudoLegal epPos ∧
    ((epPos.makeMove epMove).unmakeMove epMove).board.occupiedAll ≠
      epPos.board.occupiedAll :=
  ⟨by decide, by decide⟩

/-- Witness: the start position is well-formed, the double push e2e4 is
pseudo-legal there, and the amended theorem applies: the round trip
restores the start position. -/
theorem make_unmake_amended_witness :
    PosWF startPos ∧ (⟨12, 28, .doublePawn, .none⟩ : Move) ∈ pseudoLegal startPos ∧
    (startPos.makeMove ⟨12, 28, .doublePawn, .none⟩).unmakeMove
      ⟨12, 28, .doublePawn, .none⟩ = startPos :=
  have h1 : PosWF startPos := by decide
  have h2 : (⟨12, 28, .doublePawn, .none⟩ : Move) ∈ pseudoLegal startPos := by decide
  ⟨h1, h2, make_unmake_amended startPos h1 _ h2⟩



-- ── Zobrist key algebra (C2) ────────────────────────────────────────────────

/-- Xor left-commutativity, for AC normalization. -/
theorem xor_left_comm (a b c : Nat) : a ^^^ (b ^^^ c) = b ^^^ (a ^^^ c) := by
  rw [← Nat.xor_assoc, Nat.xor_comm a b, Nat.xor_assoc]

/-- Xor of a value with itself cancels on the left. -/
theorem xor_cancel_left (a b : Nat) : a ^^^ (a ^^^ b) = b := by
  rw [← Nat.xor_assoc, Nat.xor_self, Nat.zero_xor]

/-- Pull a conditional xor out of an if. -/
theorem ite_xor (c : Prop) [Decidable c] (a x : Nat) :
    (if c then a ^^^ x else a) = a ^^^ (if c then x else 0) := by
  split <;> simp

/-- set_en_passant always lands on the requested square. -/
theorem setEnPassant_enPassant (p : Position) (ep : Nat) :
    (p.setEnPassant ep).enPassant = ep := by
  unfold Position.setEnPassant
  split
  next h => exact h.symm
  next => rfl

/-- The key produced by set_en_passant: toggle the old and new en-passant
keys (the skip branch agrees because the two toggles coincide). -/
theorem setEnPassant_key (p : Position) (ep : Nat) :
    (p.setEnPassant ep).key =
      p.key ^^^ (if p.enPassant ≠ noSquare then zobrist.enPassantKey p.enPassant else 0)
        ^^^ (if ep ≠ noSquare then zobrist.enPassantKey ep else 0) := by
  unfold Position.setEnPassant
  split
  next h =>
    subst h
    rw [Nat.xor_assoc, Nat.xor_self, Nat.xor_zero]
  next h =>
    dsimp only
    rw [ite_xor, ite_xor]

/-- set_castling always lands on the requested rights. -/
theorem setCastling_castling (p : Position) (cr : CastlingRights) :
    (p.setCastling cr).castling = cr := by
  unfold Position.setCastling
  split
  next h => exact h.symm
  next => rfl

/-- The key produced by set_castling: toggle the old and new castling keys. -/
theorem setCastling_key (p : Position) (cr : CastlingRights) :
    (p.setCastling cr).key =
      p.key ^^^ zobrist.castlingKey p.castling ^^^ zobrist.castlingKey cr := by
  unfold Position.setCastling
  split
  next h =>
    subst h
    rw [Nat.xor_assoc, Nat.xor_self, Nat.xor_zero]
  next => rfl

/-- The xor contribution of one mailbox slot to the scratch key. -/
def pieceContrib (b : Board) (sq : Nat) : Nat :=
  if b.mailbox sq ≠ noPiece
  then zobrist.pieceKey (b.mailbox sq).color (b.mailbox sq).type sq else 0

/-- Xor of the slot contributions over a list of squares. -/
def boardKeyAux (b : Board) (l : List Nat) : Nat :=
  l.foldl (fun k sq => k ^^^ pieceContrib b sq) 0

/-- Xor of all 64 slot contributions: the board part of the scratch key. -/
def boardKey (b : Board) : Nat := boardKeyAux b (List.range 64)

/-- A left fold of xors equals the initial value xored with the zero-based
fold. -/
theorem foldl_xor_shift (g : Nat → Nat) :
    ∀ (l : List Nat) (init : Nat),
      l.foldl (fun k s => k ^^^ g s) init = init ^^^ l.foldl (fun k s => k ^^^ g s) 0
  | [], init => (Nat.xor_zero init).symm
  | s :: l, init => by
    simp only [List.foldl_cons]
    rw [foldl_xor_shift g l (init ^^^ g s), foldl_xor_shift g l (0 ^^^ g s),
      Nat.zero_xor, Nat.xor_assoc]

/-- The scratch-key fold of compute_key is the contribution fold. -/
theorem foldl_key_eq (b : Board) :
    ∀ (l : List Nat) (init : Nat),
      l.foldl (fun k sq =>
        let p := b.mailbox sq
        if p ≠ noPiece then k ^^^ zobrist.pieceKey p.color p.type sq else k) init =
      l.foldl (fun k sq => k ^^^ pieceContrib b sq) init
  | [], _ => rfl
  | s :: l, init => by
    simp only [List.foldl_cons]
    rw [foldl_key_eq b l]
    congr 1
    dsimp only
    unfold pieceContrib
    rw [ite_xor]

/-- Contribution folds only consult the mailbox on the folded squares. -/
theorem foldl_contrib_congr (b b' : Board) (l : List Nat) (init : Nat)
    (h : ∀ s ∈ l, b'.mailbox s = b.mailbox s) :
      l.foldl (fun k sq => k ^^^ pieceContrib b' sq) init =
      l.foldl (fun k sq => k ^^^ pieceContrib b sq) init := by
  rw [← List.foldl_map (pieceContrib b') (fun k x => k ^^^ x),
    ← List.foldl_map (pieceContrib b) (fun k x => k ^^^ x)]
  congr 1
  refine List.map_congr_left (fun s hs => ?_)
  unfold pieceContrib
  rw [h s hs]

/-- Slot contributions over a list only consult the mailbox on that list. -/
theorem boardKeyAux_congr (b b' : Board) (l : List Nat)
    (h : ∀ s ∈ l, b'.mailbox s = b.mailbox s) :
    boardKeyAux b' l = boardKeyAux b l :=
  foldl_contrib_congr b b' l 0 h

/-- Splitting the contribution fold over an append. -/
theorem boardKeyAux_append (b : Board) (l₁ l₂ : List Nat) :
    boardKeyAux b (l₁ ++ l₂) = boardKeyAux b l₁ ^^^ boardKeyAux b l₂ := by
  unfold boardKeyAux
  rw [List.foldl_append, foldl_xor_shift]

/-- The contribution fold of a single square. -/
theorem boardKeyAux_single (b : Board) (sq : Nat) :
    boardKeyAux b [sq] = pieceContrib b sq := by
  unfold boardKeyAux
  simp only [List.foldl_cons, List.foldl_nil, Nat.zero_xor]

/-- compute_key splits into the scalar keys and the board contribution. -/
theorem computeKeyValue_split (b : Board) (side : Color) (cr : CastlingRights) (ep : Nat) :
    computeKeyValue b side cr ep =
      (zobrist.castlingKey cr ^^^ (if side = .black then zobrist.sideToMoveKey else 0)
        ^^^ (if ep ≠ noSquare then zobrist.enPassantKey ep else 0)) ^^^ boardKey b := by
  unfold computeKeyValue boardKey boardKeyAux
  dsimp only
  rw [foldl_key_eq, foldl_xor_shift]
  congr 1
  rw [ite_xor, ite_xor]

/-- Changing the board on a single square changes the board key by the two
contributions of that square. -/
theorem boardKey_update (b b' : Board) (sq : Nat) (hsq : sq < 64)
    (hagree : ∀ s, s ≠ sq → b'.mailbox s = b.mailbox s) :
    boardKey b' = boardKey b ^^^ pieceContrib b sq ^^^ pieceContrib b' sq := by
  have h64 : 64 = sq + 1 + (63 - sq) := by omega
  have hdec : List.range 64 =
      (List.range sq ++ [sq]) ++ (List.range (63 - sq)).map (fun i => sq + 1 + i) := by
    rw [h64, List.range_add, List.range_succ]
  unfold boardKey
  rw [hdec, boardKeyAux_append, boardKeyAux_append, boardKeyAux_append,
    boardKeyAux_append, boardKeyAux_single, boardKeyAux_single]
  have hpre : boardKeyAux b' (List.range sq) = boardKeyAux b (List.range sq) := by
    refine boardKeyAux_congr b b' _ (fun s hs => ?_)
    have := List.mem_range.mp hs
    exact hagree s (by omega)
  have hpost : boardKeyAux b' ((List.range (63 - sq)).map (fun i => sq + 1 + i)) =
      boardKeyAux b ((List.range (63 - sq)).map (fun i => sq + 1 + i)) := by
    refine boardKeyAux_congr b b' _ (fun s hs => ?_)
    obtain ⟨i, hi, rfl⟩ := List.mem_map.mp hs
    exact hagree _ (by omega)
  rw [hpre, hpost]
  simp only [Nat.xor_assoc, Nat.xor_comm, xor_left_comm, xor_cancel_left, Nat.xor_self,
    Nat.xor_zero, Nat.zero_xor]

/-- Removing a piece zeroes its slot contribution. -/
theorem pieceContrib_removed (b : Board) (sq : Nat) :
    pieceContrib (b.removePiece sq) sq = 0 := by
  unfold pieceContrib
  rw [removePiece_mailbox, if_pos rfl]
  simp

/-- The slot contribution of a square just written by put_piece. -/
theorem pieceContrib_put (b : Board) (sq : Nat) (p : Piece) (hp : p ≠ noPiece) :
    pieceContrib (b.putPiece sq p) sq = zobrist.pieceKey p.color p.type sq := by
  unfold pieceContrib
  rw [putPiece_mailbox, if_pos rfl, if_pos hp]

/-- Slot contributions of untouched squares survive remove_piece. -/
theorem pieceContrib_remove_other (b : Board) (sq x : Nat) (h : x ≠ sq) :
    pieceContrib (b.removePiece sq) x = pieceContrib b x := by
  unfold pieceContrib
  rw [removePiece_mailbox, if_neg h]

/-- Slot contributions of untouched squares survive put_piece. -/
theorem pieceContrib_put_other (b : Board) (sq x : Nat) (p : Piece) (h : x ≠ sq) :
    pieceContrib (b.putPiece sq p) x = pieceContrib b x := by
  unfold pieceContrib
  rw [putPiece_mailbox, if_neg h]



set_option linter.unreachableTactic false in
set_option linter.unusedTactic false in
/-- make_move updates the castling rights through the mask table. -/
theorem makeMove_castling (pos : Position) (m : Move) :
    (pos.makeMove m).castling =
      pos.castling &&& castleMask m.fromSq &&& castleMask m.toSq := by
  by_cases hck : m.flag = .castleKingside <;>
  by_cases hcq : m.flag = .castleQueenside <;>
  by_cases hdp : m.flag = .doublePawn <;>
    simp only [Position.makeMove, hck, hcq, hdp, if_true, if_false, reduceIte, reduceCtorEq,
      setEnPassant_castling, setCastling_castling] <;>
    trivial

set_option linter.unreachableTactic false in
set_option linter.unusedTactic false in
/-- make_move sets the en-passant square: behind a double push, cleared
otherwise. -/
theorem makeMove_enPassant (pos : Position) (m : Move) :
    (pos.makeMove m).enPassant =
      (if m.flag = .doublePawn
       then mkSquare (fileOf m.fromSq) ((rankOf m.fromSq + rankOf m.toSq) / 2)
       else noSquare) := by
  by_cases hck : m.flag = .castleKingside <;>
  by_cases hcq : m.flag = .castleQueenside <;>
  by_cases hdp : m.flag = .doublePawn <;>
    simp only [Position.makeMove, hck, hcq, hdp, if_true, if_false, reduceIte, reduceCtorEq,
      setCastling_enPassant, setEnPassant_enPassant] <;>
    trivial

set_option linter.unreachableTactic false in
set_option linter.unusedTactic false in
/-- The key after make_move of a plain move: toggle the mover off its
origin, any captured piece off the destination, the arriving piece onto the
destination, the old and new en-passant keys, the old and new castling
keys, and the side key. -/
theorem makeMove_key_basic (pos : Position) (f t : Nat) (fl : MoveFlag) (pr : PieceType)
    (h1 : fl ≠ .enPassant) (h2 : fl ≠ .castleKingside) (h3 : fl ≠ .castleQueenside) :
    (pos.makeMove ⟨f, t, fl, pr⟩).key =
      pos.key
        ^^^ zobrist.pieceKey (pos.board.pieceAt f).color (pos.board.pieceAt f).type f
        ^^^ (if pos.board.pieceAt t ≠ noPiece
             then zobrist.pieceKey (pos.board.pieceAt t).color (pos.board.pieceAt t).type t
             else 0)
        ^^^ (if fl = .promotion ∧ pr ≠ .none
             then zobrist.pieceKey (pos.board.pieceAt f).color pr t
             else zobrist.pieceKey (pos.board.pieceAt f).color (pos.board.pieceAt f).type t)
        ^^^ (if pos.enPassant ≠ noSquare then zobrist.enPassantKey pos.enPassant else 0)
        ^^^ (if (if fl = .doublePawn
                 then mkSquare (fileOf f) ((rankOf f + rankOf t) / 2) else noSquare) ≠ noSquare
             then zobrist.enPassantKey
               (if fl = .doublePawn
                then mkSquare (fileOf f) ((rankOf f + rankOf t) / 2) else noSquare)
             else 0)
        ^^^ zobrist.castlingKey pos.castling
        ^^^ zobrist.castlingKey (pos.castling &&& castleMask f &&& castleMask t)
        ^^^ zobrist.sideToMoveKey := by
  by_cases hdp : fl = .doublePawn <;>
  by_cases hpp : fl = .promotion ∧ pr ≠ .none <;>
    simp only [Position.makeMove, h1, h2, h3, hdp, hpp, if_true, if_false, reduceIte,
      reduceCtorEq, ne_eq, not_true, not_false_iff, false_and, true_and, and_true, and_false,
      and_self, setCastling_key, setCastling_castling,
      setEnPassant_key, setEnPassant_enPassant, setEnPassant_castling, ite_xor,
      Nat.xor_zero] <;>
    try simp only [Nat.xor_assoc]



/-- The board key after removing a present piece. -/
theorem boardKey_remove (B : Board) (f : Nat) (hf : f < 64)
    (hmf : B.pieceAt f ≠ noPiece) :
    boardKey (B.removePiece f) =
      boardKey B ^^^ zobrist.pieceKey (B.pieceAt f).color (B.pieceAt f).type f := by
  have h := boardKey_update B (B.removePiece f) f hf
    (fun s hs => by rw [removePiece_mailbox, if_neg hs])
  rw [pieceContrib_removed, Nat.xor_zero] at h
  rw [h]
  congr 1
  unfold pieceContrib Board.pieceAt at *
  rw [if_pos hmf]

/-- The board key after putting a real piece on an empty square. -/
theorem boardKey_put (B : Board) (t : Nat) (P : Piece) (ht : t < 64)
    (hmt : B.pieceAt t = noPiece) (hP : P ≠ noPiece) :
    boardKey (B.putPiece t P) =
      boardKey B ^^^ zobrist.pieceKey P.color P.type t := by
  have h := boardKey_update B (B.putPiece t P) t ht
    (fun s hs => by rw [putPiece_mailbox, if_neg hs])
  rw [pieceContrib_put _ _ _ hP] at h
  rw [h]
  have hc : pieceContrib B t = 0 := by
    unfold pieceContrib Board.pieceAt at *
    rw [if_neg (fun hcon => hcon hmt)]
  rw [hc, Nat.xor_zero]

/-- The board key after the basic make_move board update: remove the mover,
remove any captured piece at the destination, put the arriving piece. -/
theorem boardKey_move (B : Board) (f t : Nat) (P : Piece)
    (hf : f < 64) (ht : t < 64) (hft : f ≠ t)
    (hmf : B.pieceAt f ≠ noPiece) (hP : P ≠ noPiece) :
    boardKey ((if B.pieceAt t ≠ noPiece
               then (B.removePiece f).removePiece t
               else B.removePiece f).putPiece t P) =
      boardKey B
        ^^^ zobrist.pieceKey (B.pieceAt f).color (B.pieceAt f).type f
        ^^^ (if B.pieceAt t ≠ noPiece
             then zobrist.pieceKey (B.pieceAt t).color (B.pieceAt t).type t else 0)
        ^^^ zobrist.pieceKey P.color P.type t := by
  have hb1 := boardKey_remove B f hf hmf
  have hkeep : (B.removePiece f).pieceAt t = B.pieceAt t := by
    unfold Board.pieceAt
    rw [removePiece_mailbox, if_neg (fun hcon => hft hcon.symm)]
  by_cases hcap : B.pieceAt t ≠ noPiece
  · rw [if_pos hcap, if_pos hcap]
    have hb2 := boardKey_remove (B.removePiece f) t ht (by rw [hkeep]; exact hcap)
    rw [hkeep] at hb2
    have hb3 := boardKey_put ((B.removePiece f).removePiece t) t P ht
      (by unfold Board.pieceAt; rw [removePiece_mailbox, if_pos rfl]) hP
    rw [hb3, hb2, hb1]
  · rw [if_neg hcap, if_neg hcap, Nat.xor_zero]
    have hb3 := boardKey_put (B.removePiece f) t P ht
      (by rw [hkeep]; exact of_not_not hcap) hP
    rw [hb3, hb1]



/-- The board key after the en-passant board update: remove the mover,
remove the captured pawn from the capture square, put the mover on the
empty destination. -/
theorem boardKey_move_ep (B : Board) (f t c : Nat) (P : Piece)
    (hf : f < 64) (ht : t < 64) (hc : c < 64)
    (hft : f ≠ t) (hfc : f ≠ c) (htc : t ≠ c)
    (hmf : B.pieceAt f ≠ noPiece) (hmc : B.pieceAt c ≠ noPiece)
    (hmt : B.pieceAt t = noPiece) (hP : P ≠ noPiece) :
    boardKey ((if B.pieceAt c ≠ noPiece
               then (B.removePiece f).removePiece c
               else B.removePiece f).putPiece t P) =
      boardKey B
        ^^^ zobrist.pieceKey (B.pieceAt f).color (B.pieceAt f).type f
        ^^^ zobrist.pieceKey (B.pieceAt c).color (B.pieceAt c).type c
        ^^^ zobrist.pieceKey P.color P.type t := by
  rw [if_pos hmc]
  have hb1 := boardKey_remove B f hf hmf
  have hkeepc : (B.removePiece f).pieceAt c = B.pieceAt c := by
    unfold Board.pieceAt
    rw [removePiece_mailbox, if_neg (fun hcon => hfc hcon.symm)]
  have hb2 := boardKey_remove (B.removePiece f) c hc (by rw [hkeepc]; exact hmc)
  rw [hkeepc] at hb2
  have hkeept : ((B.removePiece f).removePiece c).pieceAt t = noPiece := by
    unfold Board.pieceAt
    rw [removePiece_mailbox, if_neg htc, removePiece_mailbox,
      if_neg (fun hcon => hft hcon.symm)]
    exact hmt
  have hb3 := boardKey_put ((B.removePiece f).removePiece c) t P ht hkeept hP
  rw [hb3, hb2, hb1]

/-- The board key after the castling board update: king from f to the empty
t, rook from its corner to the empty transit square. -/
theorem boardKey_move_castle (B : Board) (f t rf rt : Nat)
    (hf : f < 64) (ht : t < 64) (hrf : rf < 64) (hrt : rt < 64)
    (hft : f ≠ t) (hfrf : f ≠ rf) (hfrt : f ≠ rt)
    (htrf : t ≠ rf) (htrt : t ≠ rt) (hrfrt : rf ≠ rt)
    (hmf : B.pieceAt f ≠ noPiece) (hmrf : B.pieceAt rf ≠ noPiece)
    (hmt : B.pieceAt t = noPiece) (hmrt : B.pieceAt rt = noPiece) :
    boardKey ((((B.removePiece f).putPiece t (B.pieceAt f)).removePiece rf).putPiece rt
        (((B.removePiece f).putPiece t (B.pieceAt f)).pieceAt rf)) =
      boardKey B
        ^^^ zobrist.pieceKey (B.pieceAt f).color (B.pieceAt f).type f
        ^^^ zobrist.pieceKey (B.pieceAt f).color (B.pieceAt f).type t
        ^^^ zobrist.pieceKey (B.pieceAt rf).color (B.pieceAt rf).type rf
        ^^^ zobrist.pieceKey (B.pieceAt rf).color (B.pieceAt rf).type rt := by
  have hb1 := boardKey_remove B f hf hmf
  have hkt : (B.removePiece f).pieceAt t = noPiece := by
    unfold Board.pieceAt
    rw [removePiece_mailbox, if_neg (fun hcon => hft hcon.symm)]
    exact hmt
  have hb2 := boardKey_put (B.removePiece f) t (B.pieceAt f) ht hkt hmf
  have hrook : ((B.removePiece f).putPiece t (B.pieceAt f)).pieceAt rf = B.pieceAt rf := by
    unfold Board.pieceAt
    rw [putPiece_mailbox, if_neg (fun hcon => htrf hcon.symm), removePiece_mailbox,
      if_neg (fun hcon => hfrf hcon.symm)]
  have hb3 := boardKey_remove ((B.removePiece f).putPiece t (B.pieceAt f)) rf hrf
    (by rw [hrook]; exact hmrf)
  rw [hrook] at hb3
  have hkrt : (((B.removePiece f).putPiece t (B.pieceAt f)).removePiece rf).pieceAt rt =
      noPiece := by
    unfold Board.pieceAt
    rw [removePiece_mailbox, if_neg (fun hcon => hrfrt hcon.symm), putPiece_mailbox,
      if_neg (fun hcon => htrt hcon.symm), removePiece_mailbox,
      if_neg (fun hcon => hfrt hcon.symm)]
    exact hmrt
  have hb4 := boardKey_put (((B.removePiece f).putPiece t (B.pieceAt f)).removePiece rf) rt
    (B.pieceAt rf) hrt hkrt hmrf
  rw [hrook, hb4, hb3, hb2, hb1]



set_option linter.unreachableTactic false in
set_option linter.unusedTactic false in
/-- The key after an en-passant make_move: the captured pawn key is toggled
at the square behind the destination, and the new en-passant square is
cleared. -/
theorem makeMove_key_ep (pos : Position) (f t : Nat) (pr : PieceType) :
    (pos.makeMove ⟨f, t, .enPassant, pr⟩).key =
      pos.key
        ^^^ zobrist.pieceKey (pos.board.pieceAt f).color (pos.board.pieceAt f).type f
        ^^^ (if pos.board.pieceAt (mkSquare (fileOf t) (rankOf f)) ≠ noPiece
             then zobrist.pieceKey (pos.board.pieceAt (mkSquare (fileOf t) (rankOf f))).color
               (pos.board.pieceAt (mkSquare (fileOf t) (rankOf f))).type
               (mkSquare (fileOf t) (rankOf f))
             else 0)
        ^^^ zobrist.pieceKey (pos.board.pieceAt f).color (pos.board.pieceAt f).type t
        ^^^ (if pos.enPassant ≠ noSquare then zobrist.enPassantKey pos.enPassant else 0)
        ^^^ zobrist.castlingKey pos.castling
        ^^^ zobrist.castlingKey (pos.castling &&& castleMask f &&& castleMask t)
        ^^^ zobrist.sideToMoveKey := by
  simp only [Position.makeMove, reduceIte, reduceCtorEq, ne_eq, not_true, not_false_iff,
    false_and, setCastling_key, setCastling_castling, setEnPassant_key,
    setEnPassant_enPassant, setEnPassant_castling, ite_xor, Nat.xor_zero]
  try simp only [Nat.xor_assoc]

set_option linter.unreachableTactic false in
set_option linter.unusedTactic false in
/-- The key after a kingside-castling make_move: king and rook keys toggled
off their origins and onto their destinations. -/
theorem makeMove_key_castleK (pos : Position) (f t : Nat) (pr : PieceType) :
    (pos.makeMove ⟨f, t, .castleKingside, pr⟩).key =
      pos.key
        ^^^ zobrist.pieceKey (pos.board.pieceAt f).color (pos.board.pieceAt f).type f
        ^^^ (if pos.board.pieceAt t ≠ noPiece
             then zobrist.pieceKey (pos.board.pieceAt t).color (pos.board.pieceAt t).type t
             else 0)
        ^^^ zobrist.pieceKey (pos.board.pieceAt f).color (pos.board.pieceAt f).type t
        ^^^ zobrist.pieceKey
          (((if pos.board.pieceAt t ≠ noPiece
             then (pos.board.removePiece f).removePiece t
             else pos.board.removePiece f).putPiece t
              (pos.board.pieceAt f)).pieceAt (mkSquare 7 (rankOf f))).color
          (((if pos.board.pieceAt t ≠ noPiece
             then (pos.board.removePiece f).removePiece t
             else pos.board.removePiece f).putPiece t
              (pos.board.pieceAt f)).pieceAt (mkSquare 7 (rankOf f))).type
          (mkSquare 7 (rankOf f))
        ^^^ zobrist.pieceKey
          (((if pos.board.pieceAt t ≠ noPiece
             then (pos.board.removePiece f).removePiece t
             else pos.board.removePiece f).putPiece t
              (pos.board.pieceAt f)).pieceAt (mkSquare 7 (rankOf f))).color
          (((if pos.board.pieceAt t ≠ noPiece
             then (pos.board.removePiece f).removePiece t
             else pos.board.removePiece f).putPiece t
              (pos.board.pieceAt f)).pieceAt (mkSquare 7 (rankOf f))).type
          (mkSquare 5 (rankOf f))
        ^^^ (if pos.enPassant ≠ noSquare then zobrist.enPassantKey pos.enPassant else 0)
        ^^^ zobrist.castlingKey pos.castling
        ^^^ zobrist.castlingKey (pos.castling &&& castleMask f &&& castleMask t)
        ^^^ zobrist.sideToMoveKey := by
  simp only [Position.makeMove, reduceIte, reduceCtorEq, ne_eq, not_true, not_false_iff,
    false_and, setCastling_key, setCastling_castling, setEnPassant_key,
    setEnPassant_enPassant, setEnPassant_castling, ite_xor, Nat.xor_zero]
  try simp only [Nat.xor_assoc]

set_option linter.unreachableTactic false in
set_option linter.unusedTactic false in
/-- The key after a queenside-castling make_move. -/
theorem makeMove_key_castleQ (pos : Position) (f t : Nat) (pr : PieceType) :
    (pos.makeMove ⟨f, t, .castleQueenside, pr⟩).key =
      pos.key
        ^^^ zobrist.pieceKey (pos.board.pieceAt f).color (pos.board.pieceAt f).type f
        ^^^ (if pos.board.pieceAt t ≠ noPiece
             then zobrist.pieceKey (pos.board.pieceAt t).color (pos.board.pieceAt t).type t
             else 0)
        ^^^ zobrist.pieceKey (pos.board.pieceAt f).color (pos.board.pieceAt f).type t
        ^^^ zobrist.pieceKey
          (((if pos.board.pieceAt t ≠ noPiece
             then (pos.board.removePiece f).removePiece t
             else pos.board.removePiece f).putPiece t
              (pos.board.pieceAt f)).pieceAt (mkSquare 0 (rankOf f))).color
          (((if pos.board.pieceAt t ≠ noPiece
             then (pos.board.removePiece f).removePiece t
             else pos.board.removePiece f).putPiece t
              (pos.board.pieceAt f)).pieceAt (mkSquare 0 (rankOf f))).type
          (mkSquare 0 (rankOf f))
        ^^^ zobrist.pieceKey
          (((if pos.board.pieceAt t ≠ noPiece
             then (pos.board.removePiece f).removePiece t
             else pos.board.removePiece f).putPiece t
              (pos.board.pieceAt f)).pieceAt (mkSquare 0 (rankOf f))).color
          (((if pos.board.pieceAt t ≠ noPiece
             then (pos.board.removePiece f).removePiece t
             else pos.board.removePiece f).putPiece t
              (pos.board.pieceAt f)).pieceAt (mkSquare 0 (rankOf f))).type
          (mkSquare 3 (rankOf f))
        ^^^ (if pos.enPassant ≠ noSquare then zobrist.enPassantKey pos.enPassant else 0)
        ^^^ zobrist.castlingKey pos.castling
        ^^^ zobrist.castlingKey (pos.castling &&& castleMask f &&& castleMask t)
        ^^^ zobrist.sideToMoveKey := by
  simp only [Position.makeMove, reduceIte, reduceCtorEq, ne_eq, not_true, not_false_iff,
    false_and, setCastling_key, setCastling_castling, setEnPassant_key,
    setEnPassant_enPassant, setEnPassant_castling, ite_xor, Nat.xor_zero]
  try simp only [Nat.xor_assoc]


theorem side_toggle (c : Color) :
    (if c.opposite = Color.black then zobrist.sideToMoveKey else 0) =
      (if c = Color.black then zobrist.sideToMoveKey else 0) ^^^ zobrist.sideToMoveKey := by
  cases c <;> simp [Color.opposite, Nat.xor_self]

theorem makeKey_scratch_basic (pos : Position)
    (hkey : pos.key = computeKeyValue pos.board pos.sideToMove pos.castling pos.enPassant)
    {f t : Nat} {fl : MoveFlag} {pr : PieceType}
    (hfl1 : fl ≠ .enPassant) (hfl2 : fl ≠ .castleKingside) (hfl3 : fl ≠ .castleQueenside)
    (hf : f < 64) (ht : t < 64) (hft : f ≠ t)
    (hPne : pos.board.pieceAt f ≠ noPiece) :
    (pos.makeMove ⟨f, t, fl, pr⟩).key =
      computeKeyValue (pos.makeMove ⟨f, t, fl, pr⟩).board
        (pos.makeMove ⟨f, t, fl, pr⟩).sideToMove
        (pos.makeMove ⟨f, t, fl, pr⟩).castling
        (pos.makeMove ⟨f, t, fl, pr⟩).enPassant := by
  obtain ⟨hside, -, -, -⟩ := makeMove_proj pos ⟨f, t, fl, pr⟩
  have hcr : (pos.makeMove ⟨f, t, fl, pr⟩).castling =
      pos.castling &&& castleMask f &&& castleMask t := makeMove_castling pos ⟨f, t, fl, pr⟩
  have hep : (pos.makeMove ⟨f, t, fl, pr⟩).enPassant =
      (if fl = .doublePawn then mkSquare (fileOf f) ((rankOf f + rankOf t) / 2)
       else noSquare) := makeMove_enPassant pos ⟨f, t, fl, pr⟩
  have hb := makeMove_board_basic pos f t fl pr hfl1 hfl2 hfl3
  have hk := makeMove_key_basic pos f t fl pr hfl1 hfl2 hfl3
  have hPlaced : (if fl = .promotion ∧ pr ≠ .none
      then (⟨(pos.board.pieceAt f).color, pr⟩ : Piece)
      else pos.board.pieceAt f) ≠ noPiece := by
    split
    next hpp => exact fun hcon => hpp.2 (congrArg (fun p : Piece => p.type) hcon)
    next => exact hPne
  have hBK := boardKey_move pos.board f t _ hf ht hft hPne hPlaced
  have hKP : zobrist.pieceKey
      (if fl = .promotion ∧ pr ≠ .none
       then (⟨(pos.board.pieceAt f).color, pr⟩ : Piece)
       else pos.board.pieceAt f).color
      (if fl = .promotion ∧ pr ≠ .none
       then (⟨(pos.board.pieceAt f).color, pr⟩ : Piece)
       else pos.board.pieceAt f).type t =
      (if fl = .promotion ∧ pr ≠ .none
       then zobrist.pieceKey (pos.board.pieceAt f).color pr t
       else zobrist.pieceKey (pos.board.pieceAt f).color (pos.board.pieceAt f).type t) := by
    split <;> rfl
  have hkeyS : pos.key =
      (zobrist.castlingKey pos.castling
        ^^^ (if pos.sideToMove = Color.black then zobrist.sideToMoveKey else 0)
        ^^^ (if pos.enPassant ≠ noSquare then zobrist.enPassantKey pos.enPassant else 0))
        ^^^ boardKey pos.board :=
    hkey.trans (computeKeyValue_split pos.board pos.sideToMove pos.castling pos.enPassant)
  rw [computeKeyValue_split, hside, hcr, hep, hb, hBK, hKP, hk, hkeyS, side_toggle]
  simp only [Nat.xor_assoc, Nat.xor_comm, xor_left_comm, xor_cancel_left, Nat.xor_self,
    Nat.xor_zero, Nat.zero_xor]



theorem makeKey_scratch_ep (pos : Position)
    (hkey : pos.key = computeKeyValue pos.board pos.sideToMove pos.castling pos.enPassant)
    {f t : Nat} {pr : PieceType}
    (hf : f < 64) (ht : t < 64) (hc : mkSquare (fileOf t) (rankOf f) < 64)
    (hft : f ≠ t) (hfc : f ≠ mkSquare (fileOf t) (rankOf f))
    (htc : t ≠ mkSquare (fileOf t) (rankOf f))
    (hPne : pos.board.pieceAt f ≠ noPiece)
    (hmc : pos.board.pieceAt (mkSquare (fileOf t) (rankOf f)) ≠ noPiece)
    (hmt : pos.board.pieceAt t = noPiece) :
    (pos.makeMove ⟨f, t, .enPassant, pr⟩).key =
      computeKeyValue (pos.makeMove ⟨f, t, .enPassant, pr⟩).board
        (pos.makeMove ⟨f, t, .enPassant, pr⟩).sideToMove
        (pos.makeMove ⟨f, t, .enPassant, pr⟩).castling
        (pos.makeMove ⟨f, t, .enPassant, pr⟩).enPassant := by
  obtain ⟨hside, -, -, -⟩ := makeMove_proj pos ⟨f, t, .enPassant, pr⟩
  have hcr : (pos.makeMove ⟨f, t, .enPassant, pr⟩).castling =
      pos.castling &&& castleMask f &&& castleMask t :=
    makeMove_castling pos ⟨f, t, .enPassant, pr⟩
  have hep : (pos.makeMove ⟨f, t, .enPassant, pr⟩).enPassant = noSquare :=
    makeMove_enPassant pos ⟨f, t, .enPassant, pr⟩
  have hb := makeMove_board_ep pos f t pr
  have hk := makeMove_key_ep pos f t pr
  have hBK := boardKey_move_ep pos.board f t (mkSquare (fileOf t) (rankOf f))
    (pos.board.pieceAt f) hf ht hc hft hfc htc hPne hmc hmt hPne
  have hkeyS : pos.key =
      (zobrist.castlingKey pos.castling
        ^^^ (if pos.sideToMove = Color.black then zobrist.sideToMoveKey else 0)
        ^^^ (if pos.enPassant ≠ noSquare then zobrist.enPassantKey pos.enPassant else 0))
        ^^^ boardKey pos.board :=
    hkey.trans (computeKeyValue_split pos.board pos.sideToMove pos.castling pos.enPassant)
  rw [computeKeyValue_split, hside, hcr, hep, hb, hBK, hk,
    if_pos hmc, hkeyS, side_toggle,
    if_neg (show ¬noSquare ≠ noSquare from fun hcon => hcon rfl)]
  simp only [Nat.xor_assoc, Nat.xor_comm, xor_left_comm, xor_cancel_left, Nat.xor_self,
    Nat.xor_zero, Nat.zero_xor]

theorem makeKey_scratch_castleK (pos : Position)
    (hkey : pos.key = computeKeyValue pos.board pos.sideToMove pos.castling pos.enPassant)
    {f t : Nat} {pr : PieceType}
    (hf : f < 64) (ht : t < 64) (hrf : mkSquare 7 (rankOf f) < 64)
    (hrt : mkSquare 5 (rankOf f) < 64)
    (hft : f ≠ t) (hfrf : f ≠ mkSquare 7 (rankOf f)) (hfrt : f ≠ mkSquare 5 (rankOf f))
    (htrf : t ≠ mkSquare 7 (rankOf f)) (htrt : t ≠ mkSquare 5 (rankOf f))
    (hrfrt : mkSquare 7 (rankOf f) ≠ mkSquare 5 (rankOf f))
    (hKne : pos.board.pieceAt f ≠ noPiece)
    (hRne : pos.board.pieceAt (mkSquare 7 (rankOf f)) ≠ noPiece)
    (hmt : pos.board.pieceAt t = noPiece)
    (hmrt : pos.board.pieceAt (mkSquare 5 (rankOf f)) = noPiece) :
    (pos.makeMove ⟨f, t, .castleKingside, pr⟩).key =
      computeKeyValue (pos.makeMove ⟨f, t, .castleKingside, pr⟩).board
        (pos.makeMove ⟨f, t, .castleKingside, pr⟩).sideToMove
        (pos.makeMove ⟨f, t, .castleKingside, pr⟩).castling
        (pos.makeMove ⟨f, t, .castleKingside, pr⟩).enPassant := by
  obtain ⟨hside, -, -, -⟩ := makeMove_proj pos ⟨f, t, .castleKingside, pr⟩
  have hcr : (pos.makeMove ⟨f, t, .castleKingside, pr⟩).castling =
      pos.castling &&& castleMask f &&& castleMask t :=
    makeMove_castling pos ⟨f, t, .castleKingside, pr⟩
  have hep : (pos.makeMove ⟨f, t, .castleKingside, pr⟩).enPassant = noSquare :=
    makeMove_enPassant pos ⟨f, t, .castleKingside, pr⟩
  have hcapn : ¬(pos.board.pieceAt t ≠ noPiece) := fun hcon => hcon hmt
  have hb := makeMove_board_castleK pos f t pr
  have hk := makeMove_key_castleK pos f t pr
  simp only [if_neg hcapn] at hb hk
  have hrook : ((pos.board.removePiece f).putPiece t (pos.board.pieceAt f)).pieceAt
      (mkSquare 7 (rankOf f)) = pos.board.pieceAt (mkSquare 7 (rankOf f)) := by
    unfold Board.pieceAt
    rw [putPiece_mailbox, if_neg (fun hcon => htrf hcon.symm), removePiece_mailbox,
      if_neg (fun hcon => hfrf hcon.symm)]
  rw [hrook] at hb hk
  have hBK := boardKey_move_castle pos.board f t (mkSquare 7 (rankOf f))
    (mkSquare 5 (rankOf f)) hf ht hrf hrt hft hfrf hfrt htrf htrt hrfrt hKne hRne hmt hmrt
  rw [hrook] at hBK
  have hkeyS : pos.key =
      (zobrist.castlingKey pos.castling
        ^^^ (if pos.sideToMove = Color.black then zobrist.sideToMoveKey else 0)
        ^^^ (if pos.enPassant ≠ noSquare then zobrist.enPassantKey pos.enPassant else 0))
        ^^^ boardKey pos.board :=
    hkey.trans (computeKeyValue_split pos.board pos.sideToMove pos.castling pos.enPassant)
  rw [computeKeyValue_split, hside, hcr, hep, hb, hBK, hk, hkeyS, side_toggle,
    if_neg (show ¬noSquare ≠ noSquare from fun hcon => hcon rfl)]
  simp only [Nat.xor_assoc, Nat.xor_comm, xor_left_comm, xor_cancel_left, Nat.xor_self,
    Nat.xor_zero, Nat.zero_xor]

theorem makeKey_scratch_castleQ (pos : Position)
    (hkey : pos.key = computeKeyValue pos.board pos.sideToMove pos.castling pos.enPassant)
    {f t : Nat} {pr : PieceType}
    (hf : f < 64) (ht : t < 64) (hrf : mkSquare 0 (rankOf f) < 64)
    (hrt : mkSquare 3 (rankOf f) < 64)
    (hft : f ≠ t) (hfrf : f ≠ mkSquare 0 (rankOf f)) (hfrt : f ≠ mkSquare 3 (rankOf f))
    (htrf : t ≠ mkSquare 0 (rankOf f)) (htrt : t ≠ mkSquare 3 (rankOf f))
    (hrfrt : mkSquare 0 (rankOf f) ≠ mkSquare 3 (rankOf f))
    (hKne : pos.board.pieceAt f ≠ noPiece)
    (hRne : pos.board.pieceAt (mkSquare 0 (rankOf f)) ≠ noPiece)
    (hmt : pos.board.pieceAt t = noPiece)
    (hmrt : pos.board.pieceAt (mkSquare 3 (rankOf f)) = noPiece) :
    (pos.makeMove ⟨f, t, .castleQueenside, pr⟩).key =
      computeKeyValue (pos.makeMove ⟨f, t, .castleQueenside, pr⟩).board
        (pos.makeMove ⟨f, t, .castleQueenside, pr⟩).sideToMove
        (pos.makeMove ⟨f, t, .castleQueenside, pr⟩).castling
        (pos.makeMove ⟨f, t, .castleQueenside, pr⟩).enPassant := by
  obtain ⟨hside, -, -, -⟩ := makeMove_proj pos ⟨f, t, .castleQueenside, pr⟩
  have hcr : (pos.makeMove ⟨f, t, .castleQueenside, pr⟩).castling =
      pos.castling &&& castleMask f &&& castleMask t :=
    makeMove_castling pos ⟨f, t, .castleQueenside, pr⟩
  have hep : (pos.makeMove ⟨f, t, .castleQueenside, pr⟩).enPassant = noSquare :=
    makeMove_enPassant pos ⟨f, t, .castleQueenside, pr⟩
  have hcapn : ¬(pos.board.pieceAt t ≠ noPiece) := fun hcon => hcon hmt
  have hb := makeMove_board_castleQ pos f t pr
  have hk := makeMove_key_castleQ pos f t pr
  simp only [if_neg hcapn] at hb hk
  have hrook : ((pos.board.removePiece f).putPiece t (pos.board.pieceAt f)).pieceAt
      (mkSquare 0 (rankOf f)) = pos.board.pieceAt (mkSquare 0 (rankOf f)) := by
    unfold Board.pieceAt
    rw [putPiece_mailbox, if_neg (fun hcon => htrf hcon.symm), removePiece_mailbox,
      if_neg (fun hcon => hfrf hcon.symm)]
  rw [hrook] at hb hk
  have hBK := boardKey_move_castle pos.board f t (mkSquare 0 (rankOf f))
    (mkSquare 3 (rankOf f)) hf ht hrf hrt hft hfrf hfrt htrf htrt hrfrt hKne hRne hmt hmrt
  rw [hrook] at hBK
  have hkeyS : pos.key =
      (zobrist.castlingKey pos.castling
        ^^^ (if pos.sideToMove = Color.black then zobrist.sideToMoveKey else 0)
        ^^^ (if pos.enPassant ≠ noSquare then zobrist.enPassantKey pos.enPassant else 0))
        ^^^ boardKey pos.board :=
    hkey.trans (computeKeyValue_split pos.board pos.sideToMove pos.castling pos.enPassant)
  rw [computeKeyValue_split, hside, hcr, hep, hb, hBK, hk, hkeyS, side_toggle,
    if_neg (show ¬noSquare ≠ noSquare from fun hcon => hcon rfl)]
  simp only [Nat.xor_assoc, Nat.xor_comm, xor_left_comm, xor_cancel_left, Nat.xor_self,
    Nat.xor_zero, Nat.zero_xor]


theorem clearBitBB_zero (sq : Nat) : clearBitBB 0 sq = 0 := by
  unfold clearBitBB
  exact Nat.zero_and _

theorem testBit_clear_self (b : Nat) {sq : Nat} (hsq : sq < 64) :
    (clearBitBB b sq).testBit sq = false := by
  rw [testBit_clearBitBB _ hsq]
  simp

theorem testBit_clear_other (b : Nat) {sq x : Nat} (hsq : sq < 64) (hx : x < 64)
    (hne : x ≠ sq) : (clearBitBB b sq).testBit x = b.testBit x := by
  rw [testBit_clearBitBB _ hsq]
  simp [hne, hx]

theorem testBit_set_self (b : Nat) {sq : Nat} (hsq : sq < 64) :
    (setBitBB b sq).testBit sq = true := by
  rw [testBit_setBitBB _ hsq]
  simp

theorem testBit_set_other (b : Nat) {sq x : Nat} (hsq : sq < 64) (hne : x ≠ sq) :
    (setBitBB b sq).testBit x = b.testBit x := by
  rw [testBit_setBitBB _ hsq]
  simp [hne]

/-- remove_piece preserves board coherence (also on an empty square, where
it clears already-clear bits and rewrites an already-blank mailbox slot). -/
theorem removePiece_WF {b : Board} (hWF : BoardWF b) (sq : Nat) (hsq : sq < 64) :
    BoardWF (b.removePiece sq) := by
  refine ⟨?_, ?_, ?_, ?_, ?_, ?_, ?_, ?_⟩
  · intro c ty
    rw [removePiece_pieces]
    split
    · exact clearBitBB_lt _ (hWF.piecesLt _ _)
    · exact hWF.piecesLt _ _
  · intro c
    rw [removePiece_occupied]
    split
    · exact clearBitBB_lt _ (hWF.occLt _)
    · exact hWF.occLt _
  · rw [removePiece_occupiedAll]
    exact clearBitBB_lt _ hWF.allLt
  · intro c
    rw [removePiece_pieces]
    split
    next hk =>
      rw [← hk, hWF.noneSlot c]
      exact clearBitBB_zero sq
    next => exact hWF.noneSlot c
  · intro x hx
    rw [removePiece_mailbox]
    split
    · intro _
      rfl
    · exact hWF.mailboxNone x hx
  · intro c ty hty x hx
    rw [removePiece_pieces, removePiece_mailbox]
    by_cases hxsq : x = sq
    · subst hxsq
      rw [if_pos rfl]
      refine iff_of_false ?_ ?_
      · intro hbit
        revert hbit
        split
        next hk =>
          rw [testBit_clear_self _ hsq]
          exact fun hcon => nomatch hcon
        next hk =>
          intro hbit
          have h2 := (hWF.piecesBit c ty hty x hx).mp hbit
          exact hk (by rw [h2])
      · intro hcon
        exact hty (congrArg (fun q : Piece => q.type) hcon).symm
    · rw [if_neg hxsq]
      split
      next hk =>
        rw [← hk, testBit_clear_other _ hsq hx hxsq]
        exact hWF.piecesBit c ty hty x hx
      next =>
        exact hWF.piecesBit c ty hty x hx
  · intro c x hx
    rw [removePiece_occupied, removePiece_mailbox]
    by_cases hxsq : x = sq
    · subst hxsq
      rw [if_pos rfl]
      refine iff_of_false ?_ ?_
      · intro hbit
        revert hbit
        split
        next hk =>
          rw [testBit_clear_self _ hsq]
          exact fun hcon => nomatch hcon
        next hk =>
          intro hbit
          have h2 := (hWF.occBit c x hx).mp hbit
          exact hk h2.2.symm
      · intro hcon
        exact hcon.1 rfl
    · rw [if_neg hxsq]
      split
      next hk =>
        rw [← hk, testBit_clear_other _ hsq hx hxsq]
        exact hWF.occBit c x hx
      next =>
        exact hWF.occBit c x hx
  · intro x hx
    rw [removePiece_occupiedAll, removePiece_mailbox]
    by_cases hxsq : x = sq
    · subst hxsq
      rw [if_pos rfl, testBit_clear_self _ hsq]
      refine iff_of_false (fun hcon => nomatch hcon) (fun hcon => hcon rfl)
    · rw [if_neg hxsq, testBit_clear_other _ hsq hx hxsq]
      exact hWF.allBit x hx

/-- put_piece of a real piece onto an empty square preserves board
coherence. -/
theorem putPiece_WF {b : Board} (hWF : BoardWF b) (sq : Nat) (p : Piece) (hsq : sq < 64)
    (hty : p.type ≠ .none) (hemp : b.mailbox sq = noPiece) :
    BoardWF (b.putPiece sq p) := by
  have hpne : p ≠ noPiece := fun hcon => hty (congrArg (fun q : Piece => q.type) hcon)
  refine ⟨?_, ?_, ?_, ?_, ?_, ?_, ?_, ?_⟩
  · intro c ty
    rw [putPiece_pieces]
    split
    · exact setBitBB_lt _ (hWF.piecesLt _ _)
    · exact hWF.piecesLt _ _
  · intro c
    rw [putPiece_occupied]
    split
    · exact setBitBB_lt _ (hWF.occLt _)
    · exact hWF.occLt _
  · rw [putPiece_occupiedAll]
    exact setBitBB_lt _ hWF.allLt
  · intro c
    rw [putPiece_pieces]
    split
    next hk =>
      exact absurd (congrArg (fun q : Color × PieceType => q.2) hk).symm hty
    next => exact hWF.noneSlot c
  · intro x hx
    rw [putPiece_mailbox]
    split
    · intro hcon
      exact absurd hcon hty
    · exact hWF.mailboxNone x hx
  · intro c ty hty' x hx
    rw [putPiece_pieces, putPiece_mailbox]
    by_cases hxsq : x = sq
    · subst hxsq
      rw [if_pos rfl]
      split
      next hk =>
        rw [Prod.mk.injEq] at hk
        obtain ⟨hc1, hc2⟩ := hk
        subst hc1
        subst hc2
        rw [testBit_set_self _ hsq]
        exact iff_of_true rfl rfl
      next hk =>
        refine iff_of_false ?_ ?_
        · intro hbit
          have h2 := (hWF.piecesBit c ty hty' x hx).mp hbit
          rw [hemp] at h2
          exact hty' (congrArg (fun q : Piece => q.type) h2).symm
        · intro hcon
          exact hk (by rw [hcon])
    · rw [if_neg hxsq]
      split
      next hk =>
        rw [← hk, testBit_set_other _ hsq hxsq]
        exact hWF.piecesBit c ty hty' x hx
      next =>
        exact hWF.piecesBit c ty hty' x hx
  · intro c x hx
    rw [putPiece_occupied, putPiece_mailbox]
    by_cases hxsq : x = sq
    · subst hxsq
      rw [if_pos rfl]
      split
      next hk =>
        subst hk
        rw [testBit_set_self _ hsq]
        exact iff_of_true rfl ⟨hpne, rfl⟩
      next hk =>
        refine iff_of_false ?_ ?_
        · intro hbit
          have h2 := (hWF.occBit c x hx).mp hbit
          exact h2.1 hemp
        · intro hcon
          exact hk hcon.2.symm
    · rw [if_neg hxsq]
      split
      next hk =>
        rw [← hk, testBit_set_other _ hsq hxsq]
        exact hWF.occBit c x hx
      next =>
        exact hWF.occBit c x hx
  · intro x hx
    rw [putPiece_occupiedAll, putPiece_mailbox]
    by_cases hxsq : x = sq
    · subst hxsq
      rw [if_pos rfl, testBit_set_self _ hsq]
      exact iff_of_true rfl hpne
    · rw [if_neg hxsq, testBit_set_other _ hsq hxsq]
      exact hWF.allBit x hx


set_option maxRecDepth 4000 in
set_option maxHeartbeats 1600000 in
/-- Every position from_fen returns carries the scratch key of compute_key
(the constructor ends with compute_key). -/
theorem fromFen_key {s : List Char} {pos : Position} (h : fromFen s = .ok pos) :
    pos.key = computeKeyValue pos.board pos.sideToMove pos.castling pos.enPassant := by
  by_cases hlen : (splitSpaces s).length < 4 ∨ 6 < (splitSpaces s).length
  · simp only [fromFen, hlen, if_true] at h
    exact nomatch h
  · simp only [fromFen, hlen, if_false, bind, Except.bind, pure, Except.pure] at h
    repeat' (split at h)
    all_goals (cases h <;> try rfl)


theorem makeKey_piece_seg (pos : Position) (hB : BoardWF pos.board)
    (hkey : pos.key = computeKeyValue pos.board pos.sideToMove pos.castling pos.enPassant)
    (pt : PieceType) (hpt : pt ≠ .none) {f t : Nat} {fl : MoveFlag} {pr : PieceType}
    (hm : (⟨f, t, fl, pr⟩ : Move) ∈ genPieceMoves pos pt) :
    (pos.makeMove ⟨f, t, fl, pr⟩).key =
      computeKeyValue (pos.makeMove ⟨f, t, fl, pr⟩).board
        (pos.makeMove ⟨f, t, fl, pr⟩).sideToMove
        (pos.makeMove ⟨f, t, fl, pr⟩).castling
        (pos.makeMove ⟨f, t, fl, pr⟩).enPassant := by
  obtain ⟨hpb, hf, ht, hct, rfl, rfl⟩ := genPieceMoves_facts pos pt hm
  have hmf : pos.board.mailbox f = ⟨pos.sideToMove, pt⟩ :=
    (hB.piecesBit pos.sideToMove pt hpt f hf).mp hpb
  have hmfne : pos.board.mailbox f ≠ noPiece := by
    rw [hmf]
    intro hc
    exact hpt (congrArg (fun p : Piece => p.type) hc)
  have hocct : (pos.board.occupied pos.sideToMove).testBit t = false :=
    (testBit_compl64 (hB.occLt _) hct).2
  have hft : f ≠ t := by
    intro h
    have hocf : (pos.board.occupied pos.sideToMove).testBit f = true :=
      (hB.occBit pos.sideToMove f hf).mpr ⟨hmfne, by rw [hmf]⟩
    rw [h, hocct] at hocf
    exact nomatch hocf
  exact makeKey_scratch_basic pos hkey (fun h => nomatch h) (fun h => nomatch h)
    (fun h => nomatch h) hf ht hft hmfne

theorem makeKey_scratch_step (pos : Position) (hWF : PosWF pos)
    (hkey : pos.key = computeKeyValue pos.board pos.sideToMove pos.castling pos.enPassant)
    (m : Move) (hm : m ∈ pseudoLegal pos) :
    (pos.makeMove m).key =
      computeKeyValue (pos.makeMove m).board (pos.makeMove m).sideToMove
        (pos.makeMove m).castling (pos.makeMove m).enPassant := by
  obtain ⟨f, t, fl, pr⟩ := m
  have hB := hWF.board
  simp only [pseudoLegal, List.mem_append] at hm
  rcases hm with ((((((hmp | hmn) | hmb) | hmr) | hmq) | hmk) | hmc)
  · -- pawn moves
    obtain ⟨hpb, hf, ht, hft, hcase⟩ := genPawnMoves_facts pos (hB.piecesLt _ _) hmp
    have hmf : pos.board.mailbox f = ⟨pos.sideToMove, .pawn⟩ :=
      (hB.piecesBit pos.sideToMove .pawn (fun h => nomatch h) f hf).mp hpb
    have hmfne : pos.board.mailbox f ≠ noPiece := by
      rw [hmf]
      intro hc
      exact nomatch (congrArg (fun p : Piece => p.type) hc)
    rcases hcase with ⟨hfl, -⟩ | ⟨hfl, -, -, -⟩ | ⟨hfl, hte, hepne, hwdir, hbdir⟩
    · rcases hfl with rfl | rfl
      · exact makeKey_scratch_basic pos hkey (fun h => nomatch h) (fun h => nomatch h)
          (fun h => nomatch h) hf ht hft hmfne
      · exact makeKey_scratch_basic pos hkey (fun h => nomatch h) (fun h => nomatch h)
          (fun h => nomatch h) hf ht hft hmfne
    · subst hfl
      exact makeKey_scratch_basic pos hkey (fun h => nomatch h) (fun h => nomatch h)
        (fun h => nomatch h) hf ht hft hmfne
    · subst hfl
      rcases hus : pos.sideToMove with _ | _
      · obtain ⟨hrk, hmte, hcp⟩ := (hWF.epOK hepne).1 hus
        rw [← hte] at hrk hmte hcp
        have hdir := hwdir hus
        have hcsq : mkSquare (fileOf t) (rankOf f) = mkSquare (fileOf t) 4 := by
          have hr4 : rankOf f = 4 := by
            unfold rankOf at hrk ⊢
            rcases hdir with ⟨hfe, h7, hm0⟩ | ⟨hfe, h9, hm7⟩ <;> omega
          rw [hr4]
        refine makeKey_scratch_ep pos hkey hf ht ?_ hft ?_ ?_ hmfne ?_ hmte
        · unfold mkSquare fileOf rankOf
          omega
        · rw [hcsq]
          unfold mkSquare fileOf
          unfold rankOf at hrk
          rcases hdir with ⟨hfe, h7, hm0⟩ | ⟨hfe, h9, hm7⟩ <;> omega
        · rw [hcsq]
          unfold mkSquare fileOf
          unfold rankOf at hrk
          omega
        · rw [hcsq]
          show pos.board.mailbox (mkSquare (fileOf t) 4) ≠ noPiece
          rw [hcp]
          decide
      · obtain ⟨hrk, hmte, hcp⟩ := (hWF.epOK hepne).2 hus
        rw [← hte] at hrk hmte hcp
        have hdir := hbdir hus
        have hcsq : mkSquare (fileOf t) (rankOf f) = mkSquare (fileOf t) 3 := by
          have hr3 : rankOf f = 3 := by
            unfold rankOf at hrk ⊢
            rcases hdir with ⟨hfe, hm7⟩ | ⟨hfe, hm0⟩ <;> omega
          rw [hr3]
        refine makeKey_scratch_ep pos hkey hf ht ?_ hft ?_ ?_ hmfne ?_ hmte
        · unfold mkSquare fileOf rankOf
          omega
        · rw [hcsq]
          unfold mkSquare fileOf
          unfold rankOf at hrk
          rcases hdir with ⟨hfe, hm7⟩ | ⟨hfe, hm0⟩ <;> omega
        · rw [hcsq]
          unfold mkSquare fileOf
          unfold rankOf at hrk
          omega
        · rw [hcsq]
          show pos.board.mailbox (mkSquare (fileOf t) 3) ≠ noPiece
          rw [hcp]
          decide
  · exact makeKey_piece_seg pos hB hkey .knight (fun h => nomatch h) hmn
  · exact makeKey_piece_seg pos hB hkey .bishop (fun h => nomatch h) hmb
  · exact makeKey_piece_seg pos hB hkey .rook (fun h => nomatch h) hmr
  · exact makeKey_piece_seg pos hB hkey .queen (fun h => nomatch h) hmq
  · exact makeKey_piece_seg pos hB hkey .king (fun h => nomatch h) hmk
  · rw [mem_genCastling_iff] at hmc
    obtain ⟨-, hKQ⟩ := hmc
    rcases hus : pos.sideToMove with _ | _
    · simp only [hus, if_true, if_false, reduceCtorEq, reduceIte] at hKQ
      rcases hKQ with ⟨hright, hem5, hem6, -, -, heqm⟩ |
        ⟨hright, -, hem2, hem3, -, -, heqm⟩
      · have hWC := hWF.castleWK hright
        have hks : pos.board.kingSquare Color.white = 4 := by
          unfold Board.kingSquare
          rw [hWC.1]
          decide
        rw [Move.mk.injEq] at heqm
        obtain ⟨hfe, hte2, hfle, hpre⟩ := heqm
        subst hfle
        subst hpre
        have hf4 : f = 4 := by rw [hfe, hks]
        have ht6 : t = 6 := by rw [hte2]; decide
        subst hf4
        subst ht6
        have hm4 : pos.board.mailbox 4 = ⟨.white, .king⟩ :=
          (hB.piecesBit .white .king (fun h => nomatch h) 4 (by decide)).mp
            (by rw [hWC.1]; decide)
        rw [show mkSquare 6 0 = 6 by decide] at hem6
        rw [show mkSquare 5 0 = 5 by decide] at hem5
        have he6 : pos.board.mailbox 6 = noPiece := by
          refine hB.mailboxNone 6 (by decide) ?_
          unfold Board.isEmpty at hem6
          exact of_decide_eq_true hem6
        have he5 : pos.board.mailbox 5 = noPiece := by
          refine hB.mailboxNone 5 (by decide) ?_
          unfold Board.isEmpty at hem5
          exact of_decide_eq_true hem5
        refine makeKey_scratch_castleK pos hkey (by decide) (by decide) (by decide)
          (by decide) (by decide) (by decide) (by decide) (by decide) (by decide)
          (by decide) ?_ ?_ he6 ?_
        · rw [show (Board.pieceAt pos.board 4) = pos.board.mailbox 4 from rfl, hm4]
          decide
        · rw [show mkSquare 7 (rankOf 4) = 7 by decide]
          show pos.board.mailbox 7 ≠ noPiece
          rw [hWC.2]
          decide
        · rw [show mkSquare 5 (rankOf 4) = 5 by decide]
          exact he5
      · have hWC := hWF.castleWQ hright
        have hks : pos.board.kingSquare Color.white = 4 := by
          unfold Board.kingSquare
          rw [hWC.1]
          decide
        rw [Move.mk.injEq] at heqm
        obtain ⟨hfe, hte2, hfle, hpre⟩ := heqm
        subst hfle
        subst hpre
        have hf4 : f = 4 := by rw [hfe, hks]
        have ht2 : t = 2 := by rw [hte2]; decide
        subst hf4
        subst ht2
        have hm4 : pos.board.mailbox 4 = ⟨.white, .king⟩ :=
          (hB.piecesBit .white .king (fun h => nomatch h) 4 (by decide)).mp
            (by rw [hWC.1]; decide)
        rw [show mkSquare 2 0 = 2 by decide] at hem2
        rw [show mkSquare 3 0 = 3 by decide] at hem3
        have he2 : pos.board.mailbox 2 = noPiece := by
          refine hB.mailboxNone 2 (by decide) ?_
          unfold Board.isEmpty at hem2
          exact of_decide_eq_true hem2
        have he3 : pos.board.mailbox 3 = noPiece := by
          refine hB.mailboxNone 3 (by decide) ?_
          unfold Board.isEmpty at hem3
          exact of_decide_eq_true hem3
        refine makeKey_scratch_castleQ pos hkey (by decide) (by decide) (by decide)
          (by decide) (by decide) (by decide) (by decide) (by decide) (by decide)
          (by decide) ?_ ?_ he2 ?_
        · rw [show (Board.pieceAt pos.board 4) = pos.board.mailbox 4 from rfl, hm4]
          decide
        · rw [show mkSquare 0 (rankOf 4) = 0 by decide]
          show pos.board.mailbox 0 ≠ noPiece
          rw [hWC.2]
          decide
        · rw [show mkSquare 3 (rankOf 4) = 3 by decide]
          exact he3
    · simp only [hus, if_true, if_false, reduceCtorEq, reduceIte] at hKQ
      rcases hKQ with ⟨hright, hem5, hem6, -, -, heqm⟩ |
        ⟨hright, -, hem2, hem3, -, -, heqm⟩
      · have hWC := hWF.castleBK hright
        have hks : pos.board.kingSquare Color.black = 60 := by
          unfold Board.kingSquare
          rw [hWC.1]
          decide
        rw [Move.mk.injEq] at heqm
        obtain ⟨hfe, hte2, hfle, hpre⟩ := heqm
        subst hfle
        subst hpre
        have hf60 : f = 60 := by rw [hfe, hks]
        have ht62 : t = 62 := by rw [hte2]; decide
        subst hf60
        subst ht62
        have hm60 : pos.board.mailbox 60 = ⟨.black, .king⟩ :=
          (hB.piecesBit .black .king (fun h => nomatch h) 60 (by decide)).mp
            (by rw [hWC.1]; decide)
        rw [show mkSquare 6 7 = 62 by decide] at hem6
        rw [show mkSquare 5 7 = 61 by decide] at hem5
        have he62 : pos.board.mailbox 62 = noPiece := by
          refine hB.mailboxNone 62 (by decide) ?_
          unfold Board.isEmpty at hem6
          exact of_decide_eq_true hem6
        have he61 : pos.board.mailbox 61 = noPiece := by
          refine hB.mailboxNone 61 (by decide) ?_
          unfold Board.isEmpty at hem5
          exact of_decide_eq_true hem5
        refine makeKey_scratch_castleK pos hkey (by decide) (by decide) (by decide)
          (by decide) (by decide) (by decide) (by decide) (by decide) (by decide)
          (by decide) ?_ ?_ he62 ?_
        · rw [show (Board.pieceAt pos.board 60) = pos.board.mailbox 60 from rfl, hm60]
          decide
        · rw [show mkSquare 7 (rankOf 60) = 63 by decide]
          show pos.board.mailbox 63 ≠ noPiece
          rw [hWC.2]
          decide
        · rw [show mkSquare 5 (rankOf 60) = 61 by decide]
          exact he61
      · have hWC := hWF.castleBQ hright
        have hks : pos.board.kingSquare Color.black = 60 := by
          unfold Board.kingSquare
          rw [hWC.1]
          decide
        rw [Move.mk.injEq] at heqm
        obtain ⟨hfe, hte2, hfle, hpre⟩ := heqm
        subst hfle
        subst hpre
        have hf60 : f = 60 := by rw [hfe, hks]
        have ht58 : t = 58 := by rw [hte2]; decide
        subst hf60
        subst ht58
        have hm60 : pos.board.mailbox 60 = ⟨.black, .king⟩ :=
          (hB.piecesBit .black .king (fun h => nomatch h) 60 (by decide)).mp
            (by rw [hWC.1]; decide)
        rw [show mkSquare 2 7 = 58 by decide] at hem2
        rw [show mkSquare 3 7 = 59 by decide] at hem3
        have he58 : pos.board.mailbox 58 = noPiece := by
          refine hB.mailboxNone 58 (by decide) ?_
          unfold Board.isEmpty at hem2
          exact of_decide_eq_true hem2
        have he59 : pos.board.mailbox 59 = noPiece := by
          refine hB.mailboxNone 59 (by decide) ?_
          unfold Board.isEmpty at hem3
          exact of_decide_eq_true hem3
        refine makeKey_scratch_castleQ pos hkey (by decide) (by decide) (by decide)
          (by decide) (by decide) (by decide) (by decide) (by decide) (by decide)
          (by decide) ?_ ?_ he58 ?_
        · rw [show (Board.pieceAt pos.board 60) = pos.board.mailbox 60 from rfl, hm60]
          decide
        · rw [show mkSquare 0 (rankOf 60) = 56 by decide]
          show pos.board.mailbox 56 ≠ noPiece
          rw [hWC.2]
          decide
        · rw [show mkSquare 3 (rankOf 60) = 59 by decide]
          exact he59


/-- A nonempty mailbox slot of a coherent board holds a real piece type. -/
theorem mailbox_type_ne_none {b : Board} (hB : BoardWF b) {x : Nat} (hx : x < 64)
    (hne : b.mailbox x ≠ noPiece) : (b.mailbox x).type ≠ .none :=
  fun hcon => hne (hB.mailboxNone x hx hcon)

/-- Conjunction with a power of two is nonzero exactly on a set bit. -/
theorem and_two_pow_ne_zero (x i : Nat) : x &&& 2 ^ i ≠ 0 ↔ x.testBit i = true := by
  rw [Nat.and_two_pow]
  cases h : x.testBit i <;> simp [h]

/-- The squares whose castle mask clears each right. -/
theorem castleMask_bit (sq : Nat) :
    ((castleMask sq).testBit 0 = true → sq ≠ 4 ∧ sq ≠ 7) ∧
    ((castleMask sq).testBit 1 = true → sq ≠ 4 ∧ sq ≠ 0) ∧
    ((castleMask sq).testBit 2 = true → sq ≠ 60 ∧ sq ≠ 63) ∧
    ((castleMask sq).testBit 3 = true → sq ≠ 60 ∧ sq ≠ 56) := by
  refine ⟨fun h => ⟨?_, ?_⟩, fun h => ⟨?_, ?_⟩, fun h => ⟨?_, ?_⟩, fun h => ⟨?_, ?_⟩⟩ <;>
    (intro hcon; subst hcon; revert h; decide)

/-- Away from the pinned king square, no mailbox slot holds that king. -/
theorem slot_ne_king {b : Board} (hB : BoardWF b) (c : Color) (x home : Nat) (hx : x < 64)
    (hkb : b.pieces (c, .king) = squareBB home) (hhome : home < 64) (hne : x ≠ home) :
    ((b.mailbox x).color, (b.mailbox x).type) ≠ (c, PieceType.king) := by
  intro hcon
  rw [Prod.mk.injEq] at hcon
  have hpk : b.mailbox x = ⟨c, .king⟩ := by
    rw [← hcon.1, ← hcon.2]
  have hbit := (hB.piecesBit c .king (fun h => nomatch h) x hx).mpr hpk
  rw [hkb, testBit_squareBB hhome] at hbit
  exact hne (of_decide_eq_true hbit)

/-- remove_piece leaves every other piece set untouched. -/
theorem removePiece_pieces_frame (b : Board) (sq : Nat) (k : Color × PieceType)
    (hk : ((b.mailbox sq).color, (b.mailbox sq).type) ≠ k) :
    (b.removePiece sq).pieces k = b.pieces k := by
  rw [removePiece_pieces, if_neg (fun hcon => hk hcon.symm)]

/-- put_piece leaves every other piece set untouched. -/
theorem putPiece_pieces_frame (b : Board) (sq : Nat) (p : Piece) (k : Color × PieceType)
    (hk : (p.color, p.type) ≠ k) :
    (b.putPiece sq p).pieces k = b.pieces k := by
  rw [putPiece_pieces, if_neg (fun hcon => hk hcon.symm)]

/-- The mailbox off the touched squares after the basic board update. -/
theorem move_mailbox_frame (B : Board) (f t : Nat) (P : Piece) (x : Nat)
    (hxf : x ≠ f) (hxt : x ≠ t) :
    ((if B.pieceAt t ≠ noPiece then (B.removePiece f).removePiece t
      else B.removePiece f).putPiece t P).mailbox x = B.mailbox x := by
  rw [putPiece_mailbox, if_neg hxt]
  split
  · rw [removePiece_mailbox, if_neg hxt, removePiece_mailbox, if_neg hxf]
  · rw [removePiece_mailbox, if_neg hxf]

/-- The destination mailbox slot after the basic board update. -/
theorem move_mailbox_dest (B : Board) (f t : Nat) (P : Piece) :
    ((if B.pieceAt t ≠ noPiece then (B.removePiece f).removePiece t
      else B.removePiece f).putPiece t P).mailbox t = P := by
  rw [putPiece_mailbox, if_pos rfl]

/-- The piece sets off the touched slots after the basic board update. -/
theorem move_pieces_frame (B : Board) (f t : Nat) (P : Piece) (k : Color × PieceType)
    (hft : f ≠ t)
    (hk1 : ((B.mailbox f).color, (B.mailbox f).type) ≠ k)
    (hk2 : ((B.mailbox t).color, (B.mailbox t).type) ≠ k)
    (hk3 : (P.color, P.type) ≠ k) :
    ((if B.pieceAt t ≠ noPiece then (B.removePiece f).removePiece t
      else B.removePiece f).putPiece t P).pieces k = B.pieces k := by
  rw [putPiece_pieces_frame _ _ _ _ hk3]
  split
  · have hmt : (B.removePiece f).mailbox t = B.mailbox t := by
      rw [removePiece_mailbox, if_neg (fun hcon => hft hcon.symm)]
    rw [removePiece_pieces_frame _ _ _ (by rw [hmt]; exact hk2),
      removePiece_pieces_frame _ _ _ hk1]
  · rw [removePiece_pieces_frame _ _ _ hk1]

/-- The mailbox off the touched squares after the en-passant board update. -/
theorem move_ep_mailbox_frame (B : Board) (f t c : Nat) (P : Piece) (x : Nat)
    (hxf : x ≠ f) (hxt : x ≠ t) (hxc : x ≠ c) :
    ((if B.pieceAt c ≠ noPiece then (B.removePiece f).removePiece c
      else B.removePiece f).putPiece t P).mailbox x = B.mailbox x := by
  rw [putPiece_mailbox, if_neg hxt]
  split
  · rw [removePiece_mailbox, if_neg hxc, removePiece_mailbox, if_neg hxf]
  · rw [removePiece_mailbox, if_neg hxf]

/-- The piece sets off the touched slots after the en-passant board update. -/
theorem move_ep_pieces_frame (B : Board) (f t c : Nat) (P : Piece) (k : Color × PieceType)
    (hfc : f ≠ c)
    (hk1 : ((B.mailbox f).color, (B.mailbox f).type) ≠ k)
    (hk2 : ((B.mailbox c).color, (B.mailbox c).type) ≠ k)
    (hk3 : (P.color, P.type) ≠ k) :
    ((if B.pieceAt c ≠ noPiece then (B.removePiece f).removePiece c
      else B.removePiece f).putPiece t P).pieces k = B.pieces k := by
  rw [putPiece_pieces_frame _ _ _ _ hk3]
  split
  · have hmc : (B.removePiece f).mailbox c = B.mailbox c := by
      rw [removePiece_mailbox, if_neg (fun hcon => hfc hcon.symm)]
    rw [removePiece_pieces_frame _ _ _ (by rw [hmc]; exact hk2),
      removePiece_pieces_frame _ _ _ hk1]
  · rw [removePiece_pieces_frame _ _ _ hk1]

/-- The basic make_move board update preserves board coherence. -/
theorem boardWF_move {B : Board} (hB : BoardWF B) (f t : Nat) (P : Piece)
    (hf : f < 64) (ht : t < 64) (hft : f ≠ t) (hty : P.type ≠ .none) :
    BoardWF ((if B.pieceAt t ≠ noPiece then (B.removePiece f).removePiece t
              else B.removePiece f).putPiece t P) := by
  by_cases hcap : B.pieceAt t ≠ noPiece
  · rw [if_pos hcap]
    refine putPiece_WF (removePiece_WF (removePiece_WF hB f hf) t ht) t P ht hty ?_
    rw [removePiece_mailbox, if_pos rfl]
  · rw [if_neg hcap]
    refine putPiece_WF (removePiece_WF hB f hf) t P ht hty ?_
    rw [removePiece_mailbox, if_neg (fun hcon => hft hcon.symm)]
    exact of_not_not hcap

/-- The en-passant board update preserves board coherence. -/
theorem boardWF_move_ep {B : Board} (hB : BoardWF B) (f t c : Nat) (P : Piece)
    (hf : f < 64) (ht : t < 64) (hc : c < 64)
    (hft : f ≠ t) (htc : t ≠ c) (hty : P.type ≠ .none)
    (hmt : B.mailbox t = noPiece) :
    BoardWF ((if B.pieceAt c ≠ noPiece then (B.removePiece f).removePiece c
              else B.removePiece f).putPiece t P) := by
  split
  · refine putPiece_WF (removePiece_WF (removePiece_WF hB f hf) c hc) t P ht hty ?_
    rw [removePiece_mailbox, if_neg htc, removePiece_mailbox,
      if_neg (fun hcon => hft hcon.symm)]
    exact hmt
  · refine putPiece_WF (removePiece_WF hB f hf) t P ht hty ?_
    rw [removePiece_mailbox, if_neg (fun hcon => hft hcon.symm)]
    exact hmt

/-- The castling board update preserves board coherence. -/
theorem boardWF_move_castle {B : Board} (hB : BoardWF B) (f t rf rt : Nat)
    (hf : f < 64) (ht : t < 64) (hrf : rf < 64) (hrt : rt < 64)
    (hft : f ≠ t) (hfrf : f ≠ rf) (hfrt : f ≠ rt)
    (htrf : t ≠ rf) (htrt : t ≠ rt) (hrfrt : rf ≠ rt)
    (hKne : B.mailbox f ≠ noPiece) (hRne : B.mailbox rf ≠ noPiece)
    (hmt : B.mailbox t = noPiece) (hmrt : B.mailbox rt = noPiece) :
    BoardWF ((((B.removePiece f).putPiece t (B.pieceAt f)).removePiece rf).putPiece rt
        (((B.removePiece f).putPiece t (B.pieceAt f)).pieceAt rf)) := by
  have hrook : ((B.removePiece f).putPiece t (B.pieceAt f)).pieceAt rf = B.pieceAt rf := by
    unfold Board.pieceAt
    rw [putPiece_mailbox, if_neg (fun hcon => htrf hcon.symm), removePiece_mailbox,
      if_neg (fun hcon => hfrf hcon.symm)]
  rw [hrook]
  have h1 : BoardWF ((B.removePiece f).putPiece t (B.pieceAt f)) := by
    refine putPiece_WF (removePiece_WF hB f hf) t (B.pieceAt f) ht
      (mailbox_type_ne_none hB hf hKne) ?_
    rw [removePiece_mailbox, if_neg (fun hcon => hft hcon.symm)]
    exact hmt
  refine putPiece_WF (removePiece_WF h1 rf hrf) rt (B.pieceAt rf) hrt
    (mailbox_type_ne_none hB hrf hRne) ?_
  rw [removePiece_mailbox, if_neg (fun hcon => hrfrt hcon.symm), putPiece_mailbox,
    if_neg (fun hcon => htrt hcon.symm), removePiece_mailbox,
    if_neg (fun hcon => hfrt hcon.symm)]
  exact hmrt


theorem posWF_make_basic (pos : Position) (hWF : PosWF pos)
    {f t : Nat} {fl : MoveFlag} {pr : PieceType}
    (hfl1 : fl ≠ .enPassant) (hfl2 : fl ≠ .castleKingside) (hfl3 : fl ≠ .castleQueenside)
    (hf : f < 64) (ht : t < 64) (hft : f ≠ t)
    (hPne : pos.board.mailbox f ≠ noPiece)
    (hpromo : fl = .promotion → pr ≠ .none ∧ pr ≠ .king)
    (hdbl : fl = .doublePawn →
      (pos.sideToMove = .white → f = t - 16 ∧ 24 ≤ t ∧ t < 32 ∧
        pos.board.mailbox (t - 8) = noPiece ∧ pos.board.mailbox f = ⟨.white, .pawn⟩) ∧
      (pos.sideToMove = .black → f = t + 16 ∧ 32 ≤ t ∧ t < 40 ∧
        pos.board.mailbox (t + 8) = noPiece ∧ pos.board.mailbox f = ⟨.black, .pawn⟩)) :
    PosWF (pos.makeMove ⟨f, t, fl, pr⟩) := by
  have hB := hWF.board
  obtain ⟨hside, -, -, -⟩ := makeMove_proj pos ⟨f, t, fl, pr⟩
  have hcr : (pos.makeMove ⟨f, t, fl, pr⟩).castling =
      pos.castling &&& castleMask f &&& castleMask t := makeMove_castling pos ⟨f, t, fl, pr⟩
  have hep : (pos.makeMove ⟨f, t, fl, pr⟩).enPassant =
      (if fl = .doublePawn then mkSquare (fileOf f) ((rankOf f + rankOf t) / 2)
       else noSquare) := makeMove_enPassant pos ⟨f, t, fl, pr⟩
  have hb := makeMove_board_basic pos f t fl pr hfl1 hfl2 hfl3
  have htyP : (if fl = .promotion ∧ pr ≠ .none
      then (⟨(pos.board.pieceAt f).color, pr⟩ : Piece)
      else pos.board.pieceAt f).type ≠ .none := by
    split
    next hpp => exact hpp.2
    next => exact mailbox_type_ne_none hB hf hPne
  refine ⟨?_, ?_, ?_, ?_, ?_, ?_⟩
  · rw [hb]
    exact boardWF_move hB f t _ hf ht hft htyP
  · intro hepne
    rw [hep] at hepne
    by_cases hdp : fl = .doublePawn
    · subst hdp
      obtain ⟨hdw, hdb⟩ := hdbl rfl
      have hPv : (if MoveFlag.doublePawn = .promotion ∧ pr ≠ .none
          then (⟨(pos.board.pieceAt f).color, pr⟩ : Piece)
          else pos.board.pieceAt f) = pos.board.pieceAt f :=
        if_neg (fun hc => nomatch hc.1)
      constructor
      · intro hsw
        have husb : pos.sideToMove = .black := by
          rw [hside] at hsw
          cases hco : pos.sideToMove
          · rw [hco] at hsw
            exact nomatch hsw
          · rfl
        obtain ⟨hfe, h32, h40, hemp8, hpawn⟩ := hdb husb
        have hepv : (pos.makeMove ⟨f, t, .doublePawn, pr⟩).enPassant = t + 8 := by
          rw [hep, if_pos rfl]
          unfold mkSquare fileOf rankOf
          omega
        rw [hepv]
        refine ⟨?_, ?_, ?_⟩
        · unfold rankOf
          omega
        · rw [hb, move_mailbox_frame _ _ _ _ _ (by omega) (by omega)]
          exact hemp8
        · have hcsq : mkSquare (fileOf (t + 8)) 4 = t := by
            unfold mkSquare fileOf
            omega
          rw [hcsq, hb, move_mailbox_dest, hPv]
          exact hpawn
      · intro hsb
        have husw : pos.sideToMove = .white := by
          rw [hside] at hsb
          cases hco : pos.sideToMove
          · rfl
          · rw [hco] at hsb
            exact nomatch hsb
        obtain ⟨hfe, h24, h32, hemp8, hpawn⟩ := hdw husw
        have hepv : (pos.makeMove ⟨f, t, .doublePawn, pr⟩).enPassant = t - 8 := by
          rw [hep, if_pos rfl]
          unfold mkSquare fileOf rankOf
          omega
        rw [hepv]
        refine ⟨?_, ?_, ?_⟩
        · unfold rankOf
          omega
        · rw [hb, move_mailbox_frame _ _ _ _ _ (by omega) (by omega)]
          exact hemp8
        · have hcsq : mkSquare (fileOf (t - 8)) 3 = t := by
            unfold mkSquare fileOf
            omega
          rw [hcsq, hb, move_mailbox_dest, hPv]
          exact hpawn
    · rw [if_neg hdp] at hepne
      exact absurd rfl hepne
  · intro hright
    rw [hcr] at hright
    have h0 := (and_two_pow_ne_zero _ 0).mp hright
    simp only [Nat.testBit_and, Bool.and_eq_true] at h0
    obtain ⟨⟨hcr0, hmf0⟩, hmt0⟩ := h0
    obtain ⟨hf4, hf7⟩ := (castleMask_bit f).1 hmf0
    obtain ⟨ht4, ht7⟩ := (castleMask_bit t).1 hmt0
    have hold := hWF.castleWK ((and_two_pow_ne_zero _ 0).mpr hcr0)
    have hk1 := slot_ne_king hB .white f 4 hf hold.1 (by decide) hf4
    have hk2 := slot_ne_king hB .white t 4 ht hold.1 (by decide) ht4
    have hk3 : ((if fl = .promotion ∧ pr ≠ .none
        then (⟨(pos.board.pieceAt f).color, pr⟩ : Piece)
        else pos.board.pieceAt f).color,
        (if fl = .promotion ∧ pr ≠ .none
        then (⟨(pos.board.pieceAt f).color, pr⟩ : Piece)
        else pos.board.pieceAt f).type) ≠ (Color.white, PieceType.king) := by
      split
      next hpp =>
        intro hcon
        rw [Prod.mk.injEq] at hcon
        exact (hpromo hpp.1).2 hcon.2
      next => exact hk1
    constructor
    · rw [hb, move_pieces_frame _ _ _ _ _ hft hk1 hk2 hk3]
      exact hold.1
    · rw [hb, move_mailbox_frame _ _ _ _ _ (fun hcon => hf7 hcon.symm)
        (fun hcon => ht7 hcon.symm)]
      exact hold.2
  · intro hright
    rw [hcr] at hright
    have h0 := (and_two_pow_ne_zero _ 1).mp hright
    simp only [Nat.testBit_and, Bool.and_eq_true] at h0
    obtain ⟨⟨hcr0, hmf0⟩, hmt0⟩ := h0
    obtain ⟨hf4, hf0⟩ := (castleMask_bit f).2.1 hmf0
    obtain ⟨ht4, ht0⟩ := (castleMask_bit t).2.1 hmt0
    have hold := hWF.castleWQ ((and_two_pow_ne_zero _ 1).mpr hcr0)
    have hk1 := slot_ne_king hB .white f 4 hf hold.1 (by decide) hf4
    have hk2 := slot_ne_king hB .white t 4 ht hold.1 (by decide) ht4
    have hk3 : ((if fl = .promotion ∧ pr ≠ .none
        then (⟨(pos.board.pieceAt f).color, pr⟩ : Piece)
        else pos.board.pieceAt f).color,
        (if fl = .promotion ∧ pr ≠ .none
        then (⟨(pos.board.pieceAt f).color, pr⟩ : Piece)
        else pos.board.pieceAt f).type) ≠ (Color.white, PieceType.king) := by
      split
      next hpp =>
        intro hcon
        rw [Prod.mk.injEq] at hcon
        exact (hpromo hpp.1).2 hcon.2
      next => exact hk1
    constructor
    · rw [hb, move_pieces_frame _ _ _ _ _ hft hk1 hk2 hk3]
      exact hold.1
    · rw [hb, move_mailbox_frame _ _ _ _ _ (fun hcon => hf0 hcon.symm)
        (fun hcon => ht0 hcon.symm)]
      exact hold.2
  · intro hright
    rw [hcr] at hright
    have h0 := (and_two_pow_ne_zero _ 2).mp hright
    simp only [Nat.testBit_and, Bool.and_eq_true] at h0
    obtain ⟨⟨hcr0, hmf0⟩, hmt0⟩ := h0
    obtain ⟨hf60, hf63⟩ := (castleMask_bit f).2.2.1 hmf0
    obtain ⟨ht60, ht63⟩ := (castleMask_bit t).2.2.1 hmt0
    have hold := hWF.castleBK ((and_two_pow_ne_zero _ 2).mpr hcr0)
    have hk1 := slot_ne_king hB .black f 60 hf hold.1 (by decide) hf60
    have hk2 := slot_ne_king hB .black t 60 ht hold.1 (by decide) ht60
    have hk3 : ((if fl = .promotion ∧ pr ≠ .none
        then (⟨(pos.board.pieceAt f).color, pr⟩ : Piece)
        else pos.board.pieceAt f).color,
        (if fl = .promotion ∧ pr ≠ .none
        then (⟨(pos.board.pieceAt f).color, pr⟩ : Piece)
        else pos.board.pieceAt f).type) ≠ (Color.black, PieceType.king) := by
      split
      next hpp =>
        intro hcon
        rw [Prod.mk.injEq] at hcon
        exact (hpromo hpp.1).2 hcon.2
      next => exact hk1
    constructor
    · rw [hb, move_pieces_frame _ _ _ _ _ hft hk1 hk2 hk3]
      exact hold.1
    · rw [hb, move_mailbox_frame _ _ _ _ _ (fun hcon => hf63 hcon.symm)
        (fun hcon => ht63 hcon.symm)]
      exact hold.2
  · intro hright
    rw [hcr] at hright
    have h0 := (and_two_pow_ne_zero _ 3).mp hright
    simp only [Nat.testBit_and, Bool.and_eq_true] at h0
    obtain ⟨⟨hcr0, hmf0⟩, hmt0⟩ := h0
    obtain ⟨hf60, hf56⟩ := (castleMask_bit f).2.2.2 hmf0
    obtain ⟨ht60, ht56⟩ := (castleMask_bit t).2.2.2 hmt0
    have hold := hWF.castleBQ ((and_two_pow_ne_zero _ 3).mpr hcr0)
    have hk1 := slot_ne_king hB .black f 60 hf hold.1 (by decide) hf60
    have hk2 := slot_ne_king hB .black t 60 ht hold.1 (by decide) ht60
    have hk3 : ((if fl = .promotion ∧ pr ≠ .none
        then (⟨(pos.board.pieceAt f).color, pr⟩ : Piece)
        else pos.board.pieceAt f).color,
        (if fl = .promotion ∧ pr ≠ .none
        then (⟨(pos.board.pieceAt f).color, pr⟩ : Piece)
        else pos.board.pieceAt f).type) ≠ (Color.black, PieceType.king) := by
      split
      next hpp =>
        intro hcon
        rw [Prod.mk.injEq] at hcon
        exact (hpromo hpp.1).2 hcon.2
      next => exact hk1
    constructor
    · rw [hb, move_pieces_frame _ _ _ _ _ hft hk1 hk2 hk3]
      exact hold.1
    · rw [hb, move_mailbox_frame _ _ _ _ _ (fun hcon => hf56 hcon.symm)
        (fun hcon => ht56 hcon.symm)]
      exact hold.2



/-- The mailbox off the touched squares after the castling board update. -/
theorem move_castle_mailbox_frame (B : Board) (f t rf rt : Nat) (x : Nat)
    (hxf : x ≠ f) (hxt : x ≠ t) (hxrf : x ≠ rf) (hxrt : x ≠ rt) :
    (((((B.removePiece f).putPiece t (B.pieceAt f)).removePiece rf).putPiece rt
        ((((B.removePiece f).putPiece t (B.pieceAt f))).pieceAt rf))).mailbox x =
      B.mailbox x := by
  rw [putPiece_mailbox, if_neg hxrt, removePiece_mailbox, if_neg hxrf,
    putPiece_mailbox, if_neg hxt, removePiece_mailbox, if_neg hxf]

/-- The piece sets off the touched slots after the castling board update. -/
theorem move_castle_pieces_frame (B : Board) (f t rf rt : Nat) (k : Color × PieceType)
    (hft : f ≠ t) (hfrf : f ≠ rf) (htrf : t ≠ rf)
    (hk1 : ((B.mailbox f).color, (B.mailbox f).type) ≠ k)
    (hk2 : ((B.mailbox rf).color, (B.mailbox rf).type) ≠ k) :
    (((((B.removePiece f).putPiece t (B.pieceAt f)).removePiece rf).putPiece rt
        ((((B.removePiece f).putPiece t (B.pieceAt f))).pieceAt rf))).pieces k =
      B.pieces k := by
  have hrook : ((B.removePiece f).putPiece t (B.pieceAt f)).pieceAt rf = B.pieceAt rf := by
    unfold Board.pieceAt
    rw [putPiece_mailbox, if_neg (fun hcon => htrf hcon.symm), removePiece_mailbox,
      if_neg (fun hcon => hfrf hcon.symm)]
  rw [hrook,
    putPiece_pieces_frame _ _ _ _
      (show ((B.pieceAt rf).color, (B.pieceAt rf).type) ≠ k from hk2),
    removePiece_pieces_frame _ _ _ (by
      rw [putPiece_mailbox, if_neg (fun hcon => htrf hcon.symm), removePiece_mailbox,
        if_neg (fun hcon => hfrf hcon.symm)]
      exact hk2),
    putPiece_pieces_frame _ _ _ _
      (show ((B.pieceAt f).color, (B.pieceAt f).type) ≠ k from hk1),
    removePiece_pieces_frame _ _ _ hk1]

theorem posWF_make_ep (pos : Position) (hWF : PosWF pos)
    {f t : Nat} {pr : PieceType}
    (hf : f < 64) (ht : t < 64)
    (hc24 : 24 ≤ mkSquare (fileOf t) (rankOf f)) (hc40 : mkSquare (fileOf t) (rankOf f) < 40)
    (hft : f ≠ t) (hfc : f ≠ mkSquare (fileOf t) (rankOf f))
    (htc : t ≠ mkSquare (fileOf t) (rankOf f))
    (hPne : pos.board.mailbox f ≠ noPiece)
    (hmt : pos.board.mailbox t = noPiece) :
    PosWF (pos.makeMove ⟨f, t, .enPassant, pr⟩) := by
  have hB := hWF.board
  have hc64 : mkSquare (fileOf t) (rankOf f) < 64 := by omega
  have hcr : (pos.makeMove ⟨f, t, .enPassant, pr⟩).castling =
      pos.castling &&& castleMask f &&& castleMask t :=
    makeMove_castling pos ⟨f, t, .enPassant, pr⟩
  have hepv : (pos.makeMove ⟨f, t, .enPassant, pr⟩).enPassant = noSquare :=
    makeMove_enPassant pos ⟨f, t, .enPassant, pr⟩
  have hb := makeMove_board_ep pos f t pr
  refine ⟨?_, ?_, ?_, ?_, ?_, ?_⟩
  · rw [hb]
    exact boardWF_move_ep hB f t _ _ hf ht hc64 hft htc
      (mailbox_type_ne_none hB hf hPne) hmt
  · intro hepne
    exact absurd hepv hepne
  · intro hright
    rw [hcr] at hright
    have h0 := (and_two_pow_ne_zero _ 0).mp hright
    simp only [Nat.testBit_and, Bool.and_eq_true] at h0
    obtain ⟨⟨hcr0, hmf0⟩, hmt0⟩ := h0
    obtain ⟨hf4, hf7⟩ := (castleMask_bit f).1 hmf0
    obtain ⟨ht4, ht7⟩ := (castleMask_bit t).1 hmt0
    have hold := hWF.castleWK ((and_two_pow_ne_zero _ 0).mpr hcr0)
    have hk1 := slot_ne_king hB .white f 4 hf hold.1 (by decide) hf4
    have hkc := slot_ne_king hB .white _ 4 hc64 hold.1 (by decide) (by omega)
    constructor
    · rw [hb, move_ep_pieces_frame pos.board f t (mkSquare (fileOf t) (rankOf f))
        (pos.board.pieceAt f) _ hfc hk1 hkc hk1]
      exact hold.1
    · rw [hb, move_ep_mailbox_frame _ _ _ _ _ _ (fun hcon => hf7 hcon.symm)
        (fun hcon => ht7 hcon.symm) (by omega)]
      exact hold.2
  · intro hright
    rw [hcr] at hright
    have h0 := (and_two_pow_ne_zero _ 1).mp hright
    simp only [Nat.testBit_and, Bool.and_eq_true] at h0
    obtain ⟨⟨hcr0, hmf0⟩, hmt0⟩ := h0
    obtain ⟨hf4, hf0⟩ := (castleMask_bit f).2.1 hmf0
    obtain ⟨ht4, ht0⟩ := (castleMask_bit t).2.1 hmt0
    have hold := hWF.castleWQ ((and_two_pow_ne_zero _ 1).mpr hcr0)
    have hk1 := slot_ne_king hB .white f 4 hf hold.1 (by decide) hf4
    have hkc := slot_ne_king hB .white _ 4 hc64 hold.1 (by decide) (by omega)
    constructor
    · rw [hb, move_ep_pieces_frame pos.board f t (mkSquare (fileOf t) (rankOf f))
        (pos.board.pieceAt f) _ hfc hk1 hkc hk1]
      exact hold.1
    · rw [hb, move_ep_mailbox_frame _ _ _ _ _ _ (fun hcon => hf0 hcon.symm)
        (fun hcon => ht0 hcon.symm) (by omega)]
      exact hold.2
  · intro hright
    rw [hcr] at hright
    have h0 := (and_two_pow_ne_zero _ 2).mp hright
    simp only [Nat.testBit_and, Bool.and_eq_true] at h0
    obtain ⟨⟨hcr0, hmf0⟩, hmt0⟩ := h0
    obtain ⟨hf60, hf63⟩ := (castleMask_bit f).2.2.1 hmf0
    obtain ⟨ht60, ht63⟩ := (castleMask_bit t).2.2.1 hmt0
    have hold := hWF.castleBK ((and_two_pow_ne_zero _ 2).mpr hcr0)
    have hk1 := slot_ne_king hB .black f 60 hf hold.1 (by decide) hf60
    have hkc := slot_ne_king hB .black _ 60 hc64 hold.1 (by decide) (by omega)
    constructor
    · rw [hb, move_ep_pieces_frame pos.board f t (mkSquare (fileOf t) (rankOf f))
        (pos.board.pieceAt f) _ hfc hk1 hkc hk1]
      exact hold.1
    · rw [hb, move_ep_mailbox_frame _ _ _ _ _ _ (fun hcon => hf63 hcon.symm)
        (fun hcon => ht63 hcon.symm) (by omega)]
      exact hold.2
  · intro hright
    rw [hcr] at hright
    have h0 := (and_two_pow_ne_zero _ 3).mp hright
    simp only [Nat.testBit_and, Bool.and_eq_true] at h0
    obtain ⟨⟨hcr0, hmf0⟩, hmt0⟩ := h0
    obtain ⟨hf60, hf56⟩ := (castleMask_bit f).2.2.2 hmf0
    obtain ⟨ht60, ht56⟩ := (castleMask_bit t).2.2.2 hmt0
    have hold := hWF.castleBQ ((and_two_pow_ne_zero _ 3).mpr hcr0)
    have hk1 := slot_ne_king hB .black f 60 hf hold.1 (by decide) hf60
    have hkc := slot_ne_king hB .black _ 60 hc64 hold.1 (by decide) (by omega)
    constructor
    · rw [hb, move_ep_pieces_frame pos.board f t (mkSquare (fileOf t) (rankOf f))
        (pos.board.pieceAt f) _ hfc hk1 hkc hk1]
      exact hold.1
    · rw [hb, move_ep_mailbox_frame _ _ _ _ _ _ (fun hcon => hf56 hcon.symm)
        (fun hcon => ht56 hcon.symm) (by omega)]
      exact hold.2



theorem posWF_make_castleWK (pos : Position) (hWF : PosWF pos) {pr : PieceType}
    (hKne : pos.board.mailbox 4 ≠ noPiece) (hRne : pos.board.mailbox 7 ≠ noPiece)
    (hmt : pos.board.mailbox 6 = noPiece) (hmrt : pos.board.mailbox 5 = noPiece) :
    PosWF (pos.makeMove ⟨4, 6, .castleKingside, pr⟩) := by
  have hB := hWF.board
  have hcr : (pos.makeMove ⟨4, 6, .castleKingside, pr⟩).castling =
      pos.castling &&& castleMask 4 &&& castleMask 6 :=
    makeMove_castling pos ⟨4, 6, .castleKingside, pr⟩
  have hepv : (pos.makeMove ⟨4, 6, .castleKingside, pr⟩).enPassant = noSquare :=
    makeMove_enPassant pos ⟨4, 6, .castleKingside, pr⟩
  have hcapn : ¬(pos.board.pieceAt 6 ≠ noPiece) := fun hcon => hcon hmt
  have hb := makeMove_board_castleK pos 4 6 pr
  simp only [if_neg hcapn] at hb
  rw [show mkSquare 7 (rankOf 4) = 7 by decide, show mkSquare 5 (rankOf 4) = 5 by decide]
    at hb
  refine ⟨?_, ?_, ?_, ?_, ?_, ?_⟩
  · rw [hb]
    exact boardWF_move_castle hB 4 6 7 5 (by decide) (by decide) (by decide)
      (by decide) (by decide) (by decide) (by decide) (by decide) (by decide) (by decide)
      hKne hRne hmt hmrt
  · intro hepne
    exact absurd hepv hepne
  · intro hright
    rw [hcr] at hright
    have h0 := (and_two_pow_ne_zero _ 0).mp hright
    simp only [Nat.testBit_and, Bool.and_eq_true] at h0
    exact absurd h0.1.2 (by decide)
  · intro hright
    rw [hcr] at hright
    have h0 := (and_two_pow_ne_zero _ 1).mp hright
    simp only [Nat.testBit_and, Bool.and_eq_true] at h0
    exact absurd h0.1.2 (by decide)
  · intro hright
    rw [hcr] at hright
    have h0 := (and_two_pow_ne_zero _ 2).mp hright
    simp only [Nat.testBit_and, Bool.and_eq_true] at h0
    have hold := hWF.castleBK ((and_two_pow_ne_zero _ 2).mpr h0.1.1)
    have hk1 := slot_ne_king hB .black 4 60 (by decide) hold.1 (by decide) (by decide)
    have hk2 := slot_ne_king hB .black 7 60 (by decide) hold.1 (by decide) (by decide)
    constructor
    · rw [hb, move_castle_pieces_frame pos.board 4 6 7 5 _ (by decide) (by decide)
        (by decide) hk1 hk2]
      exact hold.1
    · rw [hb, move_castle_mailbox_frame _ _ _ _ _ 63 (by decide) (by decide) (by decide)
        (by decide)]
      exact hold.2
  · intro hright
    rw [hcr] at hright
    have h0 := (and_two_pow_ne_zero _ 3).mp hright
    simp only [Nat.testBit_and, Bool.and_eq_true] at h0
    have hold := hWF.castleBQ ((and_two_pow_ne_zero _ 3).mpr h0.1.1)
    have hk1 := slot_ne_king hB .black 4 60 (by decide) hold.1 (by decide) (by decide)
    have hk2 := slot_ne_king hB .black 7 60 (by decide) hold.1 (by decide) (by decide)
    constructor
    · rw [hb, move_castle_pieces_frame pos.board 4 6 7 5 _ (by decide) (by decide)
        (by decide) hk1 hk2]
      exact hold.1
    · rw [hb, move_castle_mailbox_frame _ _ _ _ _ 56 (by decide) (by decide) (by decide)
        (by decide)]
      exact hold.2


theorem posWF_make_castleWQ (pos : Position) (hWF : PosWF pos) {pr : PieceType}
    (hKne : pos.board.mailbox 4 ≠ noPiece) (hRne : pos.board.mailbox 0 ≠ noPiece)
    (hmt : pos.board.mailbox 2 = noPiece) (hmrt : pos.board.mailbox 3 = noPiece) :
    PosWF (pos.makeMove ⟨4, 2, .castleQueenside, pr⟩) := by
  have hB := hWF.board
  have hcr : (pos.makeMove ⟨4, 2, .castleQueenside, pr⟩).castling =
      pos.castling &&& castleMask 4 &&& castleMask 2 :=
    makeMove_castling pos ⟨4, 2, .castleQueenside, pr⟩
  have hepv : (pos.makeMove ⟨4, 2, .castleQueenside, pr⟩).enPassant = noSquare :=
    makeMove_enPassant pos ⟨4, 2, .castleQueenside, pr⟩
  have hcapn : ¬(pos.board.pieceAt 2 ≠ noPiece) := fun hcon => hcon hmt
  have hb := makeMove_board_castleQ pos 4 2 pr
  simp only [if_neg hcapn] at hb
  rw [show mkSquare 0 (rankOf 4) = 0 by decide, show mkSquare 3 (rankOf 4) = 3 by decide]
    at hb
  refine ⟨?_, ?_, ?_, ?_, ?_, ?_⟩
  · rw [hb]
    exact boardWF_move_castle hB 4 2 0 3 (by decide) (by decide) (by decide)
      (by decide) (by decide) (by decide) (by decide) (by decide) (by decide) (by decide)
      hKne hRne hmt hmrt
  · intro hepne
    exact absurd hepv hepne
  · intro hright
    rw [hcr] at hright
    have h0 := (and_two_pow_ne_zero _ 0).mp hright
    simp only [Nat.testBit_and, Bool.and_eq_true] at h0
    exact absurd h0.1.2 (by decide)
  · intro hright
    rw [hcr] at hright
    have h0 := (and_two_pow_ne_zero _ 1).mp hright
    simp only [Nat.testBit_and, Bool.and_eq_true] at h0
    exact absurd h0.1.2 (by decide)
  · intro hright
    rw [hcr] at hright
    have h0 := (and_two_pow_ne_zero _ 2).mp hright
    simp only [Nat.testBit_and, Bool.and_eq_true] at h0
    have hold := hWF.castleBK ((and_two_pow_ne_zero _ 2).mpr h0.1.1)
    have hk1 := slot_ne_king hB .black 4 60 (by decide) hold.1 (by decide) (by decide)
    have hk2 := slot_ne_king hB .black 0 60 (by decide) hold.1 (by decide) (by decide)
    constructor
    · rw [hb, move_castle_pieces_frame pos.board 4 2 0 3 _ (by decide) (by decide)
        (by decide) hk1 hk2]
      exact hold.1
    · rw [hb, move_castle_mailbox_frame _ _ _ _ _ 63 (by decide) (by decide) (by decide)
        (by decide)]
      exact hold.2
  · intro hright
    rw [hcr] at hright
    have h0 := (and_two_pow_ne_zero _ 3).mp hright
    simp only [Nat.testBit_and, Bool.and_eq_true] at h0
    have hold := hWF.castleBQ ((and_two_pow_ne_zero _ 3).mpr h0.1.1)
    have hk1 := slot_ne_king hB .black 4 60 (by decide) hold.1 (by decide) (by decide)
    have hk2 := slot_ne_king hB .black 0 60 (by decide) hold.1 (by decide) (by decide)
    constructor
    · rw [hb, move_castle_pieces_frame pos.board 4 2 0 3 _ (by decide) (by decide)
        (by decide) hk1 hk2]
      exact hold.1
    · rw [hb, move_castle_mailbox_frame _ _ _ _ _ 56 (by decide) (by decide) (by decide)
        (by decide)]
      exact hold.2


theorem posWF_make_castleBK (pos : Position) (hWF : PosWF pos) {pr : PieceType}
    (hKne : pos.board.mailbox 60 ≠ noPiece) (hRne : pos.board.mailbox 63 ≠ noPiece)
    (hmt : pos.board.mailbox 62 = noPiece) (hmrt : pos.board.mailbox 61 = noPiece) :
    PosWF (pos.makeMove ⟨60, 62, .castleKingside, pr⟩) := by
  have hB := hWF.board
  have hcr : (pos.makeMove ⟨60, 62, .castleKingside, pr⟩).castling =
      pos.castling &&& castleMask 60 &&& castleMask 62 :=
    makeMove_castling pos ⟨60, 62, .castleKingside, pr⟩
  have hepv : (pos.makeMove ⟨60, 62, .castleKingside, pr⟩).enPassant = noSquare :=
    makeMove_enPassant pos ⟨60, 62, .castleKingside, pr⟩
  have hcapn : ¬(pos.board.pieceAt 62 ≠ noPiece) := fun hcon => hcon hmt
  have hb := makeMove_board_castleK pos 60 62 pr
  simp only [if_neg hcapn] at hb
  rw [show mkSquare 7 (rankOf 60) = 63 by decide, show mkSquare 5 (rankOf 60) = 61 by decide]
    at hb
  refine ⟨?_, ?_, ?_, ?_, ?_, ?_⟩
  · rw [hb]
    exact boardWF_move_castle hB 60 62 63 61 (by decide) (by decide) (by decide)
      (by decide) (by decide) (by decide) (by decide) (by decide) (by decide) (by decide)
      hKne hRne hmt hmrt
  · intro hepne
    exact absurd hepv hepne
  · intro hright
    rw [hcr] at hright
    have h0 := (and_two_pow_ne_zero _ 0).mp hright
    simp only [Nat.testBit_and, Bool.and_eq_true] at h0
    have hold := hWF.castleWK ((and_two_pow_ne_zero _ 0).mpr h0.1.1)
    have hk1 := slot_ne_king hB .white 60 4 (by decide) hold.1 (by decide) (by decide)
    have hk2 := slot_ne_king hB .white 63 4 (by decide) hold.1 (by decide) (by decide)
    constructor
    · rw [hb, move_castle_pieces_frame pos.board 60 62 63 61 _ (by decide) (by decide)
        (by decide) hk1 hk2]
      exact hold.1
    · rw [hb, move_castle_mailbox_frame _ _ _ _ _ 7 (by decide) (by decide) (by decide)
        (by decide)]
      exact hold.2
  · intro hright
    rw [hcr] at hright
    have h0 := (and_two_pow_ne_zero _ 1).mp hright
    simp only [Nat.testBit_and, Bool.and_eq_true] at h0
    have hold := hWF.castleWQ ((and_two_pow_ne_zero _ 1).mpr h0.1.1)
    have hk1 := slot_ne_king hB .white 60 4 (by decide) hold.1 (by decide) (by decide)
    have hk2 := slot_ne_king hB .white 63 4 (by decide) hold.1 (by decide) (by decide)
    constructor
    · rw [hb, move_castle_pieces_frame pos.board 60 62 63 61 _ (by decide) (by decide)
        (by decide) hk1 hk2]
      exact hold.1
    · rw [hb, move_castle_mailbox_frame _ _ _ _ _ 0 (by decide) (by decide) (by decide)
        (by decide)]
      exact hold.2
  · intro hright
    rw [hcr] at hright
    have h0 := (and_two_pow_ne_zero _ 2).mp hright
    simp only [Nat.testBit_and, Bool.and_eq_true] at h0
    exact absurd h0.1.2 (by decide)
  · intro hright
    rw [hcr] at hright
    have h0 := (and_two_pow_ne_zero _ 3).mp hright
    simp only [Nat.testBit_and, Bool.and_eq_true] at h0
    exact absurd h0.1.2 (by decide)


theorem posWF_make_castleBQ (pos : Position) (hWF : PosWF pos) {pr : PieceType}
    (hKne : pos.board.mailbox 60 ≠ noPiece) (hRne : pos.board.mailbox 56 ≠ noPiece)
    (hmt : pos.board.mailbox 58 = noPiece) (hmrt : pos.board.mailbox 59 = noPiece) :
    PosWF (pos.makeMove ⟨60, 58, .castleQueenside, pr⟩) := by
  have hB := hWF.board
  have hcr : (pos.makeMove ⟨60, 58, .castleQueenside, pr⟩).castling =
      pos.castling &&& castleMask 60 &&& castleMask 58 :=
    makeMove_castling pos ⟨60, 58, .castleQueenside, pr⟩
  have hepv : (pos.makeMove ⟨60, 58, .castleQueenside, pr⟩).enPassant = noSquare :=
    makeMove_enPassant pos ⟨60, 58, .castleQueenside, pr⟩
  have hcapn : ¬(pos.board.pieceAt 58 ≠ noPiece) := fun hcon => hcon hmt
  have hb := makeMove_board_castleQ pos 60 58 pr
  simp only [if_neg hcapn] at hb
  rw [show mkSquare 0 (rankOf 60) = 56 by decide, show mkSquare 3 (rankOf 60) = 59 by decide]
    at hb
  refine ⟨?_, ?_, ?_, ?_, ?_, ?_⟩
  · rw [hb]
    exact boardWF_move_castle hB 60 58 56 59 (by decide) (by decide) (by decide)
      (by decide) (by decide) (by decide) (by decide) (by decide) (by decide) (by decide)
      hKne hRne hmt hmrt
  · intro hepne
    exact absurd hepv hepne
  · intro hright
    rw [hcr] at hright
    have h0 := (and_two_pow_ne_zero _ 0).mp hright
    simp only [Nat.testBit_and, Bool.and_eq_true] at h0
    have hold := hWF.castleWK ((and_two_pow_ne_zero _ 0).mpr h0.1.1)
    have hk1 := slot_ne_king hB .white 60 4 (by decide) hold.1 (by decide) (by decide)
    have hk2 := slot_ne_king hB .white 56 4 (by decide) hold.1 (by decide) (by decide)
    constructor
    · rw [hb, move_castle_pieces_frame pos.board 60 58 56 59 _ (by decide) (by decide)
        (by decide) hk1 hk2]
      exact hold.1
    · rw [hb, move_castle_mailbox_frame _ _ _ _ _ 7 (by decide) (by decide) (by decide)
        (by decide)]
      exact hold.2
  · intro hright
    rw [hcr] at hright
    have h0 := (and_two_pow_ne_zero _ 1).mp hright
    simp only [Nat.testBit_and, Bool.and_eq_true] at h0
    have hold := hWF.castleWQ ((and_two_pow_ne_zero _ 1).mpr h0.1.1)
    have hk1 := slot_ne_king hB .white 60 4 (by decide) hold.1 (by decide) (by decide)
    have hk2 := slot_ne_king hB .white 56 4 (by decide) hold.1 (by decide) (by decide)
    constructor
    · rw [hb, move_castle_pieces_frame pos.board 60 58 56 59 _ (by decide) (by decide)
        (by decide) hk1 hk2]
      exact hold.1
    · rw [hb, move_castle_mailbox_frame _ _ _ _ _ 0 (by decide) (by decide) (by decide)
        (by decide)]
      exact hold.2
  · intro hright
    rw [hcr] at hright
    have h0 := (and_two_pow_ne_zero _ 2).mp hright
    simp only [Nat.testBit_and, Bool.and_eq_true] at h0
    exact absurd h0.1.2 (by decide)
  · intro hright
    rw [hcr] at hright
    have h0 := (and_two_pow_ne_zero _ 3).mp hright
    simp only [Nat.testBit_and, Bool.and_eq_true] at h0
    exact absurd h0.1.2 (by decide)


theorem posWF_piece_seg (pos : Position) (hWF : PosWF pos)
    (pt : PieceType) (hpt : pt ≠ .none) {f t : Nat} {fl : MoveFlag} {pr : PieceType}
    (hm : (⟨f, t, fl, pr⟩ : Move) ∈ genPieceMoves pos pt) :
    PosWF (pos.makeMove ⟨f, t, fl, pr⟩) := by
  have hB := hWF.board
  obtain ⟨hpb, hf, ht, hct, rfl, rfl⟩ := genPieceMoves_facts pos pt hm
  have hmf : pos.board.mailbox f = ⟨pos.sideToMove, pt⟩ :=
    (hB.piecesBit pos.sideToMove pt hpt f hf).mp hpb
  have hmfne : pos.board.mailbox f ≠ noPiece := by
    rw [hmf]
    intro hc
    exact hpt (congrArg (fun p : Piece => p.type) hc)
  have hocct : (pos.board.occupied pos.sideToMove).testBit t = false :=
    (testBit_compl64 (hB.occLt _) hct).2
  have hft : f ≠ t := by
    intro h
    have hocf : (pos.board.occupied pos.sideToMove).testBit f = true :=
      (hB.occBit pos.sideToMove f hf).mpr ⟨hmfne, by rw [hmf]⟩
    rw [h, hocct] at hocf
    exact nomatch hocf
  exact posWF_make_basic pos hWF (fun h => nomatch h) (fun h => nomatch h)
    (fun h => nomatch h) hf ht hft hmfne (fun h => nomatch h) (fun h => nomatch h)

/-- make_move of any pseudo-legal move preserves position well-formedness. -/
theorem PosWF_makeMove (pos : Position) (hWF : PosWF pos)
    (m : Move) (hm : m ∈ pseudoLegal pos) : PosWF (pos.makeMove m) := by
  obtain ⟨f, t, fl, pr⟩ := m
  have hB := hWF.board
  simp only [pseudoLegal, List.mem_append] at hm
  rcases hm with ((((((hmp | hmn) | hmb) | hmr) | hmq) | hmk) | hmc)
  · -- pawn moves
    obtain ⟨-, -, hprom, -⟩ := genPawnMoves_fields pos (hB.piecesLt _ _) hmp
    obtain ⟨hpb, hf, ht, hft, hcase⟩ := genPawnMoves_facts pos (hB.piecesLt _ _) hmp
    have hmf : pos.board.mailbox f = ⟨pos.sideToMove, .pawn⟩ :=
      (hB.piecesBit pos.sideToMove .pawn (fun h => nomatch h) f hf).mp hpb
    have hmfne : pos.board.mailbox f ≠ noPiece := by
      rw [hmf]
      intro hc
      exact nomatch (congrArg (fun p : Piece => p.type) hc)
    rcases hcase with ⟨hfl, -⟩ | ⟨hfl, -, hwdbl, hbdbl⟩ | ⟨hfl, hte, hepne, hwdir, hbdir⟩
    · have hpromo : fl = .promotion → pr ≠ .none ∧ pr ≠ .king := by
        intro hq
        have h4 : pr = .queen ∨ pr = .rook ∨ pr = .bishop ∨ pr = .knight := hprom hq
        rcases h4 with rfl | rfl | rfl | rfl <;>
          exact ⟨(fun h => nomatch h), (fun h => nomatch h)⟩
      rcases hfl with rfl | rfl
      · exact posWF_make_basic pos hWF (fun h => nomatch h) (fun h => nomatch h)
          (fun h => nomatch h) hf ht hft hmfne hpromo (fun h => nomatch h)
      · exact posWF_make_basic pos hWF (fun h => nomatch h) (fun h => nomatch h)
          (fun h => nomatch h) hf ht hft hmfne hpromo (fun h => nomatch h)
    · subst hfl
      refine posWF_make_basic pos hWF (fun h => nomatch h) (fun h => nomatch h)
        (fun h => nomatch h) hf ht hft hmfne (fun h => nomatch h) (fun _ => ⟨?_, ?_⟩)
      · intro hsw
        obtain ⟨hfe, h1, h2, hbit⟩ := hwdbl hsw
        have hm8 : pos.board.mailbox (t - 8) = noPiece := by
          have h0 := (testBit_compl64 hB.allLt hbit).2
          by_contra hne
          rw [(hB.allBit (t - 8) (by omega)).mpr hne] at h0
          exact nomatch h0
        exact ⟨hfe, h1, h2, hm8, by rw [hmf, hsw]⟩
      · intro hsb
        obtain ⟨hfe, h1, h2, hbit⟩ := hbdbl hsb
        have hm8 : pos.board.mailbox (t + 8) = noPiece := by
          have h0 := (testBit_compl64 hB.allLt hbit).2
          by_contra hne
          rw [(hB.allBit (t + 8) (by omega)).mpr hne] at h0
          exact nomatch h0
        exact ⟨hfe, h1, h2, hm8, by rw [hmf, hsb]⟩
    · subst hfl
      rcases hus : pos.sideToMove with _ | _
      · obtain ⟨hrk, hmte, hcp⟩ := (hWF.epOK hepne).1 hus
        rw [← hte] at hrk hmte hcp
        have hdir := hwdir hus
        refine posWF_make_ep pos hWF hf ht ?_ ?_ hft ?_ ?_ hmfne hmte
        · unfold mkSquare fileOf rankOf
          unfold rankOf at hrk
          rcases hdir with ⟨hfe, h7, hm0⟩ | ⟨hfe, h9, hm7⟩ <;> omega
        · unfold mkSquare fileOf rankOf
          unfold rankOf at hrk
          rcases hdir with ⟨hfe, h7, hm0⟩ | ⟨hfe, h9, hm7⟩ <;> omega
        · unfold mkSquare fileOf rankOf
          unfold rankOf at hrk
          rcases hdir with ⟨hfe, h7, hm0⟩ | ⟨hfe, h9, hm7⟩ <;> omega
        · unfold mkSquare fileOf rankOf
          unfold rankOf at hrk
          omega
      · obtain ⟨hrk, hmte, hcp⟩ := (hWF.epOK hepne).2 hus
        rw [← hte] at hrk hmte hcp
        have hdir := hbdir hus
        refine posWF_make_ep pos hWF hf ht ?_ ?_ hft ?_ ?_ hmfne hmte
        · unfold mkSquare fileOf rankOf
          unfold rankOf at hrk
          rcases hdir with ⟨hfe, hm7⟩ | ⟨hfe, hm0⟩ <;> omega
        · unfold mkSquare fileOf rankOf
          unfold rankOf at hrk
          rcases hdir with ⟨hfe, hm7⟩ | ⟨hfe, hm0⟩ <;> omega
        · unfold mkSquare fileOf rankOf
          unfold rankOf at hrk
          rcases hdir with ⟨hfe, hm7⟩ | ⟨hfe, hm0⟩ <;> omega
        · unfold mkSquare fileOf rankOf
          unfold rankOf at hrk
          omega
  · exact posWF_piece_seg pos hWF .knight (fun h => nomatch h) hmn
  · exact posWF_piece_seg pos hWF .bishop (fun h => nomatch h) hmb
  · exact posWF_piece_seg pos hWF .rook (fun h => nomatch h) hmr
  · exact posWF_piece_seg pos hWF .queen (fun h => nomatch h) hmq
  · exact posWF_piece_seg pos hWF .king (fun h => nomatch h) hmk
  · rw [mem_genCastling_iff] at hmc
    obtain ⟨-, hKQ⟩ := hmc
    rcases hus : pos.sideToMove with _ | _
    · simp only [hus, if_true, if_false, reduceCtorEq, reduceIte] at hKQ
      rcases hKQ with ⟨hright, hem5, hem6, -, -, heqm⟩ |
        ⟨hright, -, hem2, hem3, -, -, heqm⟩
      · have hWC := hWF.castleWK hright
        have hks : pos.board.kingSquare Color.white = 4 := by
          unfold Board.kingSquare
          rw [hWC.1]
          decide
        rw [Move.mk.injEq] at heqm
        obtain ⟨hfe, hte2, hfle, hpre⟩ := heqm
        subst hfle
        subst hpre
        have hf4 : f = 4 := by rw [hfe, hks]
        have ht6 : t = 6 := by rw [hte2]; decide
        subst hf4
        subst ht6
        have hm4 : pos.board.mailbox 4 = ⟨.white, .king⟩ :=
          (hB.piecesBit .white .king (fun h => nomatch h) 4 (by decide)).mp
            (by rw [hWC.1]; decide)
        rw [show mkSquare 6 0 = 6 by decide] at hem6
        rw [show mkSquare 5 0 = 5 by decide] at hem5
        have he6 : pos.board.mailbox 6 = noPiece := by
          refine hB.mailboxNone 6 (by decide) ?_
          unfold Board.isEmpty at hem6
          exact of_decide_eq_true hem6
        have he5 : pos.board.mailbox 5 = noPiece := by
          refine hB.mailboxNone 5 (by decide) ?_
          unfold Board.isEmpty at hem5
          exact of_decide_eq_true hem5
        exact posWF_make_castleWK pos hWF (by rw [hm4]; decide)
          (by rw [hWC.2]; decide) he6 he5
      · have hWC := hWF.castleWQ hright
        have hks : pos.board.kingSquare Color.white = 4 := by
          unfold Board.kingSquare
          rw [hWC.1]
          decide
        rw [Move.mk.injEq] at heqm
        obtain ⟨hfe, hte2, hfle, hpre⟩ := heqm
        subst hfle
        subst hpre
        have hf4 : f = 4 := by rw [hfe, hks]
        have ht2 : t = 2 := by rw [hte2]; decide
        subst hf4
        subst ht2
        have hm4 : pos.board.mailbox 4 = ⟨.white, .king⟩ :=
          (hB.piecesBit .white .king (fun h => nomatch h) 4 (by decide)).mp
            (by rw [hWC.1]; decide)
        rw [show mkSquare 2 0 = 2 by decide] at hem2
        rw [show mkSquare 3 0 = 3 by decide] at hem3
        have he2 : pos.board.mailbox 2 = noPiece := by
          refine hB.mailboxNone 2 (by decide) ?_
          unfold Board.isEmpty at hem2
          exact of_decide_eq_true hem2
        have he3 : pos.board.mailbox 3 = noPiece := by
          refine hB.mailboxNone 3 (by decide) ?_
          unfold Board.isEmpty at hem3
          exact of_decide_eq_true hem3
        exact posWF_make_castleWQ pos hWF (by rw [hm4]; decide)
          (by rw [hWC.2]; decide) he2 he3
    · simp only [hus, if_true, if_false, reduceCtorEq, reduceIte] at hKQ
      rcases hKQ with ⟨hright, hem5, hem6, -, -, heqm⟩ |
        ⟨hright, -, hem2, hem3, -, -, heqm⟩
      · have hWC := hWF.castleBK hright
        have hks : pos.board.kingSquare Color.black = 60 := by
          unfold Board.kingSquare
          rw [hWC.1]
          decide
        rw [Move.mk.injEq] at heqm
        obtain ⟨hfe, hte2, hfle, hpre⟩ := heqm
        subst hfle
        subst hpre
        have hf60 : f = 60 := by rw [hfe, hks]
        have ht62 : t = 62 := by rw [hte2]; decide
        subst hf60
        subst ht62
        have hm60 : pos.board.mailbox 60 = ⟨.black, .king⟩ :=
          (hB.piecesBit .black .king (fun h => nomatch h) 60 (by decide)).mp
            (by rw [hWC.1]; decide)
        rw [show mkSquare 6 7 = 62 by decide] at hem6
        rw [show mkSquare 5 7 = 61 by decide] at hem5
        have he62 : pos.board.mailbox 62 = noPiece := by
          refine hB.mailboxNone 62 (by decide) ?_
          unfold Board.isEmpty at hem6
          exact of_decide_eq_true hem6
        have he61 : pos.board.mailbox 61 = noPiece := by
          refine hB.mailboxNone 61 (by decide) ?_
          unfold Board.isEmpty at hem5
          exact of_decide_eq_true hem5
        exact posWF_make_castleBK pos hWF (by rw [hm60]; decide)
          (by rw [hWC.2]; decide) he62 he61
      · have hWC := hWF.castleBQ hright
        have hks : pos.board.kingSquare Color.black = 60 := by
          unfold Board.kingSquare
          rw [hWC.1]
          decide
        rw [Move.mk.injEq] at heqm
        obtain ⟨hfe, hte2, hfle, hpre⟩ := heqm
        subst hfle
        subst hpre
        have hf60 : f = 60 := by rw [hfe, hks]
        have ht58 : t = 58 := by rw [hte2]; decide
        subst hf60
        subst ht58
        have hm60 : pos.board.mailbox 60 = ⟨.black, .king⟩ :=
          (hB.piecesBit .black .king (fun h => nomatch h) 60 (by decide)).mp
            (by rw [hWC.1]; decide)
        rw [show mkSquare 2 7 = 58 by decide] at hem2
        rw [show mkSquare 3 7 = 59 by decide] at hem3
        have he58 : pos.board.mailbox 58 = noPiece := by
          refine hB.mailboxNone 58 (by decide) ?_
          unfold Board.isEmpty at hem2
          exact of_decide_eq_true hem2
        have he59 : pos.board.mailbox 59 = noPiece := by
          refine hB.mailboxNone 59 (by decide) ?_
          unfold Board.isEmpty at hem3
          exact of_decide_eq_true hem3
        exact posWF_make_castleBQ pos hWF (by rw [hm60]; decide)
          (by rw [hWC.2]; decide) he58 he59


/-- Apply a list of moves with make_move, left to right. -/
def applyMoves (pos : Position) : List Move → Position
  | [] => pos
  | m :: ms => applyMoves (pos.makeMove m) ms

/-- Each move of the list is pseudo-legal in the position it is applied to. -/
def PseudoChain (pos : Position) : List Move → Prop
  | [] => True
  | m :: ms => m ∈ pseudoLegal pos ∧ PseudoChain (pos.makeMove m) ms

instance instDecPseudoChain : (pos : Position) → (ms : List Move) →
    Decidable (PseudoChain pos ms)
  | _, [] => .isTrue trivial
  | pos, m :: ms =>
    have : Decidable (PseudoChain (pos.makeMove m) ms) := instDecPseudoChain _ ms
    inferInstanceAs (Decidable (_ ∧ _))

/-- Along any pseudo-legal chain from a well-formed scratch-keyed position,
the incrementally maintained key stays equal to the scratch key. -/
theorem key_chain_aux : ∀ (ms : List Move) (pos : Position), PosWF pos →
    pos.key = computeKeyValue pos.board pos.sideToMove pos.castling pos.enPassant →
    PseudoChain pos ms →
    (applyMoves pos ms).key =
      computeKeyValue (applyMoves pos ms).board (applyMoves pos ms).sideToMove
        (applyMoves pos ms).castling (applyMoves pos ms).enPassant
  | [], _, _, hkey, _ => hkey
  | m :: ms, pos, hWF, hkey, hch =>
    key_chain_aux ms (pos.makeMove m) (PosWF_makeMove pos hWF m hch.1)
      (makeKey_scratch_step pos hWF hkey m hch.1) hch.2

/-- C2 (amended): for every WELL-FORMED position parsed from a descriptor
and every sequence of moves, each pseudo-legal where it is applied, the
Zobrist key maintained incrementally by make_move equals the key computed
from scratch over the resulting position. -/
theorem key_incremental_amended {s : List Char} (pos : Position)
    (hparse : fromFen s = .ok pos) (hWF : PosWF pos)
    (ms : List Move) (hch : PseudoChain pos ms) :
    (applyMoves pos ms).key =
      computeKeyValue (applyMoves pos ms).board (applyMoves pos ms).sideToMove
        (applyMoves pos ms).castling (applyMoves pos ms).enPassant :=
  key_chain_aux ms pos hWF (fromFen_key hparse) hch

/-- C2: the incremental key does NOT always match the scratch key after a
pseudo-legal move on a parsed position: in k7/8/8/8/3p4/4N3/8/K7 b - e3 0 1
(en-passant square e3 occupied by a knight), after the generated en-passant
capture d4xe3 the incremental key differs from compute_key of the resulting
position. -/
theorem key_incremental_counterexample :
    (fromFen ("k7/8/8/8/3p4/4N3/8/K7 b - e3 0 1").data).isOk = true ∧
    PseudoChain epPos [epMove] ∧
    (applyMoves epPos [epMove]).key ≠
      computeKeyValue (applyMoves epPos [epMove]).board
        (applyMoves epPos [epMove]).sideToMove
        (applyMoves epPos [epMove]).castling
        (applyMoves epPos [epMove]).enPassant :=
  ⟨by decide, by decide, by decide⟩

/-- Witness: the parsed start position is well-formed and keyed from
scratch; after the pseudo-legal double push e2e4 the incremental key still
equals the scratch key. -/
theorem key_incremental_amended_witness :
    fromFen startFen = .ok startPos ∧ PosWF startPos ∧
    PseudoChain startPos [⟨12, 28, .doublePawn, .none⟩] ∧
    (applyMoves startPos [⟨12, 28, .doublePawn, .none⟩]).key =
      computeKeyValue (applyMoves startPos [⟨12, 28, .doublePawn, .none⟩]).board
        (applyMoves startPos [⟨12, 28, .doublePawn, .none⟩]).sideToMove
        (applyMoves startPos [⟨12, 28, .doublePawn, .none⟩]).castling
        (applyMoves startPos [⟨12, 28, .doublePawn, .none⟩]).enPassant :=
  have h1 : fromFen startFen = .ok startPos := rfl
  have h2 : PosWF startPos := by decide
  have h3 : PseudoChain startPos [⟨12, 28, .doublePawn, .none⟩] := by decide
  ⟨h1, h2, h3, key_incremental_amended startPos h1 h2 _ h3⟩


end Chessie
